import Mathlib

set_option maxHeartbeats 1000000

/-!
Shallow embedding of the LOB matching engine (repository `sebastianodutola/LOB`,
package `lob_sim` with the stand-in copies under `notebooks/LOB_sim` for the
modules `price_book.py`, `expiration_wheel.py` and `order.py` that `lob_sim`
imports).  Python `dict`s are modelled as association lists, `collections.deque`
as `List`, the `heapq` binary heap by its priority-queue contract (a list kept
sorted ascending, so that `heap[0]` is the minimum), float prices as `ℚ`
extended with the two infinities, Python `int` as `ℤ`, and the graph of mutable
`Order` objects as a store `OrderId → Order` threaded through every operation.
Operations that can raise (`ValueError` / `KeyError` / `IndexError`) return
`Option`, with `none` for the raise.
-/

namespace LOB

/-! ### Association-list helpers (model of Python `dict`) -/
/-- `d[k]` lookup returning `none` on a missing key. -/
def alGet {α β : Type} [DecidableEq α] (l : List (α × β)) (k : α) : Option β :=
  match l with
  | [] => none
  | (k', v) :: rest => if k' = k then some v else alGet rest k

/-- `d[k] = v`: replace in place if the key is present (Python dicts keep the
original insertion position), otherwise append. -/
def alSet {α β : Type} [DecidableEq α] (l : List (α × β)) (k : α) (v : β) :
    List (α × β) :=
  match l with
  | [] => [(k, v)]
  | (k', v') :: rest =>
      if k' = k then (k', v) :: rest else (k', v') :: alSet rest k v

/-- `del d[k]`: drop the first entry with this key. -/
def alErase {α β : Type} [DecidableEq α] (l : List (α × β)) (k : α) :
    List (α × β) :=
  match l with
  | [] => []
  | (k', v') :: rest => if k' = k then rest else (k', v') :: alErase rest k

/-- `deque.remove(x)` / `list.remove(x)`: drop the first occurrence of `x`;
`none` (`ValueError`) if `x` is absent. -/
def listRemove {α : Type} [DecidableEq α] (l : List α) (x : α) :
    Option (List α) :=
  match l with
  | [] => none
  | y :: rest =>
      if y = x then some rest
      else (listRemove rest x).map (fun r => y :: r)

/-! ### Prices: floats together with `float('inf')` / `-float('inf')` -/
/-- A Python float price: finite values are modelled on `ℚ`, and the two
infinities used as market-order sentinels are explicit constructors. -/
inductive Price where
  | negInf : Price
  | fin : ℚ → Price
  | posInf : Price
deriving DecidableEq, Repr

namespace Price

/-- Python `<=` on prices. -/
def le : Price → Price → Bool
  | negInf, _ => true
  | _, posInf => true
  | fin a, fin b => a ≤ b
  | fin _, negInf => false
  | posInf, _ => false

/-- Python `>=` on prices. -/
def ge (a b : Price) : Bool := le b a

/-- Python unary minus, used by the bid-side heap (`-price`). -/
def neg : Price → Price
  | negInf => posInf
  | fin a => fin (-a)
  | posInf => negInf

/-- Python truthiness of a float: everything is truthy except `0.0`
(infinities are truthy). -/
def isTruthy : Price → Bool
  | fin a => a ≠ 0
  | _ => true

/-- Value of a price as a rational, for notional arithmetic.  The engine only
ever multiplies *level* prices (finite in every run the spec describes) into
notionals; the infinities are given the junk value `0` here. -/
def ratValue : Price → ℚ
  | fin a => a
  | _ => 0

end Price

/-! ### Orders (`core/order.py`) -/
/-- The mutable fields of a Python `Order` object.  The object identity (its
`id` attribute) is the key under which the record lives in the `Store` below,
so it is not repeated inside the record.  `price=None` (the Python default,
never submitted to a book by any caller in the repository) is outside the
model; every embedded order carries a comparable price. -/
structure Order where
  price : Price
  volume : ℤ
  is_bid : Bool
  is_market : Bool
  trader_id : Option ℤ
  lifetime : Option ℕ
deriving DecidableEq, Repr

instance : Inhabited Order :=
  ⟨{ price := Price.fin 0, volume := 0, is_bid := true, is_market := false,
     trader_id := none, lifetime := none }⟩

abbrev OrderId := ℕ

/-- The graph of live Python `Order` objects, keyed by `Order.id`.  Every
structure of the engine (levels, order maps, trades) holds ids into this store,
mirroring how the Python objects are shared by reference and mutated in
place. -/
abbrev Store := OrderId → Order

/-- `Order.__init__`: stores the arguments verbatim and assigns
`Order._id_counter` as the id, then increments the counter.  No argument is
validated.  Returns `(assigned id, order record, new counter)`. -/
def mkOrder (price : Price) (volume : ℤ) (is_bid : Bool) (is_market : Bool)
    (trader_id : Option ℤ) (lifetime : Option ℕ) (counter : ℕ) :
    ℕ × Order × ℕ :=
  (counter,
   { price := price, volume := volume, is_bid := is_bid, is_market := is_market,
     trader_id := trader_id, lifetime := lifetime },
   counter + 1)

/-- `MarketOrder.__init__`: price is `+inf` for a buy and `-inf` for a sell,
`is_market` is set, `lifetime` is left at its default `None`. -/
def mkMarketOrder (volume : ℤ) (is_bid : Bool) (trader_id : Option ℤ)
    (counter : ℕ) : ℕ × Order × ℕ :=
  mkOrder (if is_bid then Price.posInf else Price.negInf) volume is_bid true
    trader_id none counter

/-! ### Trades (`core/trade.py`) -/
/-- `Trade.__init__`: a receipt holding references (ids) to the bid and ask
orders plus execution price and volume. -/
structure Trade where
  bid_id : OrderId
  ask_id : OrderId
  price : Price
  volume : ℤ
deriving DecidableEq, Repr

/-! ### PriceLevel (`orderbook/price_level.py`) -/
/-- A FIFO queue of resting orders at one price plus the running `volume`
field maintained by the Python code (`volume` is *whatever the code computes*,
which the theorems below compare against the actual sum of order volumes). -/
structure PriceLevel where
  price : Price
  orders : List OrderId
  volume : ℤ
deriving DecidableEq, Repr

namespace PriceLevel

/-- `PriceLevel.__init__`. -/
def init (price : Price) : PriceLevel :=
  { price := price, orders := [], volume := 0 }

/-- `PriceLevel.add`: append to the tail, `volume += order.volume`. -/
def add (σ : Store) (lvl : PriceLevel) (oid : OrderId) : PriceLevel :=
  { lvl with orders := lvl.orders ++ [oid],
             volume := lvl.volume + (σ oid).volume }

/-- `PriceLevel._top`: head of the queue, `None` when empty. -/
def top (lvl : PriceLevel) : Option OrderId :=
  lvl.orders.head?

/-- `PriceLevel._pop`: pop the head and subtract its (current) volume from the
level's `volume` field; `none` models the `IndexError` on an empty level. -/
def pop (σ : Store) (lvl : PriceLevel) : Option (OrderId × PriceLevel) :=
  match lvl.orders with
  | [] => none
  | o :: rest =>
      some (o, { lvl with orders := rest,
                          volume := lvl.volume - (σ o).volume })

/-- `PriceLevel.is_empty`. -/
def is_empty (lvl : PriceLevel) : Bool :=
  lvl.orders.length == 0

/-- `PriceLevel.cancel`: remove this specific order from the FIFO
(`deque.remove`, first occurrence), `volume -= order.volume`; `none` models
the `ValueError` when the order is not present. -/
def cancel (σ : Store) (lvl : PriceLevel) (oid : OrderId) : Option PriceLevel :=
  (listRemove lvl.orders oid).map fun rest =>
    { lvl with orders := rest, volume := lvl.volume - (σ oid).volume }

end PriceLevel

/-- The store effect of one matching round:
`top_order.volume -= tv; order.volume -= tv` (two sequential in-place
updates of the shared `Order` objects). -/
def tradeUpd (σ : Store) (topId inId : OrderId) (tv : ℤ) : Store :=
  let σ₁ := Function.update σ topId
    { σ topId with volume := (σ topId).volume - tv }
  Function.update σ₁ inId { σ₁ inId with volume := (σ₁ inId).volume - tv }

/-- `bid = order if is_bid else top_order; ask = top_order if is_bid else
order; Trade(bid, ask, self.price, trade_volume)`. -/
def levelTrade (is_bid : Bool) (inId topId : OrderId) (price : Price)
    (tv : ℤ) : Trade :=
  { bid_id := if is_bid then inId else topId,
    ask_id := if is_bid then topId else inId,
    price := price, volume := tv }

namespace PriceLevel

/-- `PriceLevel.fill`: the matching loop
`while not self.is_empty() and order.volume > 0`.  Each round inspects the
head `top`:
* `top.volume > order.volume`: trade the incoming volume, the head keeps its
  place; both orders and the level `volume` are decremented, and the loop
  exits on its next test because the incoming volume has become `0`;
* `top.volume == order.volume`: `_pop` the head (which already subtracts the
  head's volume from the level `volume` field), then decrement both orders
  and the level `volume` field again; the loop exits as above;
* `top.volume < order.volume`: `_pop` the head, decrement as above, continue.
In the two `_pop` branches the direct return / recursion is exactly the
loop's behaviour, since after them the incoming volume is respectively `0`
(no further round) or still positive (a further round).
Returns `(store, level, trades, level_orders_filled)`. -/
def fillAux (inId : OrderId) (is_bid : Bool) (price : Price) (σ : Store)
    (queue : List OrderId) (lvol : ℤ) :
    Store × List OrderId × ℤ × List Trade × List OrderId :=
  match queue with
  | [] => (σ, [], lvol, [], [])
  | topId :: rest =>
      if (σ inId).volume ≤ 0 then (σ, topId :: rest, lvol, [], [])
      else
        let topOrder := σ topId
        if topOrder.volume > (σ inId).volume then
          let tv := (σ inId).volume
          (tradeUpd σ topId inId tv, topId :: rest, lvol - tv,
           [levelTrade is_bid inId topId price tv], [])
        else if topOrder.volume = (σ inId).volume then
          let tv := (σ inId).volume
          -- `_pop` subtracts `top.volume`, the loop body subtracts `tv` again
          (tradeUpd σ topId inId tv, rest, lvol - topOrder.volume - tv,
           [levelTrade is_bid inId topId price tv], [topId])
        else
          let tv := topOrder.volume
          let σ' := tradeUpd σ topId inId tv
          let res := fillAux inId is_bid price σ' rest
            (lvol - topOrder.volume - tv)
          (res.1, res.2.1, res.2.2.1,
           levelTrade is_bid inId topId price tv :: res.2.2.2.1,
           topId :: res.2.2.2.2)

/-- Repackage `fillAux`'s result around the level structure. -/
def fill (σ : Store) (lvl : PriceLevel) (inId : OrderId) :
    Store × PriceLevel × List Trade × List OrderId :=
  let r := fillAux inId (σ inId).is_bid lvl.price σ lvl.orders lvl.volume
  (r.1, { lvl with orders := r.2.1, volume := r.2.2.1 }, r.2.2.2.1, r.2.2.2.2)

end PriceLevel

/-- Sum of the volumes of the trades in which `j` takes part (counting a
bid-side and an ask-side occurrence separately). -/
def touchVol (j : OrderId) (ts : List Trade) : ℤ :=
  ((ts.filter (fun t => t.bid_id = j)).map (fun t => t.volume)).sum +
    ((ts.filter (fun t => t.ask_id = j)).map (fun t => t.volume)).sum

/-! ### PriceBook (`orderbook/price_book.py`) -/
/-- `dict` key insertion for the id index `order_map`: ids are unique, a
re-inserted key keeps its position. -/
def insertKey (l : List OrderId) (k : OrderId) : List OrderId :=
  if k ∈ l then l else l ++ [k]

/-- `heapq.heappush`, by the priority-queue contract the engine relies on:
the heap is kept ascending so that `heap[0]` is the minimum and `heappop`
removes it. -/
def heapPush (h : List Price) (p : Price) : List Price :=
  match h with
  | [] => [p]
  | q :: rest => if p.le q then p :: q :: rest else q :: heapPush rest p

/-- One side of the book: the id index `order_map` (ids into the store),
`_price_levels` keyed by price, the `_heap` of (bid-negated) prices, and the
immutable side flag. -/
structure PriceBook where
  order_map : List OrderId
  levels : List (Price × PriceLevel)
  heap : List Price
  is_bid_side : Bool
deriving DecidableEq, Repr

namespace PriceBook

/-- `PriceBook.__init__`. -/
def init (is_bid_side : Bool) : PriceBook :=
  { order_map := [], levels := [], heap := [], is_bid_side := is_bid_side }

/-- The heap entry for a price on this side (`-price` on the bid side). -/
def heapKey (book : PriceBook) (p : Price) : Price :=
  if book.is_bid_side then p.neg else p

/-- The price denoted by a heap entry (`-heap[0]` on the bid side). -/
def heapVal (book : PriceBook) (hp : Price) : Price :=
  if book.is_bid_side then hp.neg else hp

/-- `PriceBook.add`: create the level and push its price onto the heap if the
price is new, then append the order to the level and index it in
`order_map`.  The `getD` default on the second lookup is dead code: the level
at `price` exists at that point by construction. -/
def add (σ : Store) (book : PriceBook) (oid : OrderId) : PriceBook :=
  let price := (σ oid).price
  let book₁ :=
    match alGet book.levels price with
    | some _ => book
    | none =>
        { book with levels := alSet book.levels price (PriceLevel.init price),
                    heap := heapPush book.heap (book.heapKey price) }
  let lvl := (alGet book₁.levels price).getD (PriceLevel.init price)
  { book₁ with levels := alSet book₁.levels price (PriceLevel.add σ lvl oid),
               order_map := insertKey book₁.order_map oid }

/-- `PriceBook.cancel`: delegate to the level at `order.price` (`ValueError`
as `none` when the price or the order is missing), then delete the id from
`order_map` (`KeyError` as `none`). -/
def cancel (σ : Store) (book : PriceBook) (oid : OrderId) : Option PriceBook :=
  let price := (σ oid).price
  match alGet book.levels price with
  | none => none
  | some lvl =>
      match lvl.cancel σ oid with
      | none => none
      | some lvl' =>
          if oid ∈ book.order_map then
            some { book with levels := alSet book.levels price lvl',
                             order_map := book.order_map.erase oid }
          else none

/-- The lazy-cleanup loop inside `get_best_price`, over a side flag, the
heap and the levels dict: peek the heap top; while the level there is empty,
pop the heap entry and delete the level.  Stops at the first live level,
returning the surviving heap, levels and best price (`none` when the heap
runs out).  A heap price with no level in `_price_levels` is the `KeyError`
path, returned as `none`. -/
def purgeAux (side : Bool) (heap : List Price)
    (levels : List (Price × PriceLevel)) :
    Option ((List Price × List (Price × PriceLevel)) × Option Price) :=
  match heap with
  | [] => some (([], levels), none)
  | hp :: rest =>
      let best := if side then hp.neg else hp
      match alGet levels best with
      | none => none
      | some lvl =>
          if lvl.is_empty then purgeAux side rest (alErase levels best)
          else some ((hp :: rest, levels), some best)

/-- The purge loop on the book structure. -/
def purge (book : PriceBook) : Option (PriceBook × Option Price) :=
  (purgeAux book.is_bid_side book.heap book.levels).map fun r =>
    ({ book with heap := r.1.1, levels := r.1.2 }, r.2)

/-- `PriceBook.get_best_price`: `None` outright on an empty `_price_levels`
dict, otherwise the lazy-cleanup loop above. -/
def get_best_price (book : PriceBook) : Option (PriceBook × Option Price) :=
  if book.levels.isEmpty then some (book, none) else purge book

/-- `PriceBook.get_depth`: sum of the levels' `volume` fields. -/
def get_depth (book : PriceBook) : ℤ :=
  (book.levels.map (fun kv => kv.2.volume)).sum

/-- `del self.order_map[o.id]` for each fully-filled order, `KeyError` as
`none`. -/
def delOrders (om : List OrderId) (ids : List OrderId) : Option (List OrderId) :=
  match ids with
  | [] => some om
  | i :: rest => if i ∈ om then delOrders (om.erase i) rest else none

/-- Heap length of the book left behind by the purge loop (`0` on the
`KeyError` path); the termination bound of `PriceBook.fill` is built
from it. -/
def purgedLen (book : PriceBook) : ℕ :=
  match purge book with
  | some (b', _) => b'.heap.length
  | none => 0

/-- Same bound through `get_best_price`. -/
def bestLen (book : PriceBook) : ℕ :=
  match get_best_price book with
  | some (b', _) => b'.heap.length
  | none => 0

/-- The loop measure of `PriceBook.fill`: heap length after cleanup, plus
one while the incoming order still has volume.  `fill_round_decrease` shows
every matching round strictly decreases it. -/
def fillMeasure (σ : Store) (book : PriceBook) (inId : OrderId) : ℕ :=
  bestLen book + (if 0 < (σ inId).volume then 1 else 0)

/-- The matching loop of `PriceBook.fill`
(`while best_price and order.volume > 0`).  The loop recomputes the best
price at the top of every round, which performs exactly the source's call
sequence: one `best_price()` before the loop plus one at the end of every
round.  (The source file defines the method under the name
`get_best_price`; its `fill` and its class docstring refer to it as
`best_price`.)  Per round: Python float truthiness on the best price (so a
best price of `0.0` stops the loop), the crossing test
(`best >= price` on the bid side, `best <= price` on the ask side), the
level fill, deletion of every fully-filled order from `order_map`
(`KeyError` as `none`).

The explicit `fuel` only bounds the recursion so that the definition
computes by structural recursion; `fill_round_decrease` shows each round
strictly decreases `fillMeasure`, so any fuel above the measure — such as
the `fillMeasure + 1` used by `fillLoop` — gives the loop's true result
(`fillLoopF_congr`), and the `fuel = 0` branch is never reached from
`fillLoop`. -/
def fillLoopF (fuel : ℕ) (σ : Store) (book : PriceBook) (inId : OrderId) :
    Option (Store × PriceBook × List Trade) :=
  match fuel with
  | 0 => none
  | fuel + 1 =>
      match get_best_price book with
      | none => none
      | some (book₀, none) => some (σ, book₀, [])
      | some (book₀, some bp) =>
          if bp.isTruthy = true ∧ 0 < (σ inId).volume then
            if (if book₀.is_bid_side then bp.ge (σ inId).price
                else bp.le (σ inId).price) = true then
              match alGet book₀.levels bp with
              | none => none
              | some lvl =>
                  match delOrders book₀.order_map
                      (PriceLevel.fill σ lvl inId).2.2.2 with
                  | none => none
                  | some om' =>
                      match fillLoopF fuel (PriceLevel.fill σ lvl inId).1
                          { book₀ with
                            levels := alSet book₀.levels bp
                              (PriceLevel.fill σ lvl inId).2.1,
                            order_map := om' } inId with
                      | none => none
                      | some (σ', book₂, trades) =>
                          some (σ', book₂,
                            (PriceLevel.fill σ lvl inId).2.2.1 ++ trades)
            else some (σ, book₀, [])
          else some (σ, book₀, [])

/-- The loop entry point: fuel one above the measure, so the bound never
bites. -/
def fillLoop (σ : Store) (book : PriceBook) (inId : OrderId) :
    Option (Store × PriceBook × List Trade) :=
  fillLoopF (fillMeasure σ book inId + 1) σ book inId

def fill (σ : Store) (book : PriceBook) (inId : OrderId) :
    Option (Store × PriceBook × List Trade) :=
  if (σ inId).is_bid == book.is_bid_side then none
  else fillLoop σ book inId

end PriceBook

/-! ### TradesNotification (`core/trade.py`) -/
/-- Per-order aggregation of one batch's fills.  `price_volume` is the
`dict` price → filled volume; notionals are on `ℚ` (float arithmetic of the
source, via `Price.ratValue`). -/
structure TradesNotification where
  trader_id : Option ℤ
  order_id : OrderId
  is_bid : Bool
  price_volume : List (Price × ℤ)
  num_trades : ℕ
  total_filled_volume : ℤ
  total_notional : ℚ
  remaining_volume : ℤ
  is_filled : Bool
deriving DecidableEq, Repr

namespace TradesNotification

/-- `TradesNotification.__init__(order)`: aggregates start at zero;
`remaining_volume` and `is_filled` are computed from the order's volume *at
construction time*. -/
def init (oid : OrderId) (o : Order) : TradesNotification :=
  { trader_id := o.trader_id, order_id := oid, is_bid := o.is_bid,
    price_volume := [], num_trades := 0, total_filled_volume := 0,
    total_notional := 0, remaining_volume := o.volume,
    is_filled := o.volume == 0 }

/-- `TradesNotification.add_trade`: bumps `price_volume[price]`
(`dict.get(price, 0) + volume`), `num_trades`, `total_filled_volume` and
`total_notional`; nothing else. -/
def add_trade (n : TradesNotification) (t : Trade) : TradesNotification :=
  { n with
    price_volume := alSet n.price_volume t.price
      ((alGet n.price_volume t.price).getD 0 + t.volume),
    num_trades := n.num_trades + 1,
    total_filled_volume := n.total_filled_volume + t.volume,
    total_notional := n.total_notional + t.price.ratValue * (t.volume : ℚ) }

end TradesNotification

/-! ### ExpirationWheel (`orderbook/expiration_wheel.py`) -/
/-- Circular buffer of `max_lifetime` buckets of order ids plus the cursor
`now`. -/
structure ExpirationWheel where
  max_lifetime : ℕ
  min_lifetime : ℕ
  expiration_bucket : List (List OrderId)
  now : ℕ
deriving DecidableEq, Repr

namespace ExpirationWheel

/-- `ExpirationWheel.__init__`. -/
def init (min_lifetime max_lifetime : ℕ) : ExpirationWheel :=
  { max_lifetime := max_lifetime, min_lifetime := min_lifetime,
    expiration_bucket := List.replicate max_lifetime [], now := 0 }

/-- `ExpirationWheel.schedule`: `lifetime = order.lifetime` or the default
`min_lifetime`; append the id to bucket `(now + lifetime) % max_lifetime`. -/
def schedule (w : ExpirationWheel) (σ : Store) (oid : OrderId) :
    ExpirationWheel :=
  let lifetime := ((σ oid).lifetime).getD w.min_lifetime
  let expiration := (w.now + lifetime) % w.max_lifetime
  { w with
    expiration_bucket := w.expiration_bucket.set expiration
      ((w.expiration_bucket.getD expiration []) ++ [oid]) }

/-- `ExpirationWheel.advance`: step the cursor, take that bucket's contents
(leaving it empty) and return them. -/
def advance (w : ExpirationWheel) : ExpirationWheel × List OrderId :=
  let now' := (w.now + 1) % w.max_lifetime
  let expired := w.expiration_bucket.getD now' []
  ({ w with
      now := now',
      expiration_bucket := w.expiration_bucket.set now' [] },
   expired)

end ExpirationWheel

/-! ### OrderBook (`orderbook/order_book.py`) -/
/-- The façade: the two side books, the wheel, and the append-only
`trade_history` of `[volume_traded, total_exchanged]` pairs. -/
structure OrderBook where
  bids : PriceBook
  asks : PriceBook
  expiration_wheel : ExpirationWheel
  trade_history : List (ℤ × ℚ)
deriving DecidableEq, Repr

namespace OrderBook

/-- `OrderBook.__init__` (the source defaults `min_lifetime=3`,
`max_lifetime=10_000` are supplied by the caller here). -/
def init (min_lifetime : ℕ) (max_lifetime : ℕ) : OrderBook :=
  { bids := PriceBook.init true, asks := PriceBook.init false,
    expiration_wheel := ExpirationWheel.init min_lifetime max_lifetime,
    trade_history := [] }

/-- `OrderBook.get_best_bid` (mutates through the lazy purge). -/
def get_best_bid (ob : OrderBook) : Option (OrderBook × Option Price) :=
  (ob.bids.get_best_price).map fun r => ({ ob with bids := r.1 }, r.2)

/-- `OrderBook.get_best_ask`. -/
def get_best_ask (ob : OrderBook) : Option (OrderBook × Option Price) :=
  (ob.asks.get_best_price).map fun r => ({ ob with asks := r.1 }, r.2)

/-- `OrderBook.get_bid_depth`. -/
def get_bid_depth (ob : OrderBook) : ℤ :=
  ob.bids.get_depth

/-- `OrderBook.get_ask_depth`. -/
def get_ask_depth (ob : OrderBook) : ℤ :=
  ob.asks.get_depth

/-- The per-order body of the `process_orders` loop: match against the
opposite side, then — `if order.volume and not order.is_market` (int
truthiness) — schedule in the wheel and insert into the same side. -/
def processOne (σ : Store) (ob : OrderBook) (oid : OrderId) :
    Option (Store × OrderBook × List Trade) :=
  let side := (σ oid).is_bid
  match (if side then PriceBook.fill σ ob.asks oid
         else PriceBook.fill σ ob.bids oid) with
  | none => none
  | some (σ₁, book', trades) =>
      let ob₁ := if side then { ob with asks := book' }
                 else { ob with bids := book' }
      let ob₂ :=
        if (σ₁ oid).volume ≠ 0 ∧ (σ₁ oid).is_market = false then
          let w := ob₁.expiration_wheel.schedule σ₁ oid
          if side then
            { ob₁ with expiration_wheel := w,
                       bids := PriceBook.add σ₁ ob₁.bids oid }
          else
            { ob₁ with expiration_wheel := w,
                       asks := PriceBook.add σ₁ ob₁.asks oid }
        else ob₁
      some (σ₁, ob₂, trades)

/-- The `for order in orders` loop of `process_orders`, accumulating the
batch's trades. -/
def processLoop (σ : Store) (ob : OrderBook) (oids : List OrderId) :
    Option (Store × OrderBook × List Trade) :=
  match oids with
  | [] => some (σ, ob, [])
  | oid :: rest =>
      match processOne σ ob oid with
      | none => none
      | some (σ₁, ob₁, trades₁) =>
          (processLoop σ₁ ob₁ rest).map fun r => (r.1, r.2.1, trades₁ ++ r.2.2)

end OrderBook

/-- One side's get-or-create-then-`add_trade` step inside
`_process_trades` (`if trader_id is not None: ...`).  `onotifs` is
`order_notifs : {order_id: TradesNotification}`; `tnotifs` is
`trader_notifs : {trader_id: [notifications]}`, holding ids because the
Python lists alias the very objects stored in `order_notifs`. -/
def notifSide (σ : Store) (oid : OrderId) (t : Trade)
    (onotifs : List (OrderId × TradesNotification))
    (tnotifs : List (ℤ × List OrderId)) :
    List (OrderId × TradesNotification) × List (ℤ × List OrderId) :=
  match (σ oid).trader_id with
  | none => (onotifs, tnotifs)
  | some trader =>
      let acc :=
        match alGet onotifs oid with
        | some _ => (onotifs, tnotifs)
        | none =>
            (alSet onotifs oid (TradesNotification.init oid (σ oid)),
             alSet tnotifs trader ((alGet tnotifs trader).getD [] ++ [oid]))
      match alGet acc.1 oid with
      | some n => (alSet acc.1 oid (n.add_trade t), acc.2)
      | none => acc    -- dead: the entry was just created above

namespace OrderBook

/-- `OrderBook._process_trades`: totals for `trade_history` plus the
aggregation loop over the batch's trades (bid side then ask side of each
trade).  Returns the updated book and both notification maps. -/
def process_trades (σ : Store) (ob : OrderBook) (trades : List Trade) :
    OrderBook × List (OrderId × TradesNotification) × List (ℤ × List OrderId) :=
  let volume_traded : ℤ := (trades.map (fun t => t.volume)).sum
  let total_exchanged : ℚ :=
    (trades.map (fun t => t.price.ratValue * (t.volume : ℚ))).sum
  let maps := trades.foldl
    (fun acc t =>
      let acc₁ := notifSide σ t.bid_id t acc.1 acc.2
      notifSide σ t.ask_id t acc₁.1 acc₁.2)
    ([], [])
  ({ ob with trade_history :=
      ob.trade_history ++ [(volume_traded, total_exchanged)] },
   maps.1, maps.2)

/-- The `{trader_id: [TradesNotification, ...]}` result that
`_process_trades` returns: each trader's list of (aliased) notification
objects, materialised from the id lists. -/
def notifOut (onotifs : List (OrderId × TradesNotification))
    (tnotifs : List (ℤ × List OrderId)) :
    List (ℤ × List TradesNotification) :=
  tnotifs.map fun kv => (kv.1, kv.2.filterMap (alGet onotifs))

/-- `OrderBook.process_orders`: the matching loop over the batch followed by
`_process_trades`. -/
def process_orders (σ : Store) (ob : OrderBook) (oids : List OrderId) :
    Option (Store × OrderBook × List (ℤ × List TradesNotification)) :=
  match processLoop σ ob oids with
  | none => none
  | some (σ', ob', trades) =>
      let r := process_trades σ' ob' trades
      some (σ', r.1, notifOut r.2.1 r.2.2)

/-- `OrderBook.process_cancellations`: look each id up in the bid map, then
the ask map; delegate to that side's `cancel`; ids found in neither are
skipped. -/
def process_cancellations (σ : Store) (ob : OrderBook) (ids : List OrderId) :
    Option OrderBook :=
  match ids with
  | [] => some ob
  | oid :: rest =>
      if oid ∈ ob.bids.order_map then
        match PriceBook.cancel σ ob.bids oid with
        | none => none
        | some b => process_cancellations σ { ob with bids := b } rest
      else if oid ∈ ob.asks.order_map then
        match PriceBook.cancel σ ob.asks oid with
        | none => none
        | some a => process_cancellations σ { ob with asks := a } rest
      else
        process_cancellations σ ob rest

/-- `OrderBook.advance`: step the wheel, cancel what it emits. -/
def advance (σ : Store) (ob : OrderBook) : Option OrderBook :=
  let r := ob.expiration_wheel.advance
  process_cancellations σ { ob with expiration_wheel := r.1 } r.2

/-- `k` consecutive `advance()` calls. -/
def advanceN (σ : Store) (ob : OrderBook) : ℕ → Option OrderBook
  | 0 => some ob
  | k + 1 =>
      match advance σ ob with
      | none => none
      | some ob₁ => advanceN σ ob₁ k

/-- `OrderBook.unfilled_orders(trader_id)`: `(id, price, volume)` of every
resting order of this trader, asks then bids (`itertools.chain`). -/
def unfilled_orders (σ : Store) (ob : OrderBook) (trader : ℤ) :
    List (OrderId × Price × ℤ) :=
  ((ob.asks.order_map ++ ob.bids.order_map).filter
      (fun i => (σ i).trader_id = some trader)).map
    fun i => (i, (σ i).price, (σ i).volume)

/-- Modelled from the spec: `OrderBook.clear` is called by
`experiments/book_benchmark/validate_lob.py` but its implementation (the
`lob` package's engine) is not under `src/`; the spec says
"`clear()` — reset all state except the global id counter."  All engine
state (both side books, the wheel, the trade history) is reset; the
id counter lives outside the `OrderBook` (it is `Order._id_counter`) and is
left untouched. -/
def clear (ob : OrderBook) : OrderBook :=
  { bids := PriceBook.init true, asks := PriceBook.init false,
    expiration_wheel := ExpirationWheel.init
      ob.expiration_wheel.min_lifetime ob.expiration_wheel.max_lifetime,
    trade_history := [] }

end OrderBook

/-! ## Claim theorems -/
/-- The store of the C2 scenario (the spec's seed test 2): orders `0`, `1`,
`2` are limit bids of volume 5 at price 100; order `3` is a market sell of
volume 7. -/
def c2Store : Store := fun i =>
  if i < 3 then
    { price := Price.fin 100, volume := 5, is_bid := true, is_market := false,
      trader_id := some 1, lifetime := none }
  else
    { price := Price.negInf, volume := 7, is_bid := false, is_market := true,
      trader_id := some 2, lifetime := none }

/-- The C3 witness scenario: order `0` is a resting bid of volume 10 at
price 100, order `1` an incoming market sell of volume 3. -/
def c3Store : Store := fun i =>
  if i = 0 then
    { price := Price.fin 100, volume := 10, is_bid := true, is_market := false,
      trader_id := none, lifetime := none }
  else
    { price := Price.negInf, volume := 3, is_bid := false, is_market := true,
      trader_id := some 7, lifetime := none }

/-- Its one-order price level. -/
def c3Level : PriceLevel :=
  PriceLevel.add c3Store (PriceLevel.init (Price.fin 100)) 0

/-! ## Side-book invariant and cancellation lemmas -/
/-- The id `id` of `order_map` really rests in the level at its price. -/
def residentOk (σ : Store) (book : PriceBook) (id : OrderId) : Bool :=
  match alGet book.levels (σ id).price with
  | some lvl => id ∈ lvl.orders
  | none => false

/-- The part of the `PriceBook` invariant the cancellation path relies on:
the id index has no duplicates and each indexed order rests in the level at
its price. -/
def SideInv (σ : Store) (book : PriceBook) : Prop :=
  book.order_map.Nodup ∧ ∀ id ∈ book.order_map, residentOk σ book id = true

instance (σ : Store) (book : PriceBook) : Decidable (SideInv σ book) :=
  inferInstanceAs (Decidable (book.order_map.Nodup ∧
    ∀ id ∈ book.order_map, residentOk σ book id = true))

/-- The C7 witness bid side: one resting bid (id 0, price 100, volume 5). -/
def c7Bids : PriceBook :=
  { order_map := [0],
    levels := [(Price.fin 100,
      { price := Price.fin 100, orders := [0], volume := 5 })],
    heap := [Price.neg (Price.fin 100)],
    is_bid_side := true }

/-- The C7 witness book: the bid side above, empty ask side. -/
def c7Book : OrderBook :=
  { bids := c7Bids,
    asks := PriceBook.init false,
    expiration_wheel := ExpirationWheel.init 3 5,
    trade_history := [] }

/-- Store of the C7 witness. -/
def c7Store : Store := fun _ =>
  { price := Price.fin 100, volume := 5, is_bid := true, is_market := false,
    trader_id := none, lifetime := none }

/-- The C6 counterexample store: order 0 is a bid (price 100, volume 10)
with lifetime 2; order 1 a bid (price 101, volume 5) with lifetime 1. -/
def c6Store : Store := fun i =>
  if i = 0 then
    { price := Price.fin 100, volume := 10, is_bid := true, is_market := false,
      trader_id := none, lifetime := some 2 }
  else
    { price := Price.fin 101, volume := 5, is_bid := true, is_market := false,
      trader_id := none, lifetime := some 1 }

/-- Its bid side: both orders resting. -/
def c6Bids : PriceBook :=
  { order_map := [0, 1],
    levels := [(Price.fin 100,
        { price := Price.fin 100, orders := [0], volume := 10 }),
      (Price.fin 101,
        { price := Price.fin 101, orders := [1], volume := 5 })],
    heap := [Price.neg (Price.fin 101), Price.neg (Price.fin 100)],
    is_bid_side := true }

/-- The C6 counterexample wheel: id 1 due in bucket 1 (lifetime 1), id 0 in
bucket 2 (lifetime 2), cursor at 0. -/
def c6Wheel : ExpirationWheel :=
  { max_lifetime := 5, min_lifetime := 3,
    expiration_bucket := [[], [1], [0], [], []], now := 0 }

/-- The C6 counterexample book: both bids resting, the wheel above. -/
def c6Book : OrderBook :=
  { bids := c6Bids,
    asks := PriceBook.init false,
    expiration_wheel := c6Wheel,
    trade_history := [] }

/-- The C6 witness wheel: empty, five buckets, cursor 0. -/
def c6wWheel : ExpirationWheel :=
  { max_lifetime := 5, min_lifetime := 3,
    expiration_bucket := [[], [], [], [], []], now := 0 }

/-- The C6 witness store: order 0 is a bid of volume 10 at price 100 with
lifetime 2. -/
def c6wStore : Store := fun _ =>
  { price := Price.fin 100, volume := 10, is_bid := true, is_market := false,
    trader_id := none, lifetime := some 2 }

/-- The C6 witness bid side: the single resting bid. -/
def c6wBids : PriceBook :=
  { order_map := [0],
    levels := [(Price.fin 100,
      { price := Price.fin 100, orders := [0], volume := 10 })],
    heap := [Price.neg (Price.fin 100)],
    is_bid_side := true }

/-- The C6 witness book: the single bid resting, scheduled on the wheel. -/
def c6wBook : OrderBook :=
  { bids := c6wBids,
    asks := PriceBook.init false,
    expiration_wheel := ExpirationWheel.schedule c6wWheel c6wStore 0,
    trade_history := [] }

/-- Level sanity on one side, relative to an incoming order: every level
entry has duplicate-free orders not containing the incoming id, and its
`price` field matches its dict key. -/
def LevelsWF (inId : OrderId) (book : PriceBook) : Prop :=
  ∀ kv ∈ book.levels, (kv.2 : PriceLevel).orders.Nodup ∧
    inId ∉ (kv.2 : PriceLevel).orders ∧ (kv.2 : PriceLevel).price = kv.1

instance (inId : OrderId) (book : PriceBook) : Decidable (LevelsWF inId book) :=
  inferInstanceAs (Decidable (∀ kv ∈ book.levels, _ ∧ _ ∧ _))

/-- No order rests at two levels of the same side. -/
def LevelsDisj (book : PriceBook) : Prop :=
  book.levels.Pairwise
    (fun a b => ∀ x ∈ (a.2 : PriceLevel).orders, x ∉ (b.2 : PriceLevel).orders)

instance (book : PriceBook) : Decidable (LevelsDisj book) :=
  inferInstanceAs (Decidable (List.Pairwise _ _))

/-- The heap is ascending — `heapq`'s invariant, under which `heap[0]` is
the minimum. -/
def heapSorted (book : PriceBook) : Prop :=
  book.heap.Pairwise (fun a b => Price.le a b = true)

instance (book : PriceBook) : Decidable (heapSorted book) :=
  inferInstanceAs (Decidable (List.Pairwise _ _))

/-! ### C1: the `PriceBook.fill` loop -/
/-- Incoming bid `0` (price 12, volume 4) against resting asks `1`
(price 10, volume 2) and `2` (price 12, volume 3). -/
def c1Store : Store := fun i =>
  if i = 0 then
    { price := Price.fin 12, volume := 4, is_bid := true, is_market := false,
      trader_id := none, lifetime := none }
  else if i = 1 then
    { price := Price.fin 10, volume := 2, is_bid := false, is_market := false,
      trader_id := none, lifetime := none }
  else
    { price := Price.fin 12, volume := 3, is_bid := false, is_market := false,
      trader_id := none, lifetime := none }

/-- The ask-side book holding orders `1` and `2` at two price levels. -/
def c1Book : PriceBook :=
  { order_map := [1, 2],
    levels := [(Price.fin 10,
                { price := Price.fin 10, orders := [1], volume := 2 }),
               (Price.fin 12,
                { price := Price.fin 12, orders := [2], volume := 3 })],
    heap := [Price.fin 10, Price.fin 12],
    is_bid_side := false }

/-- The store after the fill: `2` lots traded with each resting ask. -/
def c1Store' : Store := tradeUpd (tradeUpd c1Store 1 0 2) 2 0 2

/-- The book after the fill: the drained level at 10 purged, order `1`
deleted from `order_map`, one lot left at 12. -/
def c1Book' : PriceBook :=
  { order_map := [2],
    levels := [(Price.fin 12,
                { price := Price.fin 12, orders := [2], volume := 1 })],
    heap := [Price.fin 12],
    is_bid_side := false }

/-- The two trades of the fill, better price first. -/
def c1Trades : List Trade :=
  [{ bid_id := 0, ask_id := 1, price := Price.fin 10, volume := 2 },
   { bid_id := 0, ask_id := 2, price := Price.fin 12, volume := 2 }]

/-- A live, crossable ask level resting at price `0`: `fill` stops without
trading because Python float truthiness (`while best_price and ...`) reads
a best price of `0.0` as false. -/
def c1xStore : Store := fun i =>
  if i = 0 then
    { price := Price.fin 10, volume := 3, is_bid := true, is_market := false,
      trader_id := none, lifetime := none }
  else
    { price := Price.fin 0, volume := 5, is_bid := false, is_market := false,
      trader_id := none, lifetime := none }

def c1xBook : PriceBook :=
  { order_map := [1],
    levels := [(Price.fin 0,
                { price := Price.fin 0, orders := [1], volume := 5 })],
    heap := [Price.fin 0],
    is_bid_side := false }

/-! ### C5: batch-level conservation and the notification aggregator -/
/-- Level sanity on one side, independent of any incoming order: each level
has duplicate-free orders and its `price` field matches its dict key. -/
def LevelsOK (book : PriceBook) : Prop :=
  ∀ kv ∈ book.levels, (kv.2 : PriceLevel).orders.Nodup ∧
    (kv.2 : PriceLevel).price = kv.1

instance (book : PriceBook) : Decidable (LevelsOK book) :=
  inferInstanceAs (Decidable (∀ kv ∈ book.levels, _ ∧ _))

/-- `j` rests at no level of this side. -/
def NotResting (book : PriceBook) (j : OrderId) : Prop :=
  ∀ kv ∈ book.levels, j ∉ (kv.2 : PriceLevel).orders

instance (book : PriceBook) (j : OrderId) : Decidable (NotResting book j) :=
  inferInstanceAs (Decidable (∀ kv ∈ book.levels, _ ∉ _))

/-- The per-entry facts `_process_trades` maintains for one order's
notification: identity, aggregate consistency, and the freeze of
`remaining_volume`/`is_filled` at the post-batch store. -/
def NotifOK (σ : Store) (oid : OrderId) (tv : ℤ)
    (n : TradesNotification) : Prop :=
  n.order_id = oid ∧ (σ oid).trader_id ≠ none ∧
  n.total_filled_volume = tv ∧
  (n.price_volume.map Prod.snd).sum = n.total_filled_volume ∧
  (n.price_volume.map (fun kv => kv.1.ratValue * (kv.2 : ℚ))).sum =
    n.total_notional ∧
  n.remaining_volume = (σ oid).volume ∧
  n.is_filled = ((σ oid).volume == 0)

/-- Invariant of the aggregation fold: each existing notification satisfies
`NotifOK` at the trades processed so far, and an absent entry means a
`None` trader id or an order untouched so far. -/
def NotifInv (σ : Store) (ts : List Trade)
    (onotifs : List (OrderId × TradesNotification)) : Prop :=
  ∀ oid : OrderId,
    (∀ n, alGet onotifs oid = some n → NotifOK σ oid (touchVol oid ts) n) ∧
    (alGet onotifs oid = none → (σ oid).trader_id = none ∨
      ∀ t ∈ ts, t.bid_id ≠ oid ∧ t.ask_id ≠ oid)

/-- Batch: a resting bid `0` (price 100, volume 5, trader 1) then a
crossing ask `1` (price 100, volume 3, trader 2). -/
def c5Store : Store := fun i =>
  if i = 0 then
    { price := Price.fin 100, volume := 5, is_bid := true, is_market := false,
      trader_id := some 1, lifetime := none }
  else
    { price := Price.fin 100, volume := 3, is_bid := false, is_market := false,
      trader_id := some 2, lifetime := none }

def c5OB : OrderBook := OrderBook.init 2 5

/-- The store after the batch: three lots traded between `0` and `1`. -/
def c5Store' : Store := tradeUpd c5Store 0 1 3

/-- The book after the batch: `0` rests with 2 lots at 100, the wheel holds
`0` in bucket `(0+2) % 5`, and the batch's `[volume, notional]` totals are
appended to `trade_history` (rational terms written exactly as the engine
computes them). -/
def c5OB' : OrderBook :=
  { bids := { order_map := [0],
              levels := [(Price.fin 100,
                          { price := Price.fin 100, orders := [0],
                            volume := 2 })],
              heap := [Price.fin (-100)],
              is_bid_side := true },
    asks := PriceBook.init false,
    expiration_wheel := { max_lifetime := 5, min_lifetime := 2,
                          expiration_bucket := [[], [], [0], [], []],
                          now := 0 },
    trade_history := [(3, (Price.fin 100).ratValue * ((3 : ℤ) : ℚ) + 0)] }

def c5n0 : TradesNotification :=
  { trader_id := some 1, order_id := 0, is_bid := true,
    price_volume := [(Price.fin 100, 3)], num_trades := 1,
    total_filled_volume := 3,
    total_notional := 0 + (Price.fin 100).ratValue * ((3 : ℤ) : ℚ),
    remaining_volume := 2, is_filled := false }

def c5n1 : TradesNotification :=
  { trader_id := some 2, order_id := 1, is_bid := false,
    price_volume := [(Price.fin 100, 3)], num_trades := 1,
    total_filled_volume := 3,
    total_notional := 0 + (Price.fin 100).ratValue * ((3 : ℤ) : ℚ),
    remaining_volume := 0, is_filled := true }

def c5Out : List (ℤ × List TradesNotification) :=
  [(1, [c5n0]), (2, [c5n1])]

/-! ## Theorems -/

namespace Price

theorem leTotal (a b : Price) : le a b = true ∨ le b a = true := by
  cases a <;> cases b <;> simp [le] <;> exact le_total _ _

theorem leTrans {a b c : Price} (h₁ : le a b = true) (h₂ : le b c = true) :
    le a c = true := by
  cases a <;> cases b <;> cases c <;> simp_all [le] <;> exact le_trans h₁ h₂

theorem leRefl (a : Price) : le a a = true := by
  cases a <;> simp [le]

theorem leAntisymm {a b : Price} (h₁ : le a b = true) (h₂ : le b a = true) :
    a = b := by
  cases a <;> cases b <;> simp_all [le] <;> exact le_antisymm h₁ h₂

theorem negLeNeg {a b : Price} : le (neg a) (neg b) = true ↔ le b a = true := by
  cases a <;> cases b <;> simp [le, neg]

theorem negNeg (a : Price) : neg (neg a) = a := by
  cases a <;> simp [neg]

end Price

theorem tradeUpd_inId (σ : Store) (topId inId : OrderId) (tv : ℤ) :
    ((tradeUpd σ topId inId tv) inId).volume =
      if topId = inId then (σ inId).volume - tv - tv
      else (σ inId).volume - tv := by
  rcases eq_or_ne topId inId with h | h
  · subst h
    simp [tradeUpd, Function.update_same]
  · simp [tradeUpd, Function.update_same, Function.update_noteq h.symm, h]

theorem tradeUpd_topId (σ : Store) {topId inId : OrderId} (tv : ℤ)
    (h : topId ≠ inId) :
    (tradeUpd σ topId inId tv) topId =
      { σ topId with volume := (σ topId).volume - tv } := by
  simp [tradeUpd, Function.update_noteq h, Function.update_same]

theorem tradeUpd_other (σ : Store) {topId inId j : OrderId} (tv : ℤ)
    (h₁ : j ≠ topId) (h₂ : j ≠ inId) :
    (tradeUpd σ topId inId tv) j = σ j := by
  simp [tradeUpd, Function.update_noteq h₁, Function.update_noteq h₂]

theorem tradeUpd_eval (σ : Store) (topId inId : OrderId) (tv : ℤ)
    (j : OrderId) :
    (tradeUpd σ topId inId tv) j =
      if j = inId then
        (if j = topId then { σ j with volume := (σ j).volume - tv - tv }
         else { σ j with volume := (σ j).volume - tv })
      else if j = topId then { σ j with volume := (σ j).volume - tv }
      else σ j := by
  rw [tradeUpd]
  rcases eq_or_ne j inId with rfl | hji
  · rcases eq_or_ne j topId with rfl | hjt
    · simp [Function.update_same]
    · simp [Function.update_same, Function.update_noteq hjt, hjt]
  · rw [Function.update_noteq hji]
    rcases eq_or_ne j topId with rfl | hjt
    · simp [Function.update_same, hji]
    · simp [Function.update_noteq hjt, hji, hjt]

theorem tradeUpd_shape (σ : Store) (topId inId : OrderId) (tv : ℤ)
    (j : OrderId) :
    (tradeUpd σ topId inId tv) j =
      { σ j with volume := ((tradeUpd σ topId inId tv) j).volume } := by
  rw [tradeUpd_eval]
  split_ifs <;> rfl

theorem levelTrade_volume (b : Bool) (i t : OrderId) (p : Price) (tv : ℤ) :
    (levelTrade b i t p tv).volume = tv := rfl

theorem levelTrade_bid (b : Bool) (i t : OrderId) (p : Price) (tv : ℤ) :
    (levelTrade b i t p tv).bid_id = if b then i else t := rfl

theorem levelTrade_ask (b : Bool) (i t : OrderId) (p : Price) (tv : ℤ) :
    (levelTrade b i t p tv).ask_id = if b then t else i := rfl

theorem levelTrade_price (b : Bool) (i t : OrderId) (p : Price) (tv : ℤ) :
    (levelTrade b i t p tv).price = p := rfl

namespace PriceLevel

/-- Unfolding equations of the `fillAux` loop. -/
theorem fillAux_nil (inId : OrderId) (is_bid : Bool) (price : Price)
    (σ : Store) (lvol : ℤ) :
    fillAux inId is_bid price σ [] lvol = (σ, [], lvol, [], []) := rfl

theorem fillAux_nonpos {σ : Store} {inId : OrderId} (is_bid : Bool)
    (price : Price) {topId : OrderId} {rest : List OrderId} {lvol : ℤ}
    (hv : (σ inId).volume ≤ 0) :
    fillAux inId is_bid price σ (topId :: rest) lvol =
      (σ, topId :: rest, lvol, [], []) := by
  simp [fillAux, hv]

theorem fillAux_gt {σ : Store} {inId : OrderId} (is_bid : Bool)
    (price : Price) {topId : OrderId} {rest : List OrderId} {lvol : ℤ}
    (hv : 0 < (σ inId).volume) (ht : (σ topId).volume > (σ inId).volume) :
    fillAux inId is_bid price σ (topId :: rest) lvol =
      (tradeUpd σ topId inId (σ inId).volume, topId :: rest,
       lvol - (σ inId).volume,
       [levelTrade is_bid inId topId price (σ inId).volume], []) := by
  simp [fillAux, not_le.mpr hv, ht]

theorem fillAux_eq {σ : Store} {inId : OrderId} (is_bid : Bool)
    (price : Price) {topId : OrderId} {rest : List OrderId} {lvol : ℤ}
    (hv : 0 < (σ inId).volume) (ht : (σ topId).volume = (σ inId).volume) :
    fillAux inId is_bid price σ (topId :: rest) lvol =
      (tradeUpd σ topId inId (σ inId).volume, rest,
       lvol - (σ topId).volume - (σ inId).volume,
       [levelTrade is_bid inId topId price (σ inId).volume], [topId]) := by
  simp [fillAux, not_le.mpr hv, ht]

theorem fillAux_lt {σ : Store} {inId : OrderId} (is_bid : Bool)
    (price : Price) {topId : OrderId} {rest : List OrderId} {lvol : ℤ}
    (hv : 0 < (σ inId).volume) (ht : (σ topId).volume < (σ inId).volume) :
    fillAux inId is_bid price σ (topId :: rest) lvol =
      (let σ' := tradeUpd σ topId inId (σ topId).volume
       let res := fillAux inId is_bid price σ' rest
         (lvol - (σ topId).volume - (σ topId).volume)
       (res.1, res.2.1, res.2.2.1,
        levelTrade is_bid inId topId price (σ topId).volume :: res.2.2.2.1,
        topId :: res.2.2.2.2)) := by
  simp [fillAux, not_le.mpr hv, not_lt.mpr (le_of_lt ht), ne_of_lt ht]

theorem fillAux_empties (inId : OrderId) (is_bid : Bool) (price : Price)
    (σ : Store) (queue : List OrderId) (lvol : ℤ)
    (h : 0 < ((fillAux inId is_bid price σ queue lvol).1 inId).volume) :
    (fillAux inId is_bid price σ queue lvol).2.1 = [] := by
  induction queue generalizing σ lvol with
  | nil => rfl
  | cons topId rest ih =>
      by_cases hv : (σ inId).volume ≤ 0
      · rw [fillAux_nonpos is_bid price hv] at h
        exact absurd h (by simpa using hv)
      · push_neg at hv
        rcases lt_trichotomy (σ topId).volume (σ inId).volume with ht | ht | ht
        · rw [fillAux_lt is_bid price hv ht] at h ⊢
          exact ih _ _ h
        · rw [fillAux_eq is_bid price hv ht] at h
          rw [tradeUpd_inId] at h
          split at h <;> omega
        · rw [fillAux_gt is_bid price hv ht] at h
          rw [tradeUpd_inId] at h
          split at h <;> omega

/-- `fillAux` never touches an order that is neither in the queue nor the
incoming order. -/
theorem fillAux_frame (inId : OrderId) (is_bid : Bool) (price : Price)
    (σ : Store) (queue : List OrderId) (lvol : ℤ) {j : OrderId}
    (hj : j ∉ queue) (hij : j ≠ inId) :
    (fillAux inId is_bid price σ queue lvol).1 j = σ j := by
  induction queue generalizing σ lvol with
  | nil => rfl
  | cons topId rest ih =>
      have hjt : j ≠ topId := fun hc => hj (hc ▸ List.mem_cons_self _ _)
      have hjr : j ∉ rest := fun hc => hj (List.mem_cons_of_mem _ hc)
      by_cases hv : (σ inId).volume ≤ 0
      · rw [fillAux_nonpos is_bid price hv]
      · push_neg at hv
        rcases lt_trichotomy (σ topId).volume (σ inId).volume with ht | ht | ht
        · rw [fillAux_lt is_bid price hv ht]
          dsimp only
          rw [ih _ _ hjr, tradeUpd_other σ _ hjt hij]
        · rw [fillAux_eq is_bid price hv ht]
          exact tradeUpd_other σ _ hjt hij
        · rw [fillAux_gt is_bid price hv ht]
          exact tradeUpd_other σ _ hjt hij

/-- The FIFO shape of the `fillAux` loop: the fully-filled orders are
exactly a front segment of the queue (their volumes end at `0`), the
remaining queue is the corresponding suffix, and the loop stops exactly when
the queue is empty or the incoming order's volume reaches `0`. -/
theorem fillAux_fifo (inId : OrderId) (is_bid : Bool) (price : Price)
    (σ : Store) (queue : List OrderId) (lvol : ℤ)
    (hv : 0 < (σ inId).volume) (hnotin : inId ∉ queue)
    (hnodup : queue.Nodup) :
    ∃ k, k ≤ queue.length ∧
      (fillAux inId is_bid price σ queue lvol).2.2.2.2 = queue.take k ∧
      (fillAux inId is_bid price σ queue lvol).2.1 = queue.drop k ∧
      (∀ id ∈ queue.take k,
        ((fillAux inId is_bid price σ queue lvol).1 id).volume = 0) ∧
      ((fillAux inId is_bid price σ queue lvol).2.1 = [] ∨
        ((fillAux inId is_bid price σ queue lvol).1 inId).volume = 0) := by
  induction queue generalizing σ lvol with
  | nil => exact ⟨0, by simp, rfl, rfl, by simp, Or.inl rfl⟩
  | cons topId rest ih =>
      have hne : topId ≠ inId := fun hc => hnotin (hc ▸ List.mem_cons_self _ _)
      have hnotin' : inId ∉ rest := fun hc => hnotin (List.mem_cons_of_mem _ hc)
      have htr : topId ∉ rest := (List.nodup_cons.mp hnodup).1
      have hnodup' : rest.Nodup := (List.nodup_cons.mp hnodup).2
      rcases lt_trichotomy (σ topId).volume (σ inId).volume with ht | ht | ht
      · -- head fully filled, loop continues
        rw [fillAux_lt is_bid price hv ht]
        dsimp only
        have hv' : 0 < ((tradeUpd σ topId inId (σ topId).volume) inId).volume := by
          rw [tradeUpd_inId, if_neg hne]
          omega
        obtain ⟨k, hk, hfill, hrem, hvol, hstop⟩ :=
          ih (tradeUpd σ topId inId (σ topId).volume) _ hv' hnotin' hnodup'
        refine ⟨k + 1, by simpa using hk, by simpa using hfill,
          by simpa using hrem, ?_, hstop⟩
        intro id hid
        rcases List.mem_cons.mp (by simpa using hid) with rfl | hid'
        · rw [fillAux_frame inId is_bid price _ rest _ htr hne,
            tradeUpd_topId σ _ hne]
          simp
        · exact hvol id hid'
      · -- head exactly filled, incoming exhausted
        rw [fillAux_eq is_bid price hv ht]
        refine ⟨1, by simp, by simp, by simp, ?_, Or.inr ?_⟩
        · intro id hid
          have hidt : id = topId := by simpa using hid
          subst hidt
          dsimp only
          rw [tradeUpd_topId σ _ hne]
          dsimp only
          omega
        · dsimp only
          rw [tradeUpd_inId, if_neg hne]
          omega
      · -- head larger than incoming: head keeps its place, incoming exhausted
        rw [fillAux_gt is_bid price hv ht]
        refine ⟨0, by simp, by simp, by simp, by simp, Or.inr ?_⟩
        dsimp only
        rw [tradeUpd_inId, if_neg hne]
        omega

end PriceLevel

theorem touchVol_nil (j : OrderId) : touchVol j [] = 0 := rfl

theorem touchVol_cons (j : OrderId) (t : Trade) (ts : List Trade) :
    touchVol j (t :: ts) =
      (if t.bid_id = j then t.volume else 0) +
        (if t.ask_id = j then t.volume else 0) + touchVol j ts := by
  rw [touchVol, touchVol]
  by_cases hb : t.bid_id = j <;> by_cases ha : t.ask_id = j <;>
    simp [List.filter_cons, hb, ha] <;> ring

theorem touchVol_append (j : OrderId) (ts₁ ts₂ : List Trade) :
    touchVol j (ts₁ ++ ts₂) = touchVol j ts₁ + touchVol j ts₂ := by
  induction ts₁ with
  | nil => simp [touchVol_nil, touchVol]
  | cons t rest ih => rw [List.cons_append, touchVol_cons, touchVol_cons, ih]; ring

namespace PriceLevel

/-- Every store entry keeps all its fields except (possibly) `volume`
through a level fill: only volumes are mutated. -/
theorem fillAux_shape (inId : OrderId) (is_bid : Bool) (price : Price)
    (σ : Store) (queue : List OrderId) (lvol : ℤ) (j : OrderId) :
    (fillAux inId is_bid price σ queue lvol).1 j =
      { σ j with volume := ((fillAux inId is_bid price σ queue lvol).1 j).volume } := by
  induction queue generalizing σ lvol with
  | nil => rfl
  | cons topId rest ih =>
      by_cases hv : (σ inId).volume ≤ 0
      · rw [fillAux_nonpos is_bid price hv]
      · push_neg at hv
        rcases lt_trichotomy (σ topId).volume (σ inId).volume with ht | ht | ht
        · rw [fillAux_lt is_bid price hv ht]
          dsimp only
          rw [ih (tradeUpd σ topId inId (σ topId).volume)
            (lvol - (σ topId).volume - (σ topId).volume)]
          conv_lhs => rw [tradeUpd_shape]
        · rw [fillAux_eq is_bid price hv ht]
          exact tradeUpd_shape σ topId inId _ j
        · rw [fillAux_gt is_bid price hv ht]
          exact tradeUpd_shape σ topId inId _ j

/-- Per-id volume conservation of a level fill: what an order loses is
exactly the summed volume of the trades it takes part in. -/
theorem fillAux_conserve (inId : OrderId) (is_bid : Bool) (price : Price)
    (σ : Store) (queue : List OrderId) (lvol : ℤ)
    (hnotin : inId ∉ queue) (hnodup : queue.Nodup) (j : OrderId) :
    (σ j).volume - ((fillAux inId is_bid price σ queue lvol).1 j).volume =
      touchVol j (fillAux inId is_bid price σ queue lvol).2.2.2.1 := by
  induction queue generalizing σ lvol with
  | nil => simp [fillAux_nil, touchVol_nil]
  | cons topId rest ih =>
      have hne : topId ≠ inId := fun hc => hnotin (hc ▸ List.mem_cons_self _ _)
      have hnotin' : inId ∉ rest := fun hc => hnotin (List.mem_cons_of_mem _ hc)
      have htr : topId ∉ rest := (List.nodup_cons.mp hnodup).1
      have hnodup' : rest.Nodup := (List.nodup_cons.mp hnodup).2
      by_cases hv : (σ inId).volume ≤ 0
      · rw [fillAux_nonpos is_bid price hv]
        simp [touchVol_nil]
      · push_neg at hv
        have hstep : ∀ tv,
            (σ j).volume - ((tradeUpd σ topId inId tv) j).volume =
              (if (if is_bid then inId else topId) = j then tv else 0) +
                (if (if is_bid then topId else inId) = j then tv else 0) := by
          intro tv
          rcases eq_or_ne j inId with rfl | hji
          · rw [tradeUpd_inId, if_neg hne]
            cases is_bid <;> simp [hne] <;> ring
          · rcases eq_or_ne j topId with rfl | hjt
            · rw [tradeUpd_topId σ tv (fun hc => hji hc)]
              cases is_bid <;> simp [hne.symm, hji, Ne.symm hji] <;> ring
            · rw [tradeUpd_other σ tv hjt hji]
              cases is_bid <;>
                simp [hji, hjt, Ne.symm hjt, Ne.symm hji]
        rcases lt_trichotomy (σ topId).volume (σ inId).volume with ht | ht | ht
        · rw [fillAux_lt is_bid price hv ht]
          dsimp only
          rw [touchVol_cons]
          simp only [levelTrade_volume, levelTrade_bid, levelTrade_ask]
          have hrec := ih (tradeUpd σ topId inId (σ topId).volume)
            (lvol - (σ topId).volume - (σ topId).volume) hnotin' hnodup'
          have hs := hstep (σ topId).volume
          omega
        · rw [fillAux_eq is_bid price hv ht]
          dsimp only
          rw [touchVol_cons, touchVol_nil]
          simp only [levelTrade_volume, levelTrade_bid, levelTrade_ask]
          have hs := hstep (σ inId).volume
          omega
        · rw [fillAux_gt is_bid price hv ht]
          dsimp only
          rw [touchVol_cons, touchVol_nil]
          simp only [levelTrade_volume, levelTrade_bid, levelTrade_ask]
          have hs := hstep (σ inId).volume
          omega

/-- All trades of a level fill carry the level's price. -/
theorem fillAux_trades_price (inId : OrderId) (is_bid : Bool) (price : Price)
    (σ : Store) (queue : List OrderId) (lvol : ℤ) :
    ∀ t ∈ (fillAux inId is_bid price σ queue lvol).2.2.2.1, t.price = price := by
  induction queue generalizing σ lvol with
  | nil => simp [fillAux_nil]
  | cons topId rest ih =>
      by_cases hv : (σ inId).volume ≤ 0
      · rw [fillAux_nonpos is_bid price hv]
        simp
      · push_neg at hv
        rcases lt_trichotomy (σ topId).volume (σ inId).volume with ht | ht | ht
        · rw [fillAux_lt is_bid price hv ht]
          dsimp only
          intro t hmem
          rcases List.mem_cons.mp hmem with rfl | hmem'
          · rfl
          · exact ih _ _ t hmem'
        · rw [fillAux_eq is_bid price hv ht]
          intro t hmem
          obtain rfl : t = _ := by simpa using hmem
          rfl
        · rw [fillAux_gt is_bid price hv ht]
          intro t hmem
          obtain rfl : t = _ := by simpa using hmem
          rfl

/-- Every trade of a level fill has the incoming order on its own side and
a queue member on the resting side. -/
theorem fillAux_trades_ids (inId : OrderId) (is_bid : Bool) (price : Price)
    (σ : Store) (queue : List OrderId) (lvol : ℤ) :
    ∀ t ∈ (fillAux inId is_bid price σ queue lvol).2.2.2.1,
      (if is_bid then t.bid_id = inId ∧ t.ask_id ∈ queue
       else t.ask_id = inId ∧ t.bid_id ∈ queue) := by
  induction queue generalizing σ lvol with
  | nil => simp [fillAux_nil]
  | cons topId rest ih =>
      by_cases hv : (σ inId).volume ≤ 0
      · rw [fillAux_nonpos is_bid price hv]
        simp
      · push_neg at hv
        rcases lt_trichotomy (σ topId).volume (σ inId).volume with ht | ht | ht
        · rw [fillAux_lt is_bid price hv ht]
          dsimp only
          intro t hmem
          rcases List.mem_cons.mp hmem with rfl | hmem'
          · cases is_bid <;> simp [levelTrade]
          · have := ih _ _ t hmem'
            cases is_bid <;> simp_all [List.mem_cons] <;> tauto
        · rw [fillAux_eq is_bid price hv ht]
          intro t hmem
          obtain rfl : t = _ := by simpa using hmem
          cases is_bid <;> simp [levelTrade]
        · rw [fillAux_gt is_bid price hv ht]
          intro t hmem
          obtain rfl : t = _ := by simpa using hmem
          cases is_bid <;> simp [levelTrade]

/-- Starting from positive incoming volume, a level fill never drives the
incoming order's volume below zero. -/
theorem fillAux_nonneg (inId : OrderId) (is_bid : Bool) (price : Price)
    (σ : Store) (queue : List OrderId) (lvol : ℤ)
    (hv : 0 < (σ inId).volume) (hnotin : inId ∉ queue) :
    0 ≤ ((fillAux inId is_bid price σ queue lvol).1 inId).volume := by
  induction queue generalizing σ lvol with
  | nil => rw [fillAux_nil]; dsimp only; omega
  | cons topId rest ih =>
      have hne : topId ≠ inId := fun hc => hnotin (hc ▸ List.mem_cons_self _ _)
      have hnotin' : inId ∉ rest := fun hc => hnotin (List.mem_cons_of_mem _ hc)
      rcases lt_trichotomy (σ topId).volume (σ inId).volume with ht | ht | ht
      · rw [fillAux_lt is_bid price hv ht]
        dsimp only
        refine ih _ _ ?_ hnotin'
        rw [tradeUpd_inId, if_neg hne]
        omega
      · rw [fillAux_eq is_bid price hv ht]
        dsimp only
        rw [tradeUpd_inId, if_neg hne]
        omega
      · rw [fillAux_gt is_bid price hv ht]
        dsimp only
        rw [tradeUpd_inId, if_neg hne]
        omega

/-- If the incoming order still has volume after `PriceLevel.fill`, the
level was drained (this is the loop's exit condition). -/
theorem fill_empties (σ : Store) (lvl : PriceLevel) (inId : OrderId)
    (h : 0 < ((fill σ lvl inId).1 inId).volume) :
    (fill σ lvl inId).2.1.orders = [] :=
  fillAux_empties inId (σ inId).is_bid lvl.price σ lvl.orders lvl.volume h

end PriceLevel

/-! #### Association-list and purge lemmas needed before `PriceBook.fill`
(its termination bound rests on the heap shrinking every matching round). -/
theorem alGet_alSet_self {α β : Type} [DecidableEq α] (l : List (α × β))
    (k : α) (v : β) : alGet (alSet l k v) k = some v := by
  induction l with
  | nil => simp [alSet, alGet]
  | cons kv rest ih =>
      obtain ⟨k', v'⟩ := kv
      by_cases h : k' = k <;> simp [alSet, alGet, h, ih]

theorem alSet_ne_nil {α β : Type} [DecidableEq α] (l : List (α × β))
    (k : α) (v : β) : alSet l k v ≠ [] := by
  cases l with
  | nil => simp [alSet]
  | cons kv rest =>
      obtain ⟨k', v'⟩ := kv
      by_cases h : k' = k <;> simp [alSet, h]

namespace PriceBook

theorem heapVal_heapKey (b : PriceBook) (p : Price) :
    b.heapVal (b.heapKey p) = p := by
  cases hb : b.is_bid_side <;> simp [heapVal, heapKey, hb, Price.negNeg]

theorem heapKey_heapVal (b : PriceBook) (p : Price) :
    b.heapKey (b.heapVal p) = p := by
  cases hb : b.is_bid_side <;> simp [heapVal, heapKey, hb, Price.negNeg]

theorem purge_nil {book : PriceBook} (h : book.heap = []) :
    purge book = some (book, none) := by
  obtain ⟨om, lv, hp, side⟩ := book
  simp only at h
  subst h
  rfl

theorem purge_cons_none {book : PriceBook} {hp : Price} {rest : List Price}
    (hh : book.heap = hp :: rest)
    (halv : alGet book.levels (book.heapVal hp) = none) :
    purge book = none := by
  rw [purge, hh]
  rw [heapVal] at halv
  simp [purgeAux, halv]

theorem purge_cons_empty {book : PriceBook} {hp : Price} {rest : List Price}
    {lvl : PriceLevel} (hh : book.heap = hp :: rest)
    (halv : alGet book.levels (book.heapVal hp) = some lvl)
    (hemp : lvl.is_empty = true) :
    purge book = purge { book with
      heap := rest,
      levels := alErase book.levels (book.heapVal hp) } := by
  rw [purge, purge, hh]
  rw [heapVal] at halv ⊢
  simp [purgeAux, halv, hemp]

theorem purge_cons_live {book : PriceBook} {hp : Price} {rest : List Price}
    {lvl : PriceLevel} (hh : book.heap = hp :: rest)
    (halv : alGet book.levels (book.heapVal hp) = some lvl)
    (hemp : lvl.is_empty = false) :
    purge book = some (book, some (book.heapVal hp)) := by
  obtain ⟨om, lv, bheap, side⟩ := book
  simp only at hh
  subst hh
  rw [purge]
  rw [heapVal] at halv ⊢
  simp only at halv ⊢
  simp [purgeAux, halv, hemp]

theorem purgeAux_len_le (side : Bool) (heap : List Price)
    (levels : List (Price × PriceLevel)) :
    (match purgeAux side heap levels with
     | some (r, _) => r.1.length
     | none => 0) ≤ heap.length := by
  induction heap generalizing levels with
  | nil => simp [purgeAux]
  | cons hp rest ih =>
      rw [purgeAux]
      cases halv : alGet levels (if side then hp.neg else hp) with
      | none => simp
      | some lvl =>
          by_cases hemp : lvl.is_empty
          · simp only [hemp, if_true]
            exact le_trans (ih _) (by simp)
          · simp [hemp]

theorem purgedLen_le (book : PriceBook) : purgedLen book ≤ book.heap.length := by
  have h := purgeAux_len_le book.is_bid_side book.heap book.levels
  rw [purgedLen, purge]
  cases hr : purgeAux book.is_bid_side book.heap book.levels with
  | none => simp
  | some r =>
      rw [hr] at h
      simpa using h

theorem bestLen_le (book : PriceBook) : bestLen book ≤ book.heap.length := by
  by_cases h : book.levels.isEmpty
  · simp [bestLen, get_best_price, h]
  · have h₁ := purgedLen_le book
    rw [purgedLen] at h₁
    rw [bestLen, get_best_price, if_neg (by simp [h])]
    exact h₁

theorem purgeAux_front {side : Bool} {heap : List Price}
    {levels : List (Price × PriceLevel)}
    {r : List Price × List (Price × PriceLevel)} {bp : Price}
    (h : purgeAux side heap levels = some (r, some bp)) :
    ∃ rest, r.1 = (if side then bp.neg else bp) :: rest ∧
      ∃ lvl, alGet r.2 bp = some lvl ∧ lvl.is_empty = false := by
  induction heap generalizing levels with
  | nil => simp [purgeAux] at h
  | cons hp rest ih =>
      rw [purgeAux] at h
      cases halv : alGet levels (if side then hp.neg else hp) with
      | none => rw [halv] at h; simp at h
      | some lvl =>
          simp only [halv] at h
          by_cases hemp : lvl.is_empty
          · rw [if_pos hemp] at h
            exact ih h
          · rw [if_neg hemp] at h
            rw [Option.some.injEq, Prod.mk.injEq] at h
            obtain ⟨h₁, h₂⟩ := h
            subst h₁
            rw [Option.some.injEq] at h₂
            subst h₂
            refine ⟨rest, ?_, lvl, ?_, by simpa using hemp⟩
            · cases side <;> simp [Price.negNeg]
            · cases side <;> simpa using halv

theorem purge_front {book b' : PriceBook} {bp : Price}
    (h : purge book = some (b', some bp)) :
    b'.is_bid_side = book.is_bid_side ∧ b'.order_map = book.order_map ∧
    ∃ rest lvl, b'.heap = b'.heapKey bp :: rest ∧
      alGet b'.levels bp = some lvl ∧ lvl.is_empty = false := by
  rw [purge] at h
  cases hr : purgeAux book.is_bid_side book.heap book.levels with
  | none => rw [hr] at h; simp at h
  | some r =>
      rw [hr] at h
      simp only [Option.map_some'] at h
      rw [Option.some.injEq, Prod.mk.injEq] at h
      obtain ⟨h₁, h₂⟩ := h
      subst h₁
      have hr' : purgeAux book.is_bid_side book.heap book.levels =
          some (r.1, some bp) := by
        rw [hr, ← h₂]
      obtain ⟨rest, hr1, lvl, hr2, hr3⟩ := purgeAux_front hr'
      exact ⟨rfl, rfl, rest, lvl, by simpa [heapKey] using hr1, hr2, hr3⟩

theorem get_best_price_some {book b' : PriceBook} {bp : Price}
    (h : get_best_price book = some (b', some bp)) :
    purge book = some (b', some bp) := by
  by_cases he : book.levels.isEmpty
  · rw [get_best_price, if_pos he] at h
    simp at h
  · rwa [get_best_price, if_neg he] at h

/-- Each matching round of `PriceBook.fill` strictly decreases the measure
`bestLen + (1 if the incoming order still has volume)`: either the incoming
order is exhausted, or the drained front level is purged off the heap by the
next best-price computation. -/
theorem fill_round_decrease {book book₀ : PriceBook} {bp : Price}
    {σ : Store} {inId : OrderId} {lvl : PriceLevel} (om' : List OrderId)
    (hb : get_best_price book = some (book₀, some bp))
    (halv : alGet book₀.levels bp = some lvl)
    (hv : 0 < (σ inId).volume) :
    bestLen { book₀ with
        levels := alSet book₀.levels bp (PriceLevel.fill σ lvl inId).2.1,
        order_map := om' } +
      (if 0 < ((PriceLevel.fill σ lvl inId).1 inId).volume then 1 else 0)
    < bestLen book + (if 0 < (σ inId).volume then 1 else 0) := by
  have hpu := get_best_price_some hb
  obtain ⟨hside, hom, rest, lvl₀, hheap, halv₀, hlive⟩ := purge_front hpu
  have hblen : bestLen book = book₀.heap.length := by
    rw [bestLen, hb]
  set book₁ : PriceBook := { book₀ with
      levels := alSet book₀.levels bp (PriceLevel.fill σ lvl inId).2.1,
      order_map := om' } with hbook₁
  have hheap₁ : book₁.heap = book₁.heapKey bp :: rest := hheap
  have hlen : book₀.heap.length = rest.length + 1 := by
    rw [hheap]
    simp
  rw [if_pos hv, hblen]
  by_cases hv' : 0 < ((PriceLevel.fill σ lvl inId).1 inId).volume
  · -- incoming still live: the front level was drained and gets purged
    have hdrained := PriceLevel.fill_empties σ lvl inId hv'
    have hemp : (PriceLevel.fill σ lvl inId).2.1.is_empty = true := by
      simp [PriceLevel.is_empty, hdrained]
    have halv₁ : alGet book₁.levels (book₁.heapVal (book₁.heapKey bp)) =
        some (PriceLevel.fill σ lvl inId).2.1 := by
      rw [heapVal_heapKey]
      exact alGet_alSet_self book₀.levels bp (PriceLevel.fill σ lvl inId).2.1
    have hne : book₁.levels.isEmpty = false := by
      rw [hbook₁]
      simp only [List.isEmpty_eq_false, ne_eq]
      exact alSet_ne_nil book₀.levels bp (PriceLevel.fill σ lvl inId).2.1
    have hstep := purge_cons_empty hheap₁ halv₁ hemp
    have : bestLen book₁ ≤ rest.length := by
      rw [bestLen, get_best_price, if_neg (by simp [hne]), hstep]
      have := purgedLen_le { book₁ with
        heap := rest,
        levels := alErase book₁.levels (book₁.heapVal (book₁.heapKey bp)) }
      rw [purgedLen] at this
      exact this
    rw [if_pos hv']
    omega
  · rw [if_neg hv']
    have := bestLen_le book₁
    have hlen₁ : book₁.heap.length = book₀.heap.length := rfl
    omega

/-- Any fuel strictly above the loop measure gives the same result: the
fuel is irrelevant as long as it cannot run out. -/
theorem fillLoopF_congr {n : ℕ} (m : ℕ) (σ : Store) (book : PriceBook)
    (inId : OrderId) (hn : fillMeasure σ book inId < n)
    (hm : fillMeasure σ book inId < m) :
    fillLoopF n σ book inId = fillLoopF m σ book inId := by
  induction n using Nat.strong_induction_on generalizing m σ book with
  | _ n ih =>
    match n, m with
    | 0, _ => exact absurd hn (by omega)
    | n + 1, 0 => exact absurd hm (by omega)
    | n + 1, m + 1 =>
      rw [fillLoopF, fillLoopF]
      cases hb : get_best_price book with
      | none => rfl
      | some r =>
        obtain ⟨book₀, bp?⟩ := r
        cases bp? with
        | none => rfl
        | some bp =>
          dsimp only
          by_cases hcond : bp.isTruthy = true ∧ 0 < (σ inId).volume
          · rw [if_pos hcond, if_pos hcond]
            by_cases hcf : (if book₀.is_bid_side then bp.ge (σ inId).price
                else bp.le (σ inId).price) = true
            · rw [if_pos hcf, if_pos hcf]
              cases halv : alGet book₀.levels bp with
              | none => rfl
              | some lvl =>
                dsimp only
                cases hdel : delOrders book₀.order_map
                    (PriceLevel.fill σ lvl inId).2.2.2 with
                | none => rfl
                | some om' =>
                  dsimp only
                  have hd := fill_round_decrease om' hb halv hcond.2
                  rw [if_pos hcond.2] at hd
                  have hrec := ih n (Nat.lt_succ_self n) m
                    (PriceLevel.fill σ lvl inId).1
                    { book₀ with
                      levels := alSet book₀.levels bp
                        (PriceLevel.fill σ lvl inId).2.1,
                      order_map := om' }
                    (by
                      rw [fillMeasure]
                      rw [fillMeasure] at hn
                      rw [if_pos hcond.2] at hn
                      omega)
                    (by
                      rw [fillMeasure]
                      rw [fillMeasure] at hm
                      rw [if_pos hcond.2] at hm
                      omega)
                  rw [hrec]
            · rw [if_neg hcf, if_neg hcf]
          · rw [if_neg hcond, if_neg hcond]

end PriceBook

/-! ## Notification helper lemmas -/
theorem foldl_addTrade_frame (ts : List Trade) (n : TradesNotification) :
    (ts.foldl TradesNotification.add_trade n).remaining_volume =
        n.remaining_volume ∧
      (ts.foldl TradesNotification.add_trade n).is_filled = n.is_filled ∧
      (ts.foldl TradesNotification.add_trade n).trader_id = n.trader_id ∧
      (ts.foldl TradesNotification.add_trade n).order_id = n.order_id ∧
      (ts.foldl TradesNotification.add_trade n).is_bid = n.is_bid := by
  induction ts generalizing n with
  | nil => exact ⟨rfl, rfl, rfl, rfl, rfl⟩
  | cons t rest ih =>
      simpa [TradesNotification.add_trade] using ih (n.add_trade t)

/-- **C2** (code bug).  The claim — after every operation sequence each
level's `volume` equals the sum of its orders' volumes and each side's depth
equals the sum over the side's id index — fails on the code: in the spec's
own seed scenario (three bids of volume 5 at price 100, then a market sell
of volume 7) the engine reports `bid_depth() = 3` although the two resting
orders hold `3 + 5 = 8`.  `PriceLevel.fill` subtracts a popped head's volume
twice — once inside `_pop` and once more via `self.volume -= trade_volume` —
so `level.volume` undershoots whenever a fully-filled head leaves live
orders behind it at the level. -/
theorem C2_depth_invariant_violated :
    ((OrderBook.process_orders c2Store (OrderBook.init 3 5) [0, 1, 2]).bind
        (fun r => OrderBook.process_orders r.1 r.2.1 [3])).map
      (fun r => (r.2.1.get_bid_depth,
        (r.2.1.bids.order_map.map (fun i => (r.1 i).volume)).sum)) =
      some (3, 8) := by
  decide

/-- **C8** (counterexample).  The claim says every `Order` constructed with
non-positive volume raises; but at `volume = -5` the constructor completes
normally, producing an order that stores `-5` and bumping the id counter —
`Order.__init__` contains no validation at all. -/
theorem C8_counterexample :
    mkOrder (Price.fin 100) (-5) true false none none 0 =
      (0, { price := Price.fin 100, volume := -5, is_bid := true,
            is_market := false, trader_id := none, lifetime := none }, 1) := by
  decide

/-- **C8** (amended).  The `Order` constructor performs no validation: for
every argument list — non-positive volumes included — it produces an order
carrying exactly the given fields, assigns the current counter value as the
id, and increments the counter. -/
theorem C8_constructor_total (price : Price) (volume : ℤ)
    (is_bid is_market : Bool) (trader_id : Option ℤ) (lifetime : Option ℕ)
    (counter : ℕ) :
    (mkOrder price volume is_bid is_market trader_id lifetime counter).2.1 =
        { price := price, volume := volume, is_bid := is_bid,
          is_market := is_market, trader_id := trader_id,
          lifetime := lifetime } ∧
      (mkOrder price volume is_bid is_market trader_id lifetime counter).1 =
        counter ∧
      (mkOrder price volume is_bid is_market trader_id lifetime counter).2.2 =
        counter + 1 :=
  ⟨rfl, rfl, rfl⟩

/-- **C9** (spec-modelled `clear`).  `clear()` resets both side books, the
expiration wheel (keeping its parameters) and the trade history, so both
depths read 0 afterwards; the order-id counter lives outside the book
(`Order._id_counter`) and is untouched, so an order constructed after
`clear()` still receives the next id of the sequence. -/
theorem C9_clear_resets (ob : OrderBook) (price : Price) (volume : ℤ)
    (is_bid is_market : Bool) (trader_id : Option ℤ) (lifetime : Option ℕ)
    (counter : ℕ) :
    ob.clear.get_bid_depth = 0 ∧ ob.clear.get_ask_depth = 0 ∧
      ob.clear.trade_history = [] ∧
      ob.clear.bids = PriceBook.init true ∧
      ob.clear.asks = PriceBook.init false ∧
      ob.clear.expiration_wheel = ExpirationWheel.init
        ob.expiration_wheel.min_lifetime ob.expiration_wheel.max_lifetime ∧
      (mkOrder price volume is_bid is_market trader_id lifetime counter).1 =
        counter ∧
      (mkOrder price volume is_bid is_market trader_id lifetime counter).2.2 =
        counter + 1 :=
  ⟨rfl, rfl, rfl, rfl, rfl, rfl, rfl, rfl⟩

/-- **C10**.  For every notification and every sequence of `add_trade`
calls, only `price_volume`, `num_trades`, `total_filled_volume` and
`total_notional` change: `remaining_volume`, `is_filled`, `trader_id`,
`order_id` and `is_bid` keep the values computed at construction — and at
construction `remaining_volume` is the order's volume at that moment and
`is_filled` holds exactly when that volume is `0`. -/
theorem C10_add_trade_frame (n : TradesNotification) (ts : List Trade)
    (oid : OrderId) (o : Order) :
    (ts.foldl TradesNotification.add_trade n).remaining_volume =
        n.remaining_volume ∧
      (ts.foldl TradesNotification.add_trade n).is_filled = n.is_filled ∧
      (ts.foldl TradesNotification.add_trade n).trader_id = n.trader_id ∧
      (ts.foldl TradesNotification.add_trade n).order_id = n.order_id ∧
      (ts.foldl TradesNotification.add_trade n).is_bid = n.is_bid ∧
      (TradesNotification.init oid o).remaining_volume = o.volume ∧
      (TradesNotification.init oid o).is_filled = (o.volume == 0) := by
  obtain ⟨h₁, h₂, h₃, h₄, h₅⟩ := foldl_addTrade_frame ts n
  exact ⟨h₁, h₂, h₃, h₄, h₅, rfl, rfl⟩

/-- **C3**.  `PriceLevel.fill` matches strictly in FIFO order: the returned
`fully_filled_orders` are exactly a front segment of the queue (each ending
at volume 0) and the level keeps the corresponding suffix; the loop stops
exactly when the level is empty or the incoming volume reaches 0; and when
the head's volume exceeds the incoming volume, the head stays at the front
of the queue with its volume reduced by the trade volume while the incoming
order is exhausted by that single trade. -/
theorem C3_level_fill_fifo (σ : Store) (lvl : PriceLevel) (inId : OrderId)
    (hv : 0 < (σ inId).volume) (hnotin : inId ∉ lvl.orders)
    (hnodup : lvl.orders.Nodup) :
    (∃ k, k ≤ lvl.orders.length ∧
        (PriceLevel.fill σ lvl inId).2.2.2 = lvl.orders.take k ∧
        (PriceLevel.fill σ lvl inId).2.1.orders = lvl.orders.drop k ∧
        ∀ id ∈ lvl.orders.take k,
          ((PriceLevel.fill σ lvl inId).1 id).volume = 0) ∧
      ((PriceLevel.fill σ lvl inId).2.1.orders = [] ∨
        ((PriceLevel.fill σ lvl inId).1 inId).volume = 0) ∧
      (∀ topId rest, lvl.orders = topId :: rest →
        (σ topId).volume > (σ inId).volume →
        (PriceLevel.fill σ lvl inId).2.1.orders = topId :: rest ∧
        ((PriceLevel.fill σ lvl inId).1 topId).volume =
          (σ topId).volume - (σ inId).volume ∧
        ((PriceLevel.fill σ lvl inId).1 inId).volume = 0 ∧
        (PriceLevel.fill σ lvl inId).2.2.1 =
          [levelTrade (σ inId).is_bid inId topId lvl.price (σ inId).volume] ∧
        (PriceLevel.fill σ lvl inId).2.2.2 = []) := by
  obtain ⟨k, hk, h1, h2, h3, h4⟩ := PriceLevel.fillAux_fifo inId
    (σ inId).is_bid lvl.price σ lvl.orders lvl.volume hv hnotin hnodup
  refine ⟨⟨k, hk, h1, h2, h3⟩, h4, ?_⟩
  intro topId rest hq ht
  have hne : topId ≠ inId := fun hc => hnotin (hc ▸ hq ▸ List.mem_cons_self _ _)
  have hgt := @PriceLevel.fillAux_gt σ inId (σ inId).is_bid lvl.price topId
    rest lvl.volume hv ht
  rw [PriceLevel.fill, hq, hgt]
  refine ⟨rfl, ?_, ?_, rfl, rfl⟩
  · dsimp only
    rw [tradeUpd_topId σ _ hne]
  · dsimp only
    rw [tradeUpd_inId, if_neg hne]
    omega

/-- **C3** witness: the theorem applied to the concrete one-order level and
incoming volume 3 — the head keeps its place with volume 7, the incoming
order ends at 0. -/
theorem C3_witness :
    0 < (c3Store 1).volume ∧ 1 ∉ c3Level.orders ∧ c3Level.orders.Nodup ∧
      (((PriceLevel.fill c3Store c3Level 1).2.1.orders = [] ∨
        ((PriceLevel.fill c3Store c3Level 1).1 1).volume = 0)) ∧
      ((PriceLevel.fill c3Store c3Level 1).1 0).volume =
        (c3Store 0).volume - (c3Store 1).volume :=
  ⟨by decide, by decide, by decide,
   (C3_level_fill_fifo c3Store c3Level 1 (by decide) (by decide)
     (by decide)).2.1,
   ((C3_level_fill_fifo c3Store c3Level 1 (by decide) (by decide)
     (by decide)).2.2 0 [] (by decide) (by decide)).2.1⟩

theorem alGet_alSet_ne {α β : Type} [DecidableEq α] (l : List (α × β))
    {k k' : α} (v : β) (h : k ≠ k') : alGet (alSet l k v) k' = alGet l k' := by
  induction l with
  | nil => simp [alSet, alGet, h]
  | cons kv rest ih =>
      obtain ⟨k₀, v₀⟩ := kv
      by_cases h₀ : k₀ = k
      · subst h₀
        simp [alSet, alGet, h]
      · simp [alSet, alGet, h₀, ih]

theorem listRemove_isSome {α : Type} [DecidableEq α] {l : List α} {x : α}
    (h : x ∈ l) : ∃ r, listRemove l x = some r := by
  induction l with
  | nil => simp at h
  | cons y rest ih =>
      by_cases hy : y = x
      · exact ⟨rest, by simp [listRemove, hy]⟩
      · obtain ⟨r, hr⟩ := ih (by
          rcases List.mem_cons.mp h with h' | h'
          · exact absurd h'.symm hy
          · exact h')
        exact ⟨y :: r, by simp [listRemove, hy, hr]⟩

theorem listRemove_mem {α : Type} [DecidableEq α] {l r : List α} {x y : α}
    (h : listRemove l x = some r) (hxy : y ≠ x) : y ∈ r ↔ y ∈ l := by
  induction l generalizing r with
  | nil => simp [listRemove] at h
  | cons z rest ih =>
      rw [listRemove] at h
      by_cases hz : z = x
      · rw [if_pos hz] at h
        obtain rfl := Option.some.inj h
        subst hz
        simp [hxy]
      · rw [if_neg hz] at h
        cases hrec : listRemove rest x with
        | none => rw [hrec] at h; simp at h
        | some r' =>
            rw [hrec] at h
            simp only [Option.map_some'] at h
            obtain rfl := Option.some.inj h
            simp [ih hrec]

/-- A resident id cancels successfully; the id leaves the index, the heap
and side flag are untouched, and the invariant survives. -/
theorem cancel_some {σ : Store} {book : PriceBook} {oid : OrderId}
    (hInv : SideInv σ book) (h : oid ∈ book.order_map) :
    ∃ book', PriceBook.cancel σ book oid = some book' ∧
      book'.order_map = book.order_map.erase oid ∧
      book'.is_bid_side = book.is_bid_side ∧
      book'.heap = book.heap ∧
      SideInv σ book' := by
  obtain ⟨hnd, hall⟩ := hInv
  have hres := hall oid h
  rw [residentOk] at hres
  cases halv : alGet book.levels (σ oid).price with
  | none => rw [halv] at hres; simp at hres
  | some lvl =>
      rw [halv] at hres
      simp only [decide_eq_true_eq] at hres
      obtain ⟨r, hr⟩ := listRemove_isSome hres
      refine ⟨{ book with
          levels := alSet book.levels (σ oid).price
            { lvl with orders := r, volume := lvl.volume - (σ oid).volume },
          order_map := book.order_map.erase oid }, ?_, rfl, rfl, rfl, ?_, ?_⟩
      · rw [PriceBook.cancel]
        simp only [halv, PriceLevel.cancel, hr, Option.map_some']
        rw [if_pos h]
      · exact hnd.erase oid
      · intro id hid
        obtain ⟨hne, hmem⟩ := (List.Nodup.mem_erase_iff hnd).mp hid
        have hres' := hall id hmem
        rw [residentOk] at hres' ⊢
        by_cases hp : (σ id).price = (σ oid).price
        · rw [hp] at hres' ⊢
          rw [alGet_alSet_self]
          rw [halv] at hres'
          simp only [decide_eq_true_eq] at hres' ⊢
          exact (listRemove_mem hr hne).mpr hres'
        · rw [alGet_alSet_ne _ _ (fun hc => hp hc.symm)]
          exact hres'

/-- Full behaviour of `process_cancellations` under the side invariants:
it never raises, every listed id is absent from both indexes afterwards,
indexes only shrink, the wheel and history are untouched, and a batch of
ids resident on neither side leaves the book exactly as it was. -/
theorem procCancel_spec (σ : Store) (ob : OrderBook) (ids : List OrderId)
    (hb : SideInv σ ob.bids) (ha : SideInv σ ob.asks)
    (hdisj : ∀ id ∈ ob.bids.order_map, id ∉ ob.asks.order_map) :
    ∃ ob', OrderBook.process_cancellations σ ob ids = some ob' ∧
      (∀ id ∈ ids, id ∉ ob'.bids.order_map ∧ id ∉ ob'.asks.order_map) ∧
      (∀ id ∈ ob'.bids.order_map, id ∈ ob.bids.order_map) ∧
      (∀ id ∈ ob'.asks.order_map, id ∈ ob.asks.order_map) ∧
      ob'.expiration_wheel = ob.expiration_wheel ∧
      ob'.trade_history = ob.trade_history ∧
      ((∀ id ∈ ids, id ∉ ob.bids.order_map ∧ id ∉ ob.asks.order_map) →
        ob' = ob) := by
  induction ids generalizing ob with
  | nil =>
      exact ⟨ob, rfl, by simp, fun _ h => h, fun _ h => h, rfl, rfl,
        fun _ => rfl⟩
  | cons oid rest ih =>
      by_cases hbid : oid ∈ ob.bids.order_map
      · obtain ⟨b', hc, hom, hside, hheap, hinv'⟩ := cancel_some hb hbid
        have hdisj' : ∀ id ∈ b'.order_map, id ∉ ob.asks.order_map := by
          intro id hid
          rw [hom] at hid
          exact hdisj id (((List.Nodup.mem_erase_iff hb.1).mp hid).2)
        obtain ⟨ob', h₁, h₂, h₃, h₄, h₅, h₆, h₇⟩ :=
          ih { ob with bids := b' } hinv' ha hdisj'
        refine ⟨ob', ?_, ?_, ?_, h₄, h₅, h₆, ?_⟩
        · rw [OrderBook.process_cancellations, if_pos hbid, hc]
          exact h₁
        · intro id hid
          rcases List.mem_cons.mp hid with rfl | hid'
          · refine ⟨fun hc' => ?_, fun hc' => hdisj id hbid (h₄ id hc')⟩
            have := h₃ id hc'
            rw [hom] at this
            exact ((List.Nodup.mem_erase_iff hb.1).mp this).1 rfl
          · exact h₂ id hid'
        · intro id hid
          have := h₃ id hid
          rw [hom] at this
          exact ((List.Nodup.mem_erase_iff hb.1).mp this).2
        · intro hmiss
          exact absurd hbid (hmiss oid (List.mem_cons_self _ _)).1
      · by_cases hask : oid ∈ ob.asks.order_map
        · obtain ⟨a', hc, hom, hside, hheap, hinv'⟩ := cancel_some ha hask
          have hdisj' : ∀ id ∈ ob.bids.order_map, id ∉ a'.order_map := by
            intro id hid hc'
            rw [hom] at hc'
            exact hdisj id hid (((List.Nodup.mem_erase_iff ha.1).mp hc').2)
          obtain ⟨ob', h₁, h₂, h₃, h₄, h₅, h₆, h₇⟩ :=
            ih { ob with asks := a' } hb hinv' hdisj'
          refine ⟨ob', ?_, ?_, h₃, ?_, h₅, h₆, ?_⟩
          · rw [OrderBook.process_cancellations, if_neg hbid, if_pos hask, hc]
            exact h₁
          · intro id hid
            rcases List.mem_cons.mp hid with rfl | hid'
            · refine ⟨fun hc' => hbid (h₃ id hc'), fun hc' => ?_⟩
              have := h₄ id hc'
              rw [hom] at this
              exact ((List.Nodup.mem_erase_iff ha.1).mp this).1 rfl
            · exact h₂ id hid'
          · intro id hid
            have := h₄ id hid
            rw [hom] at this
            exact ((List.Nodup.mem_erase_iff ha.1).mp this).2
          · intro hmiss
            exact absurd hask (hmiss oid (List.mem_cons_self _ _)).2
        · obtain ⟨ob', h₁, h₂, h₃, h₄, h₅, h₆, h₇⟩ := ih ob hb ha hdisj
          refine ⟨ob', ?_, ?_, h₃, h₄, h₅, h₆, ?_⟩
          · rw [OrderBook.process_cancellations, if_neg hbid, if_neg hask]
            exact h₁
          · intro id hid
            rcases List.mem_cons.mp hid with rfl | hid'
            · exact ⟨fun hc' => hbid (h₃ id hc'), fun hc' => hask (h₄ id hc')⟩
            · exact h₂ id hid'
          · intro hmiss
            exact h₇ fun id hid => hmiss id (List.mem_cons_of_mem _ hid)

/-- **C7**.  Under the book invariants, `process_cancellations` removes
every resident id of the list from its owning side, raises no error, only
ever shrinks the id indexes, leaves the wheel and trade history untouched,
and a batch of ids resident on neither side changes no state at all (the
ids are silently ignored). -/
theorem C7_cancellations (σ : Store) (ob : OrderBook) (ids : List OrderId)
    (hb : SideInv σ ob.bids) (ha : SideInv σ ob.asks)
    (hdisj : ∀ id ∈ ob.bids.order_map, id ∉ ob.asks.order_map) :
    ∃ ob', OrderBook.process_cancellations σ ob ids = some ob' ∧
      (∀ id ∈ ids, id ∉ ob'.bids.order_map ∧ id ∉ ob'.asks.order_map) ∧
      (∀ id ∈ ob'.bids.order_map, id ∈ ob.bids.order_map) ∧
      (∀ id ∈ ob'.asks.order_map, id ∈ ob.asks.order_map) ∧
      ob'.expiration_wheel = ob.expiration_wheel ∧
      ob'.trade_history = ob.trade_history ∧
      ((∀ id ∈ ids, id ∉ ob.bids.order_map ∧ id ∉ ob.asks.order_map) →
        ob' = ob) :=
  procCancel_spec σ ob ids hb ha hdisj

/-- **C7** witness: the theorem applied to the one-bid book with the batch
`[0, 9]` — id 0 is resident, id 9 is dead and silently ignored. -/
theorem C7_witness :
    SideInv c7Store c7Book.bids ∧ SideInv c7Store c7Book.asks ∧
      (∀ id ∈ c7Book.bids.order_map, id ∉ c7Book.asks.order_map) ∧
      ∃ ob', OrderBook.process_cancellations c7Store c7Book [0, 9] =
          some ob' ∧
        (∀ id ∈ [0, 9], id ∉ ob'.bids.order_map ∧ id ∉ ob'.asks.order_map) ∧
        (∀ id ∈ ob'.bids.order_map, id ∈ c7Book.bids.order_map) ∧
        (∀ id ∈ ob'.asks.order_map, id ∈ c7Book.asks.order_map) ∧
        ob'.expiration_wheel = c7Book.expiration_wheel ∧
        ob'.trade_history = c7Book.trade_history ∧
        ((∀ id ∈ [0, 9], id ∉ c7Book.bids.order_map ∧
            id ∉ c7Book.asks.order_map) → ob' = c7Book) :=
  ⟨by decide, by decide, by decide,
   C7_cancellations c7Store c7Book [0, 9] (by decide) (by decide) (by decide)⟩

/-! ## Expiry lemmas (C6) -/
/-- `process_cancellations` neither reads nor writes the wheel: running it
with a different wheel component only changes the wheel of the result. -/
theorem procCancel_wheel (σ : Store) (ob : OrderBook) (w : ExpirationWheel)
    (ids : List OrderId) :
    OrderBook.process_cancellations σ { ob with expiration_wheel := w } ids =
      (OrderBook.process_cancellations σ ob ids).map
        (fun s => { s with expiration_wheel := w }) := by
  induction ids generalizing ob with
  | nil => rfl
  | cons oid rest ih =>
      rw [OrderBook.process_cancellations, OrderBook.process_cancellations]
      by_cases hbid : oid ∈ ob.bids.order_map
      · rw [if_pos hbid, if_pos hbid]
        cases PriceBook.cancel σ ob.bids oid with
        | none => rfl
        | some b => exact ih { ob with bids := b }
      · rw [if_neg hbid, if_neg hbid]
        by_cases hask : oid ∈ ob.asks.order_map
        · rw [if_pos hask, if_pos hask]
          cases PriceBook.cancel σ ob.asks oid with
          | none => rfl
          | some a => exact ih { ob with asks := a }
        · rw [if_neg hask, if_neg hask]
          exact ih ob

/-- An `advance()` whose due bucket is empty only moves the wheel. -/
theorem advance_quiet (σ : Store) (ob : OrderBook)
    (h : ob.expiration_wheel.expiration_bucket.getD
      ((ob.expiration_wheel.now + 1) % ob.expiration_wheel.max_lifetime) []
      = []) :
    OrderBook.advance σ ob =
      some { ob with expiration_wheel := (ob.expiration_wheel.advance).1 } := by
  rw [OrderBook.advance]
  have h2 : (ob.expiration_wheel.advance).2 = [] := h
  rw [h2]
  rfl

/-- An `advance()` whose due bucket holds exactly the target id performs the
explicit cancellation of that id (and moves the wheel). -/
theorem advance_target (σ : Store) (ob : OrderBook) (oid : OrderId)
    (h : ob.expiration_wheel.expiration_bucket.getD
      ((ob.expiration_wheel.now + 1) % ob.expiration_wheel.max_lifetime) []
      = [oid]) :
    OrderBook.advance σ ob =
      OrderBook.process_cancellations σ
        { ob with expiration_wheel := (ob.expiration_wheel.advance).1 }
        [oid] := by
  rw [OrderBook.advance]
  have h2 : (ob.expiration_wheel.advance).2 = [oid] := h
  rw [h2]

/-- Stepping a position by `k` with `0 < k < m` never lands on the same
residue. -/
theorem add_mod_ne (a k m : ℕ) (h0 : 0 < k) (hk : k < m) :
    (a + k) % m ≠ a % m := by
  intro hc
  have hm : 0 < m := lt_trans h0 hk
  rw [Nat.add_mod, Nat.mod_eq_of_lt hk] at hc
  have hr : a % m < m := Nat.mod_lt _ hm
  by_cases hlt : a % m + k < m
  · rw [Nat.mod_eq_of_lt hlt] at hc
    omega
  · have hsub : (a % m + k) % m = a % m + k - m := by
      rw [Nat.mod_eq_sub_mod (by omega)]
      exact Nat.mod_eq_of_lt (by omega)
    omega

theorem advanceN_zero (σ : Store) (ob : OrderBook) :
    OrderBook.advanceN σ ob 0 = some ob := rfl

theorem advanceN_succ (σ : Store) (ob : OrderBook) (k : ℕ) :
    OrderBook.advanceN σ ob (k + 1) =
      match OrderBook.advance σ ob with
      | none => none
      | some ob₁ => OrderBook.advanceN σ ob₁ k := rfl

/-- If the only id due in the next `k` ticks is `oid` — in bucket
`(now + k) % max_lifetime`, every earlier due bucket empty — then `k`
consecutive `advance()` calls leave both side books exactly as an explicit
`process_cancellations([oid])` does (the wheels differ: the cursor has
moved and the bucket was drained). -/
theorem advanceN_quiet (σ : Store) (oid : OrderId) :
    ∀ (k : ℕ) (ob : OrderBook), 0 < k →
      k < ob.expiration_wheel.max_lifetime →
      ob.expiration_wheel.expiration_bucket.length =
        ob.expiration_wheel.max_lifetime →
      (∀ i, 1 ≤ i → i < k →
        ob.expiration_wheel.expiration_bucket.getD
          ((ob.expiration_wheel.now + i) %
            ob.expiration_wheel.max_lifetime) [] = []) →
      ob.expiration_wheel.expiration_bucket.getD
        ((ob.expiration_wheel.now + k) %
          ob.expiration_wheel.max_lifetime) [] = [oid] →
      (OrderBook.advanceN σ ob k).map (fun s => (s.bids, s.asks)) =
        (OrderBook.process_cancellations σ ob [oid]).map
          (fun s => (s.bids, s.asks)) := by
  intro k
  induction k with
  | zero => intro ob h0; exact absurd h0 (by omega)
  | succ k ih =>
      intro ob _ hkm hlen hquiet htarget
      have hm : 0 < ob.expiration_wheel.max_lifetime := by omega
      rcases Nat.eq_zero_or_pos k with rfl | hk
      · -- a single advance: the due bucket is the target bucket
        rw [advanceN_succ, advance_target σ ob oid htarget, procCancel_wheel]
        cases OrderBook.process_cancellations σ ob [oid] with
        | none => rfl
        | some s => rfl
      · -- the first advance is quiet; the remaining k advances see the
        -- same due buckets, shifted by one tick
        have hq1 := hquiet 1 le_rfl (by omega)
        rw [advanceN_succ, advance_quiet σ ob hq1]
        dsimp only
        set w := ob.expiration_wheel with hw
        set pos1 := (w.now + 1) % w.max_lifetime with hpos1
        have hpos1lt : pos1 < w.expiration_bucket.length := by
          rw [hlen]
          exact Nat.mod_lt _ hm
        have hbuck : ((w.advance).1).expiration_bucket =
            w.expiration_bucket.set pos1 [] := rfl
        have hmax : ((w.advance).1).max_lifetime = w.max_lifetime := rfl
        have hshift : ∀ j, (pos1 + j) % w.max_lifetime =
            (w.now + 1 + j) % w.max_lifetime := by
          intro j
          rw [hpos1, Nat.mod_add_mod]
        refine (ih { ob with expiration_wheel := (w.advance).1 } hk
          (by rw [hmax]; omega)
          (by rw [hbuck, hmax, List.length_set]; exact hlen)
          ?_ ?_).trans ?_
        · intro i h1 hi
          show (w.expiration_bucket.set pos1 []).getD
            ((pos1 + i) % w.max_lifetime) [] = []
          rw [hshift i]
          by_cases he : pos1 = (w.now + 1 + i) % w.max_lifetime
          · rw [← he]
            simp [List.getD_eq_getElem?_getD, List.getElem?_set_self,
              hpos1lt]
          · rw [List.getD_eq_getElem?_getD, List.getElem?_set_ne he,
              ← List.getD_eq_getElem?_getD]
            have heq : w.now + 1 + i = w.now + (i + 1) := by omega
            rw [heq]
            exact hquiet (i + 1) (by omega) (by omega)
        · show (w.expiration_bucket.set pos1 []).getD
            ((pos1 + k) % w.max_lifetime) [] = [oid]
          rw [hshift k]
          have hne : pos1 ≠ (w.now + 1 + k) % w.max_lifetime := by
            rw [hpos1]
            intro hc
            exact add_mod_ne (w.now + 1) k w.max_lifetime hk (by omega) hc.symm
          rw [List.getD_eq_getElem?_getD, List.getElem?_set_ne hne,
            ← List.getD_eq_getElem?_getD]
          have heq : w.now + 1 + k = w.now + (k + 1) := by omega
          rw [heq]
          exact htarget
        · rw [procCancel_wheel]
          cases OrderBook.process_cancellations σ ob [oid] with
          | none => rfl
          | some s => rfl

/-- **C6** (counterexample).  Order 0 rests with lifetime `k = 2` and
`0 < 2 < max_lifetime = 5`, yet two `advance()` calls do *not* leave the
book in the state of `process_cancellations([0])`: the other resting order
(id 1, lifetime 1) expires during those ticks, so even the public
`bid_depth` differs (0 versus 5). -/
theorem C6_counterexample :
    (OrderBook.advanceN c6Store c6Book 2).map OrderBook.get_bid_depth ≠
      (OrderBook.process_cancellations c6Store c6Book [0]).map
        OrderBook.get_bid_depth := by
  decide

/-- **C6** (amended).  For an order scheduled with lifetime `k`
(`0 < k < max_lifetime`) onto a wheel whose due buckets for the next `k`
ticks are otherwise empty, `k` consecutive `advance()` calls leave both
side books (bids and asks) exactly as an explicit
`process_cancellations([order.id])` at the same instant; only the wheel
itself differs (its cursor has moved and the drained bucket is empty). -/
theorem C6_expiry_equivalence (σ : Store) (ob : OrderBook) (oid : OrderId)
    (w₀ : ExpirationWheel) (k : ℕ)
    (hlt : (σ oid).lifetime = some k)
    (hsched : ob.expiration_wheel = ExpirationWheel.schedule w₀ σ oid)
    (hk : 0 < k) (hkm : k < w₀.max_lifetime)
    (hlen : w₀.expiration_bucket.length = w₀.max_lifetime)
    (hquiet : ∀ i, 1 ≤ i → i ≤ k →
      w₀.expiration_bucket.getD ((w₀.now + i) % w₀.max_lifetime) [] = []) :
    (OrderBook.advanceN σ ob k).map (fun s => (s.bids, s.asks)) =
      (OrderBook.process_cancellations σ ob [oid]).map
        (fun s => (s.bids, s.asks)) := by
  have hm : 0 < w₀.max_lifetime := by omega
  have hpos : (w₀.now + k) % w₀.max_lifetime < w₀.expiration_bucket.length := by
    rw [hlen]
    exact Nat.mod_lt _ hm
  have hsch : ob.expiration_wheel = { w₀ with
      expiration_bucket := w₀.expiration_bucket.set
        ((w₀.now + k) % w₀.max_lifetime) [oid] } := by
    rw [hsched, ExpirationWheel.schedule, hlt]
    rw [Option.getD_some, hquiet k hk le_rfl]
    rfl
  refine advanceN_quiet σ oid k ob hk ?_ ?_ ?_ ?_
  · rw [hsch]
    exact hkm
  · rw [hsch]
    show (w₀.expiration_bucket.set _ [oid]).length = w₀.max_lifetime
    rw [List.length_set]
    exact hlen
  · intro i h1 hi
    rw [hsch]
    show (w₀.expiration_bucket.set ((w₀.now + k) % w₀.max_lifetime)
      [oid]).getD ((w₀.now + i) % w₀.max_lifetime) [] = []
    have hne : (w₀.now + k) % w₀.max_lifetime ≠
        (w₀.now + i) % w₀.max_lifetime := by
      intro hc
      have heq : w₀.now + i + (k - i) = w₀.now + k := by omega
      exact add_mod_ne (w₀.now + i) (k - i) w₀.max_lifetime (by omega)
        (by omega) (by rw [heq]; exact hc)
    rw [List.getD_eq_getElem?_getD, List.getElem?_set_ne hne,
      ← List.getD_eq_getElem?_getD]
    exact hquiet i h1 (by omega)
  · rw [hsch]
    show (w₀.expiration_bucket.set ((w₀.now + k) % w₀.max_lifetime)
      [oid]).getD ((w₀.now + k) % w₀.max_lifetime) [] = [oid]
    simp [List.getD_eq_getElem?_getD, List.getElem?_set_self, hpos]

/-- **C6** witness: the amended theorem applied to a concrete one-bid book
with lifetime 2 on an otherwise empty wheel. -/
theorem C6_witness :
    (c6wStore 0).lifetime = some 2 ∧
      c6wBook.expiration_wheel = ExpirationWheel.schedule c6wWheel c6wStore 0 ∧
      0 < 2 ∧ 2 < c6wWheel.max_lifetime ∧
      c6wWheel.expiration_bucket.length = c6wWheel.max_lifetime ∧
      (∀ i, 1 ≤ i → i ≤ 2 →
        c6wWheel.expiration_bucket.getD
          ((c6wWheel.now + i) % c6wWheel.max_lifetime) [] = []) ∧
      (OrderBook.advanceN c6wStore c6wBook 2).map (fun s => (s.bids, s.asks)) =
        (OrderBook.process_cancellations c6wStore c6wBook [0]).map
          (fun s => (s.bids, s.asks)) :=
  ⟨rfl, rfl, by decide, by decide, by decide,
   by intro i h1 h2; interval_cases i <;> decide,
   C6_expiry_equivalence c6wStore c6wBook 0 c6wWheel 2 rfl rfl (by decide)
     (by decide) (by decide)
     (by intro i h1 h2; interval_cases i <;> decide)⟩

/-! ## Invariants and auxiliary lemmas for the `PriceBook.fill` spec -/
theorem alGet_mem {α β : Type} [DecidableEq α] {l : List (α × β)} {k : α}
    {v : β} (h : alGet l k = some v) : (k, v) ∈ l := by
  induction l with
  | nil => simp [alGet] at h
  | cons kv rest ih =>
      obtain ⟨k₀, v₀⟩ := kv
      rw [alGet] at h
      by_cases hk : k₀ = k
      · rw [if_pos hk] at h
        obtain rfl := Option.some.inj h
        subst hk
        exact List.mem_cons_self _ _
      · rw [if_neg hk] at h
        exact List.mem_cons_of_mem _ (ih h)

theorem alSet_entries {α β : Type} [DecidableEq α] {l : List (α × β)} {k : α}
    {v : β} : ∀ kv ∈ alSet l k v, kv = (k, v) ∨ kv ∈ l := by
  induction l with
  | nil => simp [alSet]
  | cons kv₀ rest ih =>
      obtain ⟨k₀, v₀⟩ := kv₀
      intro kv hkv
      rw [alSet] at hkv
      by_cases hk : k₀ = k
      · rw [if_pos hk] at hkv
        rcases List.mem_cons.mp hkv with rfl | h'
        · subst hk
          exact Or.inl rfl
        · exact Or.inr (List.mem_cons_of_mem _ h')
      · rw [if_neg hk] at hkv
        rcases List.mem_cons.mp hkv with rfl | h'
        · exact Or.inr (List.mem_cons_self _ _)
        · rcases ih kv h' with h'' | h''
          · exact Or.inl h''
          · exact Or.inr (List.mem_cons_of_mem _ h'')

theorem alErase_sublist {α β : Type} [DecidableEq α] (l : List (α × β))
    (k : α) : (alErase l k).Sublist l := by
  induction l with
  | nil => simp [alErase]
  | cons kv rest ih =>
      obtain ⟨k₀, v₀⟩ := kv
      rw [alErase]
      by_cases hk : k₀ = k
      · rw [if_pos hk]
        exact List.sublist_cons_self _ _
      · rw [if_neg hk]
        exact List.Sublist.cons₂ _ ih

theorem purgeAux_suffix {side : Bool} {heap : List Price}
    {levels : List (Price × PriceLevel)}
    {r : (List Price × List (Price × PriceLevel))} {b : Option Price}
    (h : PriceBook.purgeAux side heap levels = some (r, b)) :
    r.1.Sublist heap ∧ r.2.Sublist levels := by
  induction heap generalizing levels with
  | nil =>
      rw [PriceBook.purgeAux] at h
      obtain ⟨h₁, _⟩ := Prod.mk.injEq .. ▸ Option.some.inj h
      subst h₁
      exact ⟨List.Sublist.refl _, List.Sublist.refl _⟩
  | cons hp rest ih =>
      rw [PriceBook.purgeAux] at h
      cases halv : alGet levels (if side then hp.neg else hp) with
      | none => rw [halv] at h; simp at h
      | some lvl =>
          simp only [halv] at h
          by_cases hemp : lvl.is_empty
          · rw [if_pos hemp] at h
            obtain ⟨h₁, h₂⟩ := ih h
            exact ⟨h₁.trans (List.sublist_cons_self _ _),
              h₂.trans (alErase_sublist _ _)⟩
          · rw [if_neg hemp] at h
            obtain ⟨h₁, _⟩ := Prod.mk.injEq .. ▸ Option.some.inj h
            subst h₁
            exact ⟨List.Sublist.refl _, List.Sublist.refl _⟩

theorem purgeAux_none_heap {side : Bool} {heap : List Price}
    {levels : List (Price × PriceLevel)}
    {r : (List Price × List (Price × PriceLevel))}
    (h : PriceBook.purgeAux side heap levels = some (r, none)) : r.1 = [] := by
  induction heap generalizing levels with
  | nil =>
      rw [PriceBook.purgeAux] at h
      obtain ⟨h₁, _⟩ := Prod.mk.injEq .. ▸ Option.some.inj h
      subst h₁
      rfl
  | cons hp rest ih =>
      rw [PriceBook.purgeAux] at h
      cases halv : alGet levels (if side then hp.neg else hp) with
      | none => rw [halv] at h; simp at h
      | some lvl =>
          simp only [halv] at h
          by_cases hemp : lvl.is_empty
          · rw [if_pos hemp] at h
            exact ih h
          · rw [if_neg hemp] at h
            obtain ⟨_, h₂⟩ := Prod.mk.injEq .. ▸ Option.some.inj h
            simp at h₂

theorem delOrders_spec {om : List OrderId} {ids om' : List OrderId}
    (hnd : om.Nodup) (h : PriceBook.delOrders om ids = some om') :
    om'.Nodup ∧ ∀ j, (j ∈ om' ↔ j ∈ om ∧ j ∉ ids) := by
  induction ids generalizing om with
  | nil =>
      rw [PriceBook.delOrders] at h
      obtain rfl := Option.some.inj h
      exact ⟨hnd, fun j => by simp⟩
  | cons i rest ih =>
      rw [PriceBook.delOrders] at h
      by_cases hi : i ∈ om
      · rw [if_pos hi] at h
        obtain ⟨h₁, h₂⟩ := ih (hnd.erase i) h
        refine ⟨h₁, fun j => ?_⟩
        rw [h₂ j, List.Nodup.mem_erase_iff hnd]
        constructor
        · rintro ⟨⟨hji, hjm⟩, hjr⟩
          exact ⟨hjm, by simp [hji, hjr]⟩
        · rintro ⟨hjm, hjn⟩
          simp only [List.mem_cons, not_or] at hjn
          exact ⟨⟨hjn.1, hjm⟩, hjn.2⟩
      · rw [if_neg hi] at h
        simp at h

theorem pairwise_disjoint_alSet {l : List (Price × PriceLevel)} {k : Price}
    {v old : PriceLevel} (hget : alGet l k = some old)
    (hsub : ∀ x ∈ v.orders, x ∈ old.orders)
    (hp : l.Pairwise
      (fun a b => ∀ x ∈ (a.2 : PriceLevel).orders, x ∉ (b.2 : PriceLevel).orders)) :
    (alSet l k v).Pairwise
      (fun a b => ∀ x ∈ (a.2 : PriceLevel).orders, x ∉ (b.2 : PriceLevel).orders) := by
  induction l with
  | nil => simp [alGet] at hget
  | cons kv₀ rest ih =>
      obtain ⟨k₀, v₀⟩ := kv₀
      rw [alGet] at hget
      rw [alSet]
      by_cases hk : k₀ = k
      · rw [if_pos hk] at hget ⊢
        obtain rfl := Option.some.inj hget
        rw [List.pairwise_cons] at hp ⊢
        exact ⟨fun b hb x hx => hp.1 b hb x (hsub x hx), hp.2⟩
      · rw [if_neg hk] at hget ⊢
        rw [List.pairwise_cons] at hp ⊢
        refine ⟨fun b hb x hx => ?_, ih hget hp.2⟩
        rcases alSet_entries b hb with rfl | hb'
        · intro hc
          exact hp.1 (k, old) (alGet_mem hget) x hx (hsub x hc)
        · exact hp.1 b hb' x hx

theorem get_best_price_stable {book b : PriceBook} {r : Option Price}
    (h : PriceBook.get_best_price book = some (b, r)) :
    PriceBook.get_best_price b = some (b, r) := by
  by_cases he : book.levels.isEmpty
  · rw [PriceBook.get_best_price, if_pos he] at h
    obtain ⟨h₁, h₂⟩ := Prod.mk.injEq .. ▸ Option.some.inj h
    subst h₁
    subst h₂
    rw [PriceBook.get_best_price, if_pos he]
  · rw [PriceBook.get_best_price, if_neg he] at h
    cases r with
    | some bp =>
        obtain ⟨hside, hom, rest, lvl, hheap, halv, hlive⟩ :=
          PriceBook.purge_front h
        have hne : b.levels.isEmpty = false := by
          rcases hl : b.levels with _ | _
          · rw [hl] at halv; simp [alGet] at halv
          · simp [hl]
        rw [PriceBook.get_best_price, if_neg (by simp [hne])]
        rw [PriceBook.purge_cons_live hheap
          (by rw [PriceBook.heapVal_heapKey]; exact halv) hlive]
        rw [PriceBook.heapVal_heapKey]
    | none =>
        rw [PriceBook.purge] at h
        cases hr : PriceBook.purgeAux book.is_bid_side book.heap book.levels with
        | none => rw [hr] at h; simp at h
        | some rr =>
            rw [hr] at h
            simp only [Option.map_some'] at h
            rw [Option.some.injEq, Prod.mk.injEq] at h
            obtain ⟨h₁, h₂⟩ := h
            subst h₁
            have hrr : PriceBook.purgeAux book.is_bid_side book.heap
                book.levels = some (rr.1, none) := by
              rw [hr, ← h₂]
            have hheap : rr.1.1 = [] := purgeAux_none_heap hrr
            by_cases he₂ : (rr.1.2 : List (Price × PriceLevel)).isEmpty
            · rw [PriceBook.get_best_price, if_pos he₂]
            · rw [PriceBook.get_best_price, if_neg he₂, PriceBook.purge]
              show ((PriceBook.purgeAux book.is_bid_side rr.1.1 rr.1.2).map _) = _
              rw [hheap, PriceBook.purgeAux]
              rfl

theorem fillAux_queue_sublist (inId : OrderId) (is_bid : Bool)
    (price : Price) (σ : Store) (queue : List OrderId) (lvol : ℤ) :
    (PriceLevel.fillAux inId is_bid price σ queue lvol).2.1.Sublist queue := by
  induction queue generalizing σ lvol with
  | nil => exact List.Sublist.refl _
  | cons topId rest ih =>
      by_cases hv : (σ inId).volume ≤ 0
      · rw [PriceLevel.fillAux_nonpos is_bid price hv]
      · push_neg at hv
        rcases lt_trichotomy (σ topId).volume (σ inId).volume with ht | ht | ht
        · rw [PriceLevel.fillAux_lt is_bid price hv ht]
          exact (ih _ _).trans (List.sublist_cons_self _ _)
        · rw [PriceLevel.fillAux_eq is_bid price hv ht]
          exact List.sublist_cons_self _ _
        · rw [PriceLevel.fillAux_gt is_bid price hv ht]

/-- `purge` (hence the cleanup inside `get_best_price`) only drops heap
entries and level entries; the index and side are untouched. -/
theorem purge_parts {book b : PriceBook} {r : Option Price}
    (h : PriceBook.purge book = some (b, r)) :
    b.heap.Sublist book.heap ∧ b.levels.Sublist book.levels ∧
      b.order_map = book.order_map ∧ b.is_bid_side = book.is_bid_side := by
  rw [PriceBook.purge] at h
  cases hr : PriceBook.purgeAux book.is_bid_side book.heap book.levels with
  | none => rw [hr] at h; simp at h
  | some rr =>
      rw [hr] at h
      simp only [Option.map_some'] at h
      rw [Option.some.injEq, Prod.mk.injEq] at h
      obtain ⟨h₁, _⟩ := h
      subst h₁
      obtain ⟨hs₁, hs₂⟩ := purgeAux_suffix
        (show PriceBook.purgeAux book.is_bid_side book.heap book.levels =
          some (rr.1, rr.2) from by rw [hr])
      exact ⟨hs₁, hs₂, rfl, rfl⟩

theorem get_best_price_parts {book b : PriceBook} {r : Option Price}
    (h : PriceBook.get_best_price book = some (b, r)) :
    b.heap.Sublist book.heap ∧ b.levels.Sublist book.levels ∧
      b.order_map = book.order_map ∧ b.is_bid_side = book.is_bid_side := by
  by_cases he : book.levels.isEmpty
  · rw [PriceBook.get_best_price, if_pos he] at h
    obtain ⟨h₁, _⟩ := Prod.mk.injEq .. ▸ Option.some.inj h
    subst h₁
    exact ⟨List.Sublist.refl _, List.Sublist.refl _, rfl, rfl⟩
  · rw [PriceBook.get_best_price, if_neg he] at h
    exact purge_parts h

/-- Conservation and frame facts for the matching loop: per-id volume
conservation against the emitted trades, volume-only store mutation, no
effect on orders resting nowhere on this side, and non-negativity of the
incoming volume. -/
theorem fillLoopF_conserve (inId : OrderId) :
    ∀ (fuel : ℕ) (σ : Store) (book : PriceBook) (σ' : Store)
      (book' : PriceBook) (trades : List Trade),
      PriceBook.fillLoopF fuel σ book inId = some (σ', book', trades) →
      LevelsWF inId book → LevelsDisj book →
      (∀ j, (σ j).volume - (σ' j).volume = touchVol j trades) ∧
        (∀ j, σ' j = { σ j with volume := (σ' j).volume }) ∧
        (∀ j, j ≠ inId →
          (∀ kv ∈ book.levels, j ∉ (kv.2 : PriceLevel).orders) → σ' j = σ j) ∧
        (0 ≤ (σ inId).volume → 0 ≤ (σ' inId).volume) := by
  intro fuel
  induction fuel with
  | zero => intro σ book σ' book' trades h; rw [PriceBook.fillLoopF] at h; simp at h
  | succ fuel ih =>
      intro σ book σ' book' trades h hwf hdisj
      rw [PriceBook.fillLoopF] at h
      have htriv : σ = σ' → trades = [] →
          (∀ j, (σ j).volume - (σ' j).volume = touchVol j trades) ∧
            (∀ j, σ' j = { σ j with volume := (σ' j).volume }) ∧
            (∀ j, j ≠ inId →
              (∀ kv ∈ book.levels, j ∉ (kv.2 : PriceLevel).orders) →
                σ' j = σ j) ∧
            (0 ≤ (σ inId).volume → 0 ≤ (σ' inId).volume) := by
        rintro rfl rfl
        exact ⟨fun j => by simp [touchVol_nil], fun j => rfl,
          fun j _ _ => rfl, fun hh => hh⟩
      cases hb : PriceBook.get_best_price book with
      | none => rw [hb] at h; simp at h
      | some r₀ =>
        rw [hb] at h
        obtain ⟨book₀, bp?⟩ := r₀
        cases bp? with
        | none =>
            simp only at h
            rw [Option.some.injEq, Prod.mk.injEq, Prod.mk.injEq] at h
            exact htriv h.1 h.2.2.symm
        | some bp =>
          simp only at h
          by_cases hcond : bp.isTruthy = true ∧ 0 < (σ inId).volume
          swap
          · rw [if_neg hcond] at h
            rw [Option.some.injEq, Prod.mk.injEq, Prod.mk.injEq] at h
            exact htriv h.1 h.2.2.symm
          rw [if_pos hcond] at h
          by_cases hcf : (if book₀.is_bid_side then bp.ge (σ inId).price
              else bp.le (σ inId).price) = true
          swap
          · rw [if_neg hcf] at h
            rw [Option.some.injEq, Prod.mk.injEq, Prod.mk.injEq] at h
            exact htriv h.1 h.2.2.symm
          rw [if_pos hcf] at h
          cases halv : alGet book₀.levels bp with
          | none => rw [halv] at h; simp at h
          | some lvl =>
            rw [halv] at h
            dsimp only at h
            cases hdel : PriceBook.delOrders book₀.order_map
                (PriceLevel.fill σ lvl inId).2.2.2 with
            | none => rw [hdel] at h; simp at h
            | some om' =>
              rw [hdel] at h
              dsimp only at h
              cases hrec : PriceBook.fillLoopF fuel
                  (PriceLevel.fill σ lvl inId).1
                  { book₀ with
                    levels := alSet book₀.levels bp
                      (PriceLevel.fill σ lvl inId).2.1,
                    order_map := om' } inId with
              | none => rw [hrec] at h; simp at h
              | some rr =>
                rw [hrec] at h
                obtain ⟨σ₂', book₂, trades₂⟩ := rr
                rw [Option.some.injEq, Prod.mk.injEq, Prod.mk.injEq] at h
                obtain ⟨hσ, hbk, htr⟩ := h
                subst hσ
                subst hbk
                -- facts about the purged book and the level
                obtain ⟨hheapsub, hlvlsub, homod, hsided⟩ :=
                  get_best_price_parts hb
                have hwf₀ : LevelsWF inId book₀ := fun kv hkv =>
                  hwf kv (hlvlsub.subset hkv)
                have hdisj₀ : LevelsDisj book₀ := hdisj.sublist hlvlsub
                have hlvl₀ := hwf₀ (bp, lvl) (alGet_mem halv)
                obtain ⟨hlnd, hlnotin, hlprice⟩ := hlvl₀
                set σ₂ := (PriceLevel.fill σ lvl inId).1 with hσ₂
                have hlevelcons : ∀ j, (σ j).volume - (σ₂ j).volume =
                    touchVol j (PriceLevel.fill σ lvl inId).2.2.1 :=
                  fun j => PriceLevel.fillAux_conserve inId (σ inId).is_bid
                    lvl.price σ lvl.orders lvl.volume hlnotin hlnd j
                have hqsub := fillAux_queue_sublist inId (σ inId).is_bid
                  lvl.price σ lvl.orders lvl.volume
                -- invariants for the recursive call
                have hwf₁ : LevelsWF inId { book₀ with
                    levels := alSet book₀.levels bp
                      (PriceLevel.fill σ lvl inId).2.1,
                    order_map := om' } := by
                  intro kv hkv
                  rcases alSet_entries kv hkv with rfl | hkv'
                  · exact ⟨hlnd.sublist hqsub,
                      fun hc => hlnotin (hqsub.subset hc), hlprice⟩
                  · exact hwf₀ kv hkv'
                have hdisj₁ : LevelsDisj { book₀ with
                    levels := alSet book₀.levels bp
                      (PriceLevel.fill σ lvl inId).2.1,
                    order_map := om' } := by
                  show List.Pairwise _ (alSet book₀.levels bp _)
                  exact pairwise_disjoint_alSet halv
                    (fun x hx => hqsub.subset hx) hdisj₀
                obtain ⟨ih₁, ih₂, ih₃, ih₄⟩ := ih σ₂ _ σ₂' book₂ trades₂
                  hrec hwf₁ hdisj₁
                subst htr
                refine ⟨?_, ?_, ?_, ?_⟩
                · intro j
                  rw [touchVol_append]
                  have := hlevelcons j
                  have := ih₁ j
                  omega
                · intro j
                  rw [ih₂ j]
                  have hs := PriceLevel.fillAux_shape inId (σ inId).is_bid
                    lvl.price σ lvl.orders lvl.volume j
                  rw [show σ₂ j = { σ j with volume := (σ₂ j).volume } from hs]
                · intro j hji hout
                  have hlout : j ∉ lvl.orders :=
                    hout (bp, lvl) (hlvlsub.subset (alGet_mem halv))
                  have hframe : σ₂ j = σ j :=
                    PriceLevel.fillAux_frame inId (σ inId).is_bid lvl.price σ
                      lvl.orders lvl.volume hlout hji
                  rw [← hframe]
                  refine ih₃ j hji ?_
                  intro kv hkv
                  rcases alSet_entries kv hkv with rfl | hkv'
                  · exact fun hc => hlout (hqsub.subset hc)
                  · exact hout kv (hlvlsub.subset hkv')
                · intro _
                  refine ih₄ ?_
                  exact PriceLevel.fillAux_nonneg inId (σ inId).is_bid
                    lvl.price σ lvl.orders lvl.volume hcond.2 hlnotin

theorem alSet_keys {α β : Type} [DecidableEq α] {l : List (α × β)} {k : α}
    {v old : β} (hget : alGet l k = some old) :
    (alSet l k v).map Prod.fst = l.map Prod.fst := by
  induction l with
  | nil => simp [alGet] at hget
  | cons kv₀ rest ih =>
      obtain ⟨k₀, v₀⟩ := kv₀
      rw [alGet] at hget
      rw [alSet]
      by_cases hk : k₀ = k
      · rw [if_pos hk]
        simp
      · rw [if_neg hk] at hget ⊢
        simp [ih hget]

/-- With duplicate-free keys, every entry of `d[k] = v` is the new binding
or an untouched old binding at a different key. -/
theorem alSet_entries_keyed {α β : Type} [DecidableEq α]
    {l : List (α × β)} (hnd : (l.map Prod.fst).Nodup) {k : α} {v : β} :
    ∀ kv ∈ alSet l k v, kv = (k, v) ∨ (kv ∈ l ∧ kv.1 ≠ k) := by
  induction l with
  | nil =>
      intro kv hkv
      rw [alSet] at hkv
      exact Or.inl (by simpa using hkv)
  | cons kv₀ rest ih =>
      obtain ⟨k₀, v₀⟩ := kv₀
      rw [List.map_cons, List.nodup_cons] at hnd
      intro kv hkv
      rw [alSet] at hkv
      by_cases hk : k₀ = k
      · rw [if_pos hk] at hkv
        rcases List.mem_cons.mp hkv with rfl | h'
        · exact Or.inl (by rw [hk])
        · refine Or.inr ⟨List.mem_cons_of_mem _ h', fun hc => ?_⟩
          refine hnd.1 ?_
          rw [hk, ← hc]
          exact List.mem_map.mpr ⟨kv, h', rfl⟩
      · rw [if_neg hk] at hkv
        rcases List.mem_cons.mp hkv with rfl | h'
        · exact Or.inr ⟨List.mem_cons_self _ _, hk⟩
        · rcases ih hnd.2 kv h' with h'' | h''
          · exact Or.inl h''
          · exact Or.inr ⟨List.mem_cons_of_mem _ h''.1, h''.2⟩

theorem pairwiseLe_const {l : List Price} {K : Price} (h : ∀ p ∈ l, p = K) :
    l.Pairwise (fun a b => Price.le a b = true) := by
  induction l with
  | nil => exact List.Pairwise.nil
  | cons p rest ih =>
      rw [List.pairwise_cons]
      refine ⟨fun b hb => ?_, ih fun q hq => h q (List.mem_cons_of_mem _ hq)⟩
      rw [h p (List.mem_cons_self _ _), h b (List.mem_cons_of_mem _ hb)]
      exact Price.leRefl K

/-- Two distinct level entries on one side have disjoint order queues, in
either order. -/
theorem levelsDisj_pairs {l : List (Price × PriceLevel)}
    (hp : l.Pairwise
      (fun a b => ∀ x ∈ (a.2 : PriceLevel).orders, x ∉ (b.2 : PriceLevel).orders))
    {a b : Price × PriceLevel} (ha : a ∈ l) (hb : b ∈ l) (hab : a ≠ b) :
    ∀ x ∈ (a.2 : PriceLevel).orders, x ∉ (b.2 : PriceLevel).orders := by
  have hsym : Symmetric (fun a b : Price × PriceLevel =>
      ∀ x ∈ (a.2 : PriceLevel).orders, x ∉ (b.2 : PriceLevel).orders) :=
    fun a b h x hxa hxb => h x hxb hxa
  exact hp.forall hsym ha hb hab

/-- Priority and stopping facts for the matching loop: every emitted trade
carries a truthy level price that crosses the incoming order's price and
whose heap entry is on this side's heap; the trade sequence is ordered
best-price-first; the loop stops exactly with the incoming volume exhausted
or no (truthy, crossing) best price left; and every id deleted from
`order_map` ends the fill with volume `0`. -/
theorem fillLoopF_priority (inId : OrderId) :
    ∀ (fuel : ℕ) (σ : Store) (book : PriceBook) (σ' : Store)
      (book' : PriceBook) (trades : List Trade),
      PriceBook.fillLoopF fuel σ book inId = some (σ', book', trades) →
      LevelsWF inId book → LevelsDisj book → heapSorted book →
      (book.levels.map Prod.fst).Nodup → book.order_map.Nodup →
      (∀ t ∈ trades, t.price.isTruthy = true ∧
          (if book.is_bid_side then t.price.ge (σ inId).price
           else t.price.le (σ inId).price) = true ∧
          book.heapKey t.price ∈ book.heap) ∧
        (trades.map (fun t => book.heapKey t.price)).Pairwise
          (fun a b => Price.le a b = true) ∧
        ((σ' inId).volume ≤ 0 ∨
          PriceBook.get_best_price book' = some (book', none) ∨
          ∃ bp, PriceBook.get_best_price book' = some (book', some bp) ∧
            (bp.isTruthy = false ∨
              (if book.is_bid_side then bp.ge (σ' inId).price
               else bp.le (σ' inId).price) = false)) ∧
        (∀ j, j ∈ book.order_map → j ∉ book'.order_map →
          (σ' j).volume = 0) := by
  intro fuel
  induction fuel with
  | zero => intro σ book σ' book' trades h; rw [PriceBook.fillLoopF] at h; simp at h
  | succ fuel ih =>
      intro σ book σ' book' trades h hwf hdisj hsort hkeys homnd
      rw [PriceBook.fillLoopF] at h
      cases hb : PriceBook.get_best_price book with
      | none => rw [hb] at h; simp at h
      | some r₀ =>
        rw [hb] at h
        obtain ⟨book₀, bp?⟩ := r₀
        cases bp? with
        | none =>
            simp only at h
            rw [Option.some.injEq, Prod.mk.injEq, Prod.mk.injEq] at h
            obtain ⟨rfl, rfl, rfl⟩ := h
            refine ⟨by simp, by simp, Or.inr (Or.inl ?_), ?_⟩
            · exact get_best_price_stable hb
            · obtain ⟨_, _, hom, _⟩ := get_best_price_parts hb
              intro j hj hj'
              exact absurd (hom ▸ hj) hj'
        | some bp =>
          simp only at h
          obtain ⟨hheapsub, hlvlsub, homod, hsided⟩ := get_best_price_parts hb
          by_cases hcond : bp.isTruthy = true ∧ 0 < (σ inId).volume
          swap
          · rw [if_neg hcond] at h
            rw [Option.some.injEq, Prod.mk.injEq, Prod.mk.injEq] at h
            obtain ⟨rfl, rfl, rfl⟩ := h
            refine ⟨by simp, by simp, ?_, ?_⟩
            · by_cases hvol : 0 < (σ inId).volume
              · refine Or.inr (Or.inr ⟨bp, get_best_price_stable hb, Or.inl ?_⟩)
                rcases Bool.eq_false_or_eq_true bp.isTruthy with ht | ht
                · exact absurd ⟨ht, hvol⟩ hcond
                · exact ht
              · exact Or.inl (by omega)
            · intro j hj hj'
              exact absurd (homod ▸ hj) hj'
          rw [if_pos hcond] at h
          by_cases hcf : (if book₀.is_bid_side then bp.ge (σ inId).price
              else bp.le (σ inId).price) = true
          swap
          · rw [if_neg hcf] at h
            rw [Option.some.injEq, Prod.mk.injEq, Prod.mk.injEq] at h
            obtain ⟨rfl, rfl, rfl⟩ := h
            refine ⟨by simp, by simp, ?_, ?_⟩
            · refine Or.inr (Or.inr ⟨bp, get_best_price_stable hb, Or.inr ?_⟩)
              rw [← hsided]
              exact Bool.not_eq_true _ ▸ hcf
            · intro j hj hj'
              exact absurd (homod ▸ hj) hj'
          rw [if_pos hcf] at h
          cases halv : alGet book₀.levels bp with
          | none => rw [halv] at h; simp at h
          | some lvl =>
            rw [halv] at h
            dsimp only at h
            cases hdel : PriceBook.delOrders book₀.order_map
                (PriceLevel.fill σ lvl inId).2.2.2 with
            | none => rw [hdel] at h; simp at h
            | some om' =>
              rw [hdel] at h
              dsimp only at h
              cases hrec : PriceBook.fillLoopF fuel
                  (PriceLevel.fill σ lvl inId).1
                  { book₀ with
                    levels := alSet book₀.levels bp
                      (PriceLevel.fill σ lvl inId).2.1,
                    order_map := om' } inId with
              | none => rw [hrec] at h; simp at h
              | some rr =>
                rw [hrec] at h
                obtain ⟨σ₂', book₂, trades₂⟩ := rr
                rw [Option.some.injEq, Prod.mk.injEq, Prod.mk.injEq] at h
                obtain ⟨hσ, hbk, htr⟩ := h
                subst hσ
                subst hbk
                subst htr
                -- side facts about the purged book, the level, the heap
                have hwf₀ : LevelsWF inId book₀ := fun kv hkv =>
                  hwf kv (hlvlsub.subset hkv)
                have hdisj₀ : LevelsDisj book₀ := hdisj.sublist hlvlsub
                have hsort₀ : List.Pairwise (fun a b => Price.le a b = true)
                    book₀.heap := hsort.sublist hheapsub
                have hkeys₀ : (book₀.levels.map Prod.fst).Nodup :=
                  hkeys.sublist (hlvlsub.map Prod.fst)
                have homnd₀ : book₀.order_map.Nodup := homod ▸ homnd
                obtain ⟨hlnd, hlnotin, hlprice⟩ := hwf₀ (bp, lvl) (alGet_mem halv)
                have hlp : lvl.price = bp := hlprice
                obtain ⟨hside₀, _, hrest, hlvl₀, hheap₀, _, _⟩ :=
                  PriceBook.purge_front (PriceBook.get_best_price_some hb)
                set σ₂ := (PriceLevel.fill σ lvl inId).1 with hσ₂
                set book₁ : PriceBook := { book₀ with
                    levels := alSet book₀.levels bp
                      (PriceLevel.fill σ lvl inId).2.1,
                    order_map := om' } with hbook₁
                have hqsub := fillAux_queue_sublist inId (σ inId).is_bid
                  lvl.price σ lvl.orders lvl.volume
                have hkeyeq : ∀ p, book₁.heapKey p = book.heapKey p := by
                  intro p
                  show (if book₀.is_bid_side then p.neg else p) = _
                  rw [hsided, PriceBook.heapKey]
                have hkeyeq₀ : book₀.heapKey bp = book.heapKey bp := by
                  rw [PriceBook.heapKey, PriceBook.heapKey, hsided]
                have hpriceeq : (σ₂ inId).price = (σ inId).price := by
                  rw [show σ₂ inId = { σ inId with volume := (σ₂ inId).volume }
                    from PriceLevel.fillAux_shape inId (σ inId).is_bid
                      lvl.price σ lvl.orders lvl.volume inId]
                -- round trades all carry the level price `bp`
                have hround : ∀ t ∈ (PriceLevel.fill σ lvl inId).2.2.1,
                    t.price = bp := by
                  intro t htm
                  rw [← hlp]
                  exact PriceLevel.fillAux_trades_price inId (σ inId).is_bid
                    lvl.price σ lvl.orders lvl.volume t htm
                -- every heap entry of the purged book is `≥` the best entry
                have hbest : ∀ q ∈ book₀.heap,
                    Price.le (book₀.heapKey bp) q = true := by
                  intro q hq
                  rw [hheap₀] at hq
                  rcases List.mem_cons.mp hq with rfl | hq'
                  · exact Price.leRefl _
                  · rw [hheap₀] at hsort₀
                    exact (List.pairwise_cons.mp hsort₀).1 q hq'
                -- invariants for the recursive call
                have hwf₁ : LevelsWF inId book₁ := by
                  intro kv hkv
                  rcases alSet_entries kv hkv with rfl | hkv'
                  · exact ⟨hlnd.sublist hqsub,
                      fun hc => hlnotin (hqsub.subset hc), hlprice⟩
                  · exact hwf₀ kv hkv'
                have hdisj₁ : LevelsDisj book₁ := by
                  show List.Pairwise _ (alSet book₀.levels bp _)
                  exact pairwise_disjoint_alSet halv
                    (fun x hx => hqsub.subset hx) hdisj₀
                have hsort₁ : heapSorted book₁ := hsort₀
                have hkeys₁ : (book₁.levels.map Prod.fst).Nodup := by
                  show ((alSet book₀.levels bp _).map Prod.fst).Nodup
                  rw [alSet_keys halv]
                  exact hkeys₀
                have homnd₁ : book₁.order_map.Nodup :=
                  (delOrders_spec homnd₀ hdel).1
                obtain ⟨ihA, ihB, ihC, ihD⟩ := ih σ₂ book₁ σ₂' book₂ trades₂
                  hrec hwf₁ hdisj₁ hsort₁ hkeys₁ homnd₁
                refine ⟨?_, ?_, ?_, ?_⟩
                · -- (B1) truthy, crossing, on-heap
                  intro t htm
                  rcases List.mem_append.mp htm with htm | htm
                  · rw [hround t htm]
                    refine ⟨hcond.1, ?_, ?_⟩
                    · rw [← hsided]
                      exact hcf
                    · rw [← hkeyeq₀]
                      exact hheapsub.subset (hheap₀ ▸ List.mem_cons_self _ _)
                  · obtain ⟨h₁, h₂, h₃⟩ := ihA t htm
                    refine ⟨h₁, ?_, ?_⟩
                    · rw [hpriceeq] at h₂
                      rw [show book₁.is_bid_side = book.is_bid_side
                        from hsided] at h₂
                      exact h₂
                    · rw [hkeyeq t.price] at h₃
                      exact hheapsub.subset h₃
                · -- (B2) best-price-first ordering
                  rw [List.map_append]
                  rw [List.pairwise_append]
                  refine ⟨?_, ?_, ?_⟩
                  · refine @pairwiseLe_const _ (book.heapKey bp) ?_
                    intro p hp
                    obtain ⟨t, htm, rfl⟩ := List.mem_map.mp hp
                    rw [hround t htm]
                  · refine List.pairwise_map.mpr
                      ((List.pairwise_map.mp ihB).imp ?_)
                    intro a b hab
                    rw [← hkeyeq, ← hkeyeq]
                    exact hab
                  · intro a ha b hb
                    obtain ⟨t, htm, rfl⟩ := List.mem_map.mp ha
                    obtain ⟨u, hum, rfl⟩ := List.mem_map.mp hb
                    rw [hround t htm, ← hkeyeq₀]
                    obtain ⟨_, _, h₃⟩ := ihA u hum
                    rw [hkeyeq u.price] at h₃
                    exact hbest _ h₃
                · -- (B3) stop condition
                  rcases ihC with hc | hc | ⟨bq, hq₁, hq₂⟩
                  · exact Or.inl hc
                  · exact Or.inr (Or.inl hc)
                  · refine Or.inr (Or.inr ⟨bq, hq₁, ?_⟩)
                    rcases hq₂ with hq₂ | hq₂
                    · exact Or.inl hq₂
                    · refine Or.inr ?_
                      rw [show book₁.is_bid_side = book.is_bid_side
                        from hsided] at hq₂
                      exact hq₂
                · -- (B4) deleted ids are fully filled
                  intro j hj hj'
                  rw [← homod] at hj
                  by_cases hj₁ : j ∈ om'
                  · exact ihD j hj₁ hj'
                  · have hjf : j ∈ (PriceLevel.fill σ lvl inId).2.2.2 := by
                      by_contra hc
                      exact hj₁ (((delOrders_spec homnd₀ hdel).2 j).mpr ⟨hj, hc⟩)
                    obtain ⟨k, hk, hfil, hrem, hzero, _⟩ :=
                      PriceLevel.fillAux_fifo inId (σ inId).is_bid lvl.price σ
                        lvl.orders lvl.volume hcond.2 hlnotin hlnd
                    have hjtake : j ∈ lvl.orders.take k := hfil ▸ hjf
                    have hjlvl : j ∈ lvl.orders := List.take_subset _ _ hjtake
                    have hz : (σ₂ j).volume = 0 := hzero j hjtake
                    have hne : j ≠ inId := fun hc => hlnotin (hc ▸ hjlvl)
                    obtain ⟨_, _, hA3, _⟩ := fillLoopF_conserve inId fuel σ₂
                      book₁ σ₂' book₂ trades₂ hrec hwf₁ hdisj₁
                    rw [hA3 j hne ?_]
                    · exact hz
                    · intro kv hkv
                      rcases alSet_entries_keyed hkeys₀ kv hkv with rfl | hkv'
                      · show j ∉ (PriceLevel.fill σ lvl inId).2.1.orders
                        have : (PriceLevel.fill σ lvl inId).2.1.orders =
                            lvl.orders.drop k := hrem
                        rw [this]
                        exact fun hc =>
                          List.disjoint_take_drop hlnd le_rfl hjtake hc
                      · have hnekv : (bp, lvl) ≠ kv := fun hc =>
                          hkv'.2 (by rw [← hc])
                        exact levelsDisj_pairs hdisj₀ (alGet_mem halv) hkv'.1
                          hnekv j hjlvl

/-- **C1** (amended: the loop runs only while the best price is *truthy*,
Python's `while best_price and order.volume > 0`, so a best price of `0.0`
also stops it).  For an incoming order offered to the opposite side's book,
under the side invariants every emitted trade happens at a truthy best
price that crosses the incoming order's price and sits on this side's heap;
trades occur in best-price-first order (price priority: no worse-priced
resting order fills before a better-priced one); every id deleted from
`order_map` ends the fill fully filled (volume `0`); and the loop stops
exactly when the incoming volume is exhausted, no best price remains, or
the best price is falsy or does not cross. -/
theorem C1_fill_price_priority (σ : Store) (book : PriceBook) (inId : OrderId)
    (σ' : Store) (book' : PriceBook) (trades : List Trade)
    (h : PriceBook.fill σ book inId = some (σ', book', trades))
    (hwf : LevelsWF inId book) (hdisj : LevelsDisj book)
    (hsort : heapSorted book) (hkeys : (book.levels.map Prod.fst).Nodup)
    (homnd : book.order_map.Nodup) :
    (σ inId).is_bid ≠ book.is_bid_side ∧
    (∀ t ∈ trades, t.price.isTruthy = true ∧
        (if book.is_bid_side then t.price.ge (σ inId).price
         else t.price.le (σ inId).price) = true ∧
        book.heapKey t.price ∈ book.heap) ∧
    trades.Pairwise (fun t u =>
      (if book.is_bid_side then u.price.le t.price
       else t.price.le u.price) = true) ∧
    ((σ' inId).volume ≤ 0 ∨
      PriceBook.get_best_price book' = some (book', none) ∨
      ∃ bp, PriceBook.get_best_price book' = some (book', some bp) ∧
        (bp.isTruthy = false ∨
          (if book.is_bid_side then bp.ge (σ' inId).price
           else bp.le (σ' inId).price) = false)) ∧
    (∀ j, j ∈ book.order_map → j ∉ book'.order_map → (σ' j).volume = 0) := by
  have hne : (σ inId).is_bid ≠ book.is_bid_side := by
    intro hc
    rw [PriceBook.fill, if_pos (by simp [hc])] at h
    exact Option.noConfusion h
  rw [PriceBook.fill, if_neg (by simp [hne]), PriceBook.fillLoop] at h
  obtain ⟨hA, hB, hC, hD⟩ := fillLoopF_priority inId _ σ book σ' book' trades
    h hwf hdisj hsort hkeys homnd
  refine ⟨hne, hA, ?_, hC, hD⟩
  refine (List.pairwise_map.mp hB).imp ?_
  intro t u htu
  cases hbs : book.is_bid_side
  · rw [PriceBook.heapKey, PriceBook.heapKey, hbs] at htu
    simpa using htu
  · rw [PriceBook.heapKey, PriceBook.heapKey, hbs] at htu
    simp only [if_true] at htu ⊢
    exact Price.negLeNeg.mp (by simpa using htu)

/-- **C1**, counterexample to the frozen wording: a live ask level resting
at price `0` crosses the incoming bid (price 10, positive volume on both
sides) and is the best price, yet `fill` returns no trades and leaves
everything unchanged — `while best_price` reads the float `0.0` as false,
so a best price *existing* and *crossing* does not suffice for the loop to
match. -/
theorem C1_counterexample :
    PriceBook.fill c1xStore c1xBook 0 = some (c1xStore, c1xBook, []) ∧
    PriceBook.get_best_price c1xBook = some (c1xBook, some (Price.fin 0)) ∧
    Price.le (Price.fin 0) ((c1xStore 0).price) = true ∧
    0 < (c1xStore 0).volume ∧ 0 < (c1xStore 1).volume ∧
    alGet c1xBook.levels (Price.fin 0) =
      some { price := Price.fin 0, orders := [1], volume := 5 } :=
  ⟨rfl, rfl, by decide, by decide, by decide, rfl⟩

/-- **C1**, witness: the two-level scenario satisfies every hypothesis of
`C1_fill_price_priority`, and its conclusion holds with the concrete fill
result (both levels traded, better price first, order `1` deleted at
volume `0`, loop stopped with the incoming volume exhausted). -/
theorem C1_witness :
    (PriceBook.fill c1Store c1Book 0 = some (c1Store', c1Book', c1Trades) ∧
      LevelsWF 0 c1Book ∧ LevelsDisj c1Book ∧ heapSorted c1Book ∧
      (c1Book.levels.map Prod.fst).Nodup ∧ c1Book.order_map.Nodup) ∧
    ((c1Store 0).is_bid ≠ c1Book.is_bid_side ∧
      (∀ t ∈ c1Trades, t.price.isTruthy = true ∧
          (if c1Book.is_bid_side then t.price.ge (c1Store 0).price
           else t.price.le (c1Store 0).price) = true ∧
          c1Book.heapKey t.price ∈ c1Book.heap) ∧
      c1Trades.Pairwise (fun t u =>
        (if c1Book.is_bid_side then u.price.le t.price
         else t.price.le u.price) = true) ∧
      ((c1Store' 0).volume ≤ 0 ∨
        PriceBook.get_best_price c1Book' = some (c1Book', none) ∨
        ∃ bp, PriceBook.get_best_price c1Book' = some (c1Book', some bp) ∧
          (bp.isTruthy = false ∨
            (if c1Book.is_bid_side then bp.ge (c1Store' 0).price
             else bp.le (c1Store' 0).price) = false)) ∧
      (∀ j, j ∈ c1Book.order_map → j ∉ c1Book'.order_map →
        (c1Store' j).volume = 0)) :=
  ⟨⟨rfl, by decide, by decide, by decide, by decide, by decide⟩,
    C1_fill_price_priority c1Store c1Book 0 c1Store' c1Book' c1Trades rfl
      (by decide) (by decide) (by decide) (by decide) (by decide)⟩

/-! ### C4: volume conservation -/
theorem sum_map_add {α : Type} (l : List α) (f g : α → ℤ) :
    (l.map (fun x => f x + g x)).sum = (l.map f).sum + (l.map g).sum := by
  induction l with
  | nil => simp
  | cons a r ih =>
      simp only [List.map_cons, List.sum_cons, ih]
      ring

theorem sum_if_not_mem (S : List OrderId) (a : OrderId) (v : ℤ)
    (h : a ∉ S) : (S.map (fun j => if a = j then v else 0)).sum = 0 := by
  induction S with
  | nil => rfl
  | cons b r ih =>
      simp only [List.map_cons, List.sum_cons]
      rw [if_neg (fun hc => h (by rw [hc]; exact List.mem_cons_self _ _)),
        ih (fun hc => h (List.mem_cons_of_mem _ hc))]
      ring

theorem sum_if_mem (S : List OrderId) (a : OrderId) (v : ℤ)
    (hnd : S.Nodup) (h : a ∈ S) :
    (S.map (fun j => if a = j then v else 0)).sum = v := by
  induction S with
  | nil => simp at h
  | cons b r ih =>
      simp only [List.map_cons, List.sum_cons]
      rcases List.mem_cons.mp h with rfl | h'
      · rw [if_pos rfl, sum_if_not_mem r a v (List.nodup_cons.mp hnd).1]
        ring
      · rw [if_neg (fun hc => (List.nodup_cons.mp hnd).1 (by rw [← hc]; exact h')),
          ih (List.nodup_cons.mp hnd).2 h']
        ring

/-- Summing the per-id conservation currency over any duplicate-free id set
covering both sides of every trade double-counts each trade's volume. -/
theorem touchVol_sum (ts : List Trade) : ∀ (S : List OrderId), S.Nodup →
    (∀ t ∈ ts, t.bid_id ∈ S ∧ t.ask_id ∈ S) →
    (S.map (fun j => touchVol j ts)).sum =
      2 * (ts.map (fun t => t.volume)).sum := by
  induction ts with
  | nil =>
      intro S _ _
      simp [touchVol_nil]
  | cons t ts ih =>
      intro S hnd hmem
      rw [show (fun j => touchVol j (t :: ts)) =
        (fun j => ((if t.bid_id = j then t.volume else 0) +
          (if t.ask_id = j then t.volume else 0)) + touchVol j ts) from
        funext fun j => by rw [touchVol_cons]]
      rw [sum_map_add, sum_map_add,
        sum_if_mem S t.bid_id t.volume hnd (hmem t (List.mem_cons_self _ _)).1,
        sum_if_mem S t.ask_id t.volume hnd (hmem t (List.mem_cons_self _ _)).2,
        ih S hnd (fun u hu => hmem u (List.mem_cons_of_mem _ hu))]
      simp only [List.map_cons, List.sum_cons]
      ring

/-- Every trade of the matching loop pairs the incoming order (on its own
side) with an order resting at some level of this book. -/
theorem fillLoopF_trade_ids (inId : OrderId) :
    ∀ (fuel : ℕ) (σ : Store) (book : PriceBook) (σ' : Store)
      (book' : PriceBook) (trades : List Trade),
      PriceBook.fillLoopF fuel σ book inId = some (σ', book', trades) →
      ∀ t ∈ trades,
        if (σ inId).is_bid then
          t.bid_id = inId ∧
            ∃ kv ∈ book.levels, t.ask_id ∈ (kv.2 : PriceLevel).orders
        else
          t.ask_id = inId ∧
            ∃ kv ∈ book.levels, t.bid_id ∈ (kv.2 : PriceLevel).orders := by
  intro fuel
  induction fuel with
  | zero => intro σ book σ' book' trades h; rw [PriceBook.fillLoopF] at h; simp at h
  | succ fuel ih =>
      intro σ book σ' book' trades h
      rw [PriceBook.fillLoopF] at h
      cases hb : PriceBook.get_best_price book with
      | none => rw [hb] at h; simp at h
      | some r₀ =>
        rw [hb] at h
        obtain ⟨book₀, bp?⟩ := r₀
        cases bp? with
        | none =>
            simp only at h
            rw [Option.some.injEq, Prod.mk.injEq, Prod.mk.injEq] at h
            obtain ⟨rfl, rfl, rfl⟩ := h
            simp
        | some bp =>
          simp only at h
          obtain ⟨hheapsub, hlvlsub, homod, hsided⟩ := get_best_price_parts hb
          by_cases hcond : bp.isTruthy = true ∧ 0 < (σ inId).volume
          swap
          · rw [if_neg hcond] at h
            rw [Option.some.injEq, Prod.mk.injEq, Prod.mk.injEq] at h
            obtain ⟨rfl, rfl, rfl⟩ := h
            simp
          rw [if_pos hcond] at h
          by_cases hcf : (if book₀.is_bid_side then bp.ge (σ inId).price
              else bp.le (σ inId).price) = true
          swap
          · rw [if_neg hcf] at h
            rw [Option.some.injEq, Prod.mk.injEq, Prod.mk.injEq] at h
            obtain ⟨rfl, rfl, rfl⟩ := h
            simp
          rw [if_pos hcf] at h
          cases halv : alGet book₀.levels bp with
          | none => rw [halv] at h; simp at h
          | some lvl =>
            rw [halv] at h
            dsimp only at h
            cases hdel : PriceBook.delOrders book₀.order_map
                (PriceLevel.fill σ lvl inId).2.2.2 with
            | none => rw [hdel] at h; simp at h
            | some om' =>
              rw [hdel] at h
              dsimp only at h
              cases hrec : PriceBook.fillLoopF fuel
                  (PriceLevel.fill σ lvl inId).1
                  { book₀ with
                    levels := alSet book₀.levels bp
                      (PriceLevel.fill σ lvl inId).2.1,
                    order_map := om' } inId with
              | none => rw [hrec] at h; simp at h
              | some rr =>
                rw [hrec] at h
                obtain ⟨σ₂', book₂, trades₂⟩ := rr
                rw [Option.some.injEq, Prod.mk.injEq, Prod.mk.injEq] at h
                obtain ⟨hσ, hbk, htr⟩ := h
                subst hσ
                subst hbk
                subst htr
                set σ₂ := (PriceLevel.fill σ lvl inId).1 with hσ₂
                have hbid : (σ₂ inId).is_bid = (σ inId).is_bid := by
                  rw [show σ₂ inId = { σ inId with volume := (σ₂ inId).volume }
                    from PriceLevel.fillAux_shape inId (σ inId).is_bid
                      lvl.price σ lvl.orders lvl.volume inId]
                have hqsub := fillAux_queue_sublist inId (σ inId).is_bid
                  lvl.price σ lvl.orders lvl.volume
                have hlvlmem : (bp, lvl) ∈ book.levels :=
                  hlvlsub.subset (alGet_mem halv)
                intro t htm
                rcases List.mem_append.mp htm with htm | htm
                · have := PriceLevel.fillAux_trades_ids inId (σ inId).is_bid
                    lvl.price σ lvl.orders lvl.volume t htm
                  cases hsb : (σ inId).is_bid
                  · rw [hsb] at this
                    rw [if_neg (by decide)] at this ⊢
                    exact ⟨this.1, (bp, lvl), hlvlmem, this.2⟩
                  · rw [hsb] at this
                    rw [if_pos rfl] at this ⊢
                    exact ⟨this.1, (bp, lvl), hlvlmem, this.2⟩
                · have hrec' := ih σ₂ _ σ₂' book₂ trades₂ hrec t htm
                  rw [hbid] at hrec'
                  cases hsb : (σ inId).is_bid
                  · rw [hsb] at hrec'
                    rw [if_neg (by decide)] at hrec' ⊢
                    obtain ⟨h₁, kv, hkv, h₂⟩ := hrec'
                    refine ⟨h₁, ?_⟩
                    rcases alSet_entries kv hkv with rfl | hkv'
                    · exact ⟨(bp, lvl), hlvlmem, hqsub.subset h₂⟩
                    · exact ⟨kv, hlvlsub.subset hkv', h₂⟩
                  · rw [hsb] at hrec'
                    rw [if_pos rfl] at hrec' ⊢
                    obtain ⟨h₁, kv, hkv, h₂⟩ := hrec'
                    refine ⟨h₁, ?_⟩
                    rcases alSet_entries kv hkv with rfl | hkv'
                    · exact ⟨(bp, lvl), hlvlmem, hqsub.subset h₂⟩
                    · exact ⟨kv, hlvlsub.subset hkv', h₂⟩

/-- **C4**.  Volume conservation through a fill: every emitted trade pairs
one bid order and one ask order (the incoming order on its own side, a
resting order of this book on the other), each order's volume decrease
equals the summed volume of the trades naming it on either side, and hence
over any duplicate-free set of ids covering the batch's trades, the total
volume decrease is exactly twice the sum of the trade volumes. -/
theorem C4_volume_conservation (σ : Store) (book : PriceBook)
    (inId : OrderId) (σ' : Store) (book' : PriceBook) (trades : List Trade)
    (h : PriceBook.fill σ book inId = some (σ', book', trades))
    (hwf : LevelsWF inId book) (hdisj : LevelsDisj book)
    (hcoh : ∀ kv ∈ book.levels, ∀ j ∈ (kv.2 : PriceLevel).orders,
      (σ j).is_bid = book.is_bid_side) :
    (∀ t ∈ trades, (σ t.bid_id).is_bid = true ∧
        (σ t.ask_id).is_bid = false ∧ (t.bid_id = inId ∨ t.ask_id = inId)) ∧
    (∀ j, (σ j).volume - (σ' j).volume = touchVol j trades) ∧
    (∀ S : List OrderId, S.Nodup →
      (∀ t ∈ trades, t.bid_id ∈ S ∧ t.ask_id ∈ S) →
      (S.map (fun j => (σ j).volume - (σ' j).volume)).sum =
        2 * (trades.map (fun t => t.volume)).sum) := by
  have hne : ((σ inId).is_bid == book.is_bid_side) = false := by
    by_contra hc
    rw [PriceBook.fill, if_pos (by simpa using hc)] at h
    exact Option.noConfusion h
  rw [PriceBook.fill, if_neg (by simp [hne]), PriceBook.fillLoop] at h
  have hids := fillLoopF_trade_ids inId _ σ book σ' book' trades h
  obtain ⟨hcons, _, _, _⟩ := fillLoopF_conserve inId _ σ book σ' book'
    trades h hwf hdisj
  refine ⟨?_, hcons, ?_⟩
  · intro t htm
    have hmix : (σ inId).is_bid ≠ book.is_bid_side := by
      simpa using hne
    have := hids t htm
    cases hsb : (σ inId).is_bid
    · rw [hsb] at this
      rw [if_neg (by decide)] at this
      obtain ⟨h₁, kv, hkv, h₂⟩ := this
      have hrest : (σ t.bid_id).is_bid = book.is_bid_side := hcoh kv hkv _ h₂
      have hbs : book.is_bid_side = true := by
        rcases Bool.eq_false_or_eq_true book.is_bid_side with hb | hb
        · exact hb
        · exact absurd (hsb.trans hb.symm) hmix
      exact ⟨hrest.trans hbs, by rw [h₁]; exact hsb, Or.inr h₁⟩
    · rw [hsb] at this
      rw [if_pos rfl] at this
      obtain ⟨h₁, kv, hkv, h₂⟩ := this
      have hrest : (σ t.ask_id).is_bid = book.is_bid_side := hcoh kv hkv _ h₂
      have hbs : book.is_bid_side = false := by
        rcases Bool.eq_false_or_eq_true book.is_bid_side with hb | hb
        · exact absurd (hsb.trans hb.symm) hmix
        · exact hb
      exact ⟨by rw [h₁]; exact hsb, hrest.trans hbs, Or.inl h₁⟩
  · intro S hnd hmem
    rw [show (fun j => (σ j).volume - (σ' j).volume) =
      (fun j => touchVol j trades) from funext fun j => hcons j]
    exact touchVol_sum trades S hnd hmem

/-- **C4**, witness: in the two-level scenario the total volume decrease
over ids `0, 1, 2` is twice the summed trade volume (`8 = 2 · 4`). -/
theorem C4_witness :
    (PriceBook.fill c1Store c1Book 0 = some (c1Store', c1Book', c1Trades) ∧
      LevelsWF 0 c1Book ∧ LevelsDisj c1Book ∧
      (∀ kv ∈ c1Book.levels, ∀ j ∈ (kv.2 : PriceLevel).orders,
        (c1Store j).is_bid = c1Book.is_bid_side) ∧
      ([0, 1, 2] : List OrderId).Nodup ∧
      (∀ t ∈ c1Trades, t.bid_id ∈ ([0, 1, 2] : List OrderId) ∧
        t.ask_id ∈ ([0, 1, 2] : List OrderId))) ∧
    (([0, 1, 2] : List OrderId).map
        (fun j => (c1Store j).volume - (c1Store' j).volume)).sum =
      2 * (c1Trades.map (fun t => t.volume)).sum :=
  ⟨⟨rfl, by decide, by decide, by decide, by decide, by decide⟩,
    (C4_volume_conservation c1Store c1Book 0 c1Store' c1Book' c1Trades rfl
      (by decide) (by decide) (by decide)).2.2 [0, 1, 2] (by decide)
      (by decide)⟩

theorem alSet_absent {α β : Type} [DecidableEq α] {l : List (α × β)} {k : α}
    (v : β) (h : alGet l k = none) : alSet l k v = l ++ [(k, v)] := by
  induction l with
  | nil => rfl
  | cons kv₀ rest ih =>
      obtain ⟨k₀, v₀⟩ := kv₀
      rw [alGet] at h
      rw [alSet]
      by_cases hk : k₀ = k
      · rw [if_pos hk] at h
        exact absurd h (by simp)
      · rw [if_neg hk] at h
        rw [if_neg hk, ih h]
        rfl

/-- Replacing a level by one whose extra orders are all a single id `z`
resting nowhere keeps the levels pairwise disjoint. -/
theorem pairwise_disjoint_alSet_grow {l : List (Price × PriceLevel)}
    {k : Price} {v old : PriceLevel} (z : OrderId)
    (hget : alGet l k = some old)
    (hsub : ∀ x ∈ v.orders, x ∈ old.orders ∨ x = z)
    (hz : ∀ kv ∈ l, z ∉ (kv.2 : PriceLevel).orders)
    (hp : l.Pairwise
      (fun a b => ∀ x ∈ (a.2 : PriceLevel).orders, x ∉ (b.2 : PriceLevel).orders)) :
    (alSet l k v).Pairwise
      (fun a b => ∀ x ∈ (a.2 : PriceLevel).orders, x ∉ (b.2 : PriceLevel).orders) := by
  induction l with
  | nil => simp [alGet] at hget
  | cons kv₀ rest ih =>
      obtain ⟨k₀, v₀⟩ := kv₀
      rw [alGet] at hget
      rw [alSet]
      by_cases hk : k₀ = k
      · rw [if_pos hk] at hget ⊢
        obtain rfl := Option.some.inj hget
        rw [List.pairwise_cons] at hp ⊢
        refine ⟨fun b hb x hx => ?_, hp.2⟩
        rcases hsub x hx with hx' | rfl
        · exact hp.1 b hb x hx'
        · exact hz b (List.mem_cons_of_mem _ hb)
      · rw [if_neg hk] at hget ⊢
        rw [List.pairwise_cons] at hp ⊢
        refine ⟨fun b hb x hx => ?_,
          ih hget (fun kv hkv => hz kv (List.mem_cons_of_mem _ hkv)) hp.2⟩
        rcases alSet_entries b hb with rfl | hb'
        · intro hc
          rcases hsub x hc with hx' | rfl
          · exact hp.1 (k, old) (alGet_mem hget) x hx hx'
          · exact hz (k₀, v₀) (List.mem_cons_self _ _) hx
        · exact hp.1 b hb' x hx

/-- Each level of the book left by the matching loop descends from a level
of the starting book: same key, same price, orders a sublist; and pairwise
disjointness of the levels survives. -/
theorem fillLoopF_levels (inId : OrderId) :
    ∀ (fuel : ℕ) (σ : Store) (book : PriceBook) (σ' : Store)
      (book' : PriceBook) (trades : List Trade),
      PriceBook.fillLoopF fuel σ book inId = some (σ', book', trades) →
      (∀ kv ∈ book'.levels, ∃ kv₀ ∈ book.levels, kv.1 = kv₀.1 ∧
        (kv.2 : PriceLevel).price = (kv₀.2 : PriceLevel).price ∧
        (kv.2 : PriceLevel).orders.Sublist (kv₀.2 : PriceLevel).orders) ∧
      (LevelsDisj book → LevelsDisj book') := by
  intro fuel
  induction fuel with
  | zero => intro σ book σ' book' trades h; rw [PriceBook.fillLoopF] at h; simp at h
  | succ fuel ih =>
      intro σ book σ' book' trades h
      rw [PriceBook.fillLoopF] at h
      cases hb : PriceBook.get_best_price book with
      | none => rw [hb] at h; simp at h
      | some r₀ =>
        rw [hb] at h
        obtain ⟨book₀, bp?⟩ := r₀
        have hstay : book' = book₀ →
            (∀ kv ∈ book'.levels, ∃ kv₀ ∈ book.levels, kv.1 = kv₀.1 ∧
              (kv.2 : PriceLevel).price = (kv₀.2 : PriceLevel).price ∧
              (kv.2 : PriceLevel).orders.Sublist (kv₀.2 : PriceLevel).orders) ∧
            (LevelsDisj book → LevelsDisj book') := by
          rintro rfl
          obtain ⟨_, hlvlsub, _, _⟩ := get_best_price_parts hb
          exact ⟨fun kv hkv => ⟨kv, hlvlsub.subset hkv, rfl, rfl,
              List.Sublist.refl _⟩,
            fun hd => hd.sublist hlvlsub⟩
        cases bp? with
        | none =>
            simp only at h
            rw [Option.some.injEq, Prod.mk.injEq, Prod.mk.injEq] at h
            exact hstay h.2.1.symm
        | some bp =>
          simp only at h
          by_cases hcond : bp.isTruthy = true ∧ 0 < (σ inId).volume
          swap
          · rw [if_neg hcond] at h
            rw [Option.some.injEq, Prod.mk.injEq, Prod.mk.injEq] at h
            exact hstay h.2.1.symm
          rw [if_pos hcond] at h
          by_cases hcf : (if book₀.is_bid_side then bp.ge (σ inId).price
              else bp.le (σ inId).price) = true
          swap
          · rw [if_neg hcf] at h
            rw [Option.some.injEq, Prod.mk.injEq, Prod.mk.injEq] at h
            exact hstay h.2.1.symm
          rw [if_pos hcf] at h
          cases halv : alGet book₀.levels bp with
          | none => rw [halv] at h; simp at h
          | some lvl =>
            rw [halv] at h
            dsimp only at h
            cases hdel : PriceBook.delOrders book₀.order_map
                (PriceLevel.fill σ lvl inId).2.2.2 with
            | none => rw [hdel] at h; simp at h
            | some om' =>
              rw [hdel] at h
              dsimp only at h
              cases hrec : PriceBook.fillLoopF fuel
                  (PriceLevel.fill σ lvl inId).1
                  { book₀ with
                    levels := alSet book₀.levels bp
                      (PriceLevel.fill σ lvl inId).2.1,
                    order_map := om' } inId with
              | none => rw [hrec] at h; simp at h
              | some rr =>
                rw [hrec] at h
                obtain ⟨σ₂', book₂, trades₂⟩ := rr
                rw [Option.some.injEq, Prod.mk.injEq, Prod.mk.injEq] at h
                obtain ⟨hσ, hbk, htr⟩ := h
                subst hσ
                subst hbk
                subst htr
                obtain ⟨_, hlvlsub, _, _⟩ := get_best_price_parts hb
                have hqsub := fillAux_queue_sublist inId (σ inId).is_bid
                  lvl.price σ lvl.orders lvl.volume
                have hlvlmem : (bp, lvl) ∈ book.levels :=
                  hlvlsub.subset (alGet_mem halv)
                obtain ⟨ih₁, ih₂⟩ := ih _ _ σ₂' book₂ trades₂ hrec
                refine ⟨?_, ?_⟩
                · intro kv hkv
                  obtain ⟨kv₁, hkv₁, he₁, he₂, he₃⟩ := ih₁ kv hkv
                  rcases alSet_entries kv₁ hkv₁ with rfl | hkv₁'
                  · exact ⟨(bp, lvl), hlvlmem, he₁, he₂, he₃.trans hqsub⟩
                  · exact ⟨kv₁, hlvlsub.subset hkv₁', he₁, he₂, he₃⟩
                · intro hd
                  refine ih₂ ?_
                  show List.Pairwise _ (alSet book₀.levels bp _)
                  exact pairwise_disjoint_alSet halv
                    (fun x hx => hqsub.subset hx) (hd.sublist hlvlsub)

/-- Conservation through `PriceBook.fill` (wrapper form). -/
theorem fill_conserve {σ : Store} {book : PriceBook} {inId : OrderId}
    {σ' : Store} {book' : PriceBook} {trades : List Trade}
    (h : PriceBook.fill σ book inId = some (σ', book', trades))
    (hwf : LevelsWF inId book) (hdisj : LevelsDisj book) :
    (∀ j, (σ j).volume - (σ' j).volume = touchVol j trades) ∧
      (∀ j, σ' j = { σ j with volume := (σ' j).volume }) := by
  have hne : ((σ inId).is_bid == book.is_bid_side) = false := by
    by_contra hc
    rw [PriceBook.fill, if_pos (by simpa using hc)] at h
    exact Option.noConfusion h
  rw [PriceBook.fill, if_neg (by simp [hne]), PriceBook.fillLoop] at h
  obtain ⟨h₁, h₂, _, _⟩ := fillLoopF_conserve inId _ σ book σ' book' trades
    h hwf hdisj
  exact ⟨h₁, h₂⟩

/-- Level descent through `PriceBook.fill` (wrapper form). -/
theorem fill_levels {σ : Store} {book : PriceBook} {inId : OrderId}
    {σ' : Store} {book' : PriceBook} {trades : List Trade}
    (h : PriceBook.fill σ book inId = some (σ', book', trades)) :
    (∀ kv ∈ book'.levels, ∃ kv₀ ∈ book.levels, kv.1 = kv₀.1 ∧
      (kv.2 : PriceLevel).price = (kv₀.2 : PriceLevel).price ∧
      (kv.2 : PriceLevel).orders.Sublist (kv₀.2 : PriceLevel).orders) ∧
    (LevelsDisj book → LevelsDisj book') := by
  have hne : ((σ inId).is_bid == book.is_bid_side) = false := by
    by_contra hc
    rw [PriceBook.fill, if_pos (by simpa using hc)] at h
    exact Option.noConfusion h
  rw [PriceBook.fill, if_neg (by simp [hne]), PriceBook.fillLoop] at h
  exact fillLoopF_levels inId _ σ book σ' book' trades h

/-- Entries of the book after `PriceBook.add`: an untouched old level, the
freshly initialised empty level, or the level at the order's price extended
by exactly the new id. -/
theorem add_levels_entries (σ : Store) (book : PriceBook) (oid : OrderId) :
    ∀ kv ∈ (PriceBook.add σ book oid).levels,
      kv ∈ book.levels ∨
      kv = ((σ oid).price, PriceLevel.init (σ oid).price) ∨
      ∃ lvl₀, kv = ((σ oid).price, PriceLevel.add σ lvl₀ oid) ∧
        (alGet book.levels (σ oid).price = some lvl₀ ∨
          lvl₀ = PriceLevel.init (σ oid).price) := by
  intro kv hkv
  rw [PriceBook.add] at hkv
  dsimp only at hkv
  by_cases hs : (alGet book.levels (σ oid).price).isSome
  · obtain ⟨lvl₀, hg⟩ := Option.isSome_iff_exists.mp hs
    rw [hg] at hkv
    dsimp only at hkv
    rw [hg] at hkv
    dsimp only [Option.getD] at hkv
    rcases alSet_entries kv hkv with hkv' | hkv'
    · exact Or.inr (Or.inr ⟨lvl₀, hkv', Or.inl hg⟩)
    · exact Or.inl hkv'
  · have hg : alGet book.levels (σ oid).price = none :=
      Option.not_isSome_iff_eq_none.mp hs
    rw [hg] at hkv
    dsimp only at hkv
    rw [alGet_alSet_self] at hkv
    dsimp only [Option.getD] at hkv
    rcases alSet_entries kv hkv with hkv' | hkv'
    · exact Or.inr (Or.inr ⟨_, hkv', Or.inr rfl⟩)
    · rcases alSet_entries kv hkv' with hkv'' | hkv''
      · exact Or.inr (Or.inl hkv'')
      · exact Or.inl hkv''

theorem add_levelsOK {σ : Store} {book : PriceBook} {oid : OrderId}
    (hok : LevelsOK book) (hfr : NotResting book oid) :
    LevelsOK (PriceBook.add σ book oid) := by
  intro kv hkv
  rcases add_levels_entries σ book oid kv hkv with hkv' | hkv' | ⟨lvl₀, hkv', hl⟩
  · exact hok kv hkv'
  · rw [hkv']
    exact ⟨List.nodup_nil, rfl⟩
  · rw [hkv']
    refine ⟨?_, ?_⟩
    · show (lvl₀.orders ++ [oid]).Nodup
      rw [List.nodup_append]
      refine ⟨?_, List.nodup_singleton _, ?_⟩
      · rcases hl with hg | hg
        · exact (hok _ (alGet_mem hg)).1
        · rw [hg]
          exact List.nodup_nil
      · intro x hx hx₂
        obtain rfl : x = oid := by simpa using hx₂
        rcases hl with hg | hg
        · exact hfr _ (alGet_mem hg) hx
        · rw [hg] at hx
          simp [PriceLevel.init] at hx
    · show lvl₀.price = (σ oid).price
      rcases hl with hg | hg
      · exact (hok _ (alGet_mem hg)).2
      · rw [hg]
        rfl

theorem add_notResting {σ : Store} {book : PriceBook} {oid j : OrderId}
    (hj : j ≠ oid) (hfr : NotResting book j) :
    NotResting (PriceBook.add σ book oid) j := by
  intro kv hkv
  rcases add_levels_entries σ book oid kv hkv with hkv' | hkv' | ⟨lvl₀, hkv', hl⟩
  · exact hfr kv hkv'
  · rw [hkv']
    simp [PriceLevel.init]
  · rw [hkv']
    show j ∉ lvl₀.orders ++ [oid]
    rw [List.mem_append]
    rintro (hc | hc)
    · rcases hl with hg | hg
      · exact hfr _ (alGet_mem hg) hc
      · rw [hg] at hc
        simp [PriceLevel.init] at hc
    · exact hj (by simpa using hc)

theorem add_disj {σ : Store} {book : PriceBook} {oid : OrderId}
    (hd : LevelsDisj book) (hfr : NotResting book oid) :
    LevelsDisj (PriceBook.add σ book oid) := by
  show (PriceBook.add σ book oid).levels.Pairwise
    (fun a b => ∀ x ∈ (a.2 : PriceLevel).orders, x ∉ (b.2 : PriceLevel).orders)
  rw [PriceBook.add]
  dsimp only
  by_cases hs : (alGet book.levels (σ oid).price).isSome
  · obtain ⟨lvl₀, hg⟩ := Option.isSome_iff_exists.mp hs
    rw [hg]
    dsimp only
    rw [hg]
    dsimp only [Option.getD]
    refine pairwise_disjoint_alSet_grow oid hg ?_ hfr hd
    intro x hx
    rcases List.mem_append.mp hx with hx' | hx'
    · exact Or.inl hx'
    · exact Or.inr (by simpa using hx')
  · have hg : alGet book.levels (σ oid).price = none :=
      Option.not_isSome_iff_eq_none.mp hs
    rw [hg]
    dsimp only
    rw [alGet_alSet_self]
    dsimp only [Option.getD]
    have hp₁ : (alSet book.levels (σ oid).price
        (PriceLevel.init (σ oid).price)).Pairwise
        (fun a b => ∀ x ∈ (a.2 : PriceLevel).orders,
          x ∉ (b.2 : PriceLevel).orders) := by
      rw [alSet_absent _ hg, List.pairwise_append]
      refine ⟨hd, by simp, ?_⟩
      intro a _ b hb
      obtain rfl : b = ((σ oid).price, PriceLevel.init (σ oid).price) := by
        simpa using hb
      intro x _ hc
      simp [PriceLevel.init] at hc
    refine pairwise_disjoint_alSet_grow oid (alGet_alSet_self _ _ _) ?_ ?_ hp₁
    · intro x hx
      refine Or.inr ?_
      have hx' : x ∈ (PriceLevel.init (σ oid).price).orders ++ [oid] := hx
      simpa [PriceLevel.init] using hx'
    · intro kv hkv
      rcases alSet_entries kv hkv with hkv' | hkv'
      · rw [hkv']
        simp [PriceLevel.init]
      · exact hfr kv hkv'

/-- Per-id volume conservation and volume-only mutation across a whole
batch of `process_orders` matching, under the side invariants and
freshness of the batch ids. -/
theorem processLoop_conserve :
    ∀ (oids : List OrderId) (σ : Store) (ob : OrderBook) (σ' : Store)
      (ob' : OrderBook) (trades : List Trade),
      OrderBook.processLoop σ ob oids = some (σ', ob', trades) →
      oids.Nodup →
      LevelsOK ob.bids → LevelsOK ob.asks →
      LevelsDisj ob.bids → LevelsDisj ob.asks →
      (∀ oid ∈ oids, NotResting ob.bids oid ∧ NotResting ob.asks oid) →
      (∀ j, (σ j).volume - (σ' j).volume = touchVol j trades) ∧
        (∀ j, σ' j = { σ j with volume := (σ' j).volume }) := by
  intro oids
  induction oids with
  | nil =>
      intro σ ob σ' ob' trades h _ _ _ _ _ _
      rw [OrderBook.processLoop] at h
      rw [Option.some.injEq, Prod.mk.injEq, Prod.mk.injEq] at h
      obtain ⟨rfl, _, hrt⟩ := h
      subst hrt
      exact ⟨fun j => by simp [touchVol_nil], fun j => rfl⟩
  | cons oid rest ih =>
      intro σ ob σ' ob' trades h hnd hokb hoka hdb hda hfr
      rw [OrderBook.processLoop] at h
      cases hpo : OrderBook.processOne σ ob oid with
      | none => rw [hpo] at h; simp at h
      | some r₁ =>
        rw [hpo] at h
        obtain ⟨σ₁, ob₁, trades₁⟩ := r₁
        dsimp only at h
        cases hpl : OrderBook.processLoop σ₁ ob₁ rest with
        | none => rw [hpl] at h; simp at h
        | some r₂ =>
          rw [hpl] at h
          obtain ⟨σ₂', ob₂', trades₂⟩ := r₂
          rw [Option.map_some'] at h
          dsimp only at h
          rw [Option.some.injEq, Prod.mk.injEq, Prod.mk.injEq] at h
          obtain ⟨hσ, _, htr⟩ := h
          subst hσ
          subst htr
          have hfr₀ := hfr oid (List.mem_cons_self _ _)
          have hrest : ∀ j ∈ rest, j ≠ oid := by
            intro j hj hc
            subst hc
            exact (List.nodup_cons.mp hnd).1 hj
          -- conservation and invariant descent for one fill
          have hfill : ∀ (book : PriceBook), LevelsOK book → LevelsDisj book →
              NotResting book oid →
              ∀ {bookF : PriceBook} {tradesF : List Trade},
              PriceBook.fill σ book oid = some (σ₁, bookF, tradesF) →
              (∀ j, (σ j).volume - (σ₁ j).volume = touchVol j tradesF) ∧
                (∀ j, σ₁ j = { σ j with volume := (σ₁ j).volume }) ∧
                LevelsOK bookF ∧ LevelsDisj bookF ∧
                (∀ j, NotResting book j → NotResting bookF j) := by
            intro book hok hd hnr bookF tradesF hfb
            have hwf : LevelsWF oid book := fun kv hkv =>
              ⟨(hok kv hkv).1, hnr kv hkv, (hok kv hkv).2⟩
            obtain ⟨hc₁, hc₂⟩ := fill_conserve hfb hwf hd
            obtain ⟨hl₁, hl₂⟩ := fill_levels hfb
            refine ⟨hc₁, hc₂, ?_, hl₂ hd, ?_⟩
            · intro kv hkv
              obtain ⟨kv₀, hkv₀, he₁, he₂, he₃⟩ := hl₁ kv hkv
              exact ⟨(hok kv₀ hkv₀).1.sublist he₃,
                he₂.trans ((hok kv₀ hkv₀).2.trans he₁.symm)⟩
            · intro j hj kv hkv
              obtain ⟨kv₀, hkv₀, _, _, he₃⟩ := hl₁ kv hkv
              exact fun hc => hj kv₀ hkv₀ (he₃.subset hc)
          -- invariants survive the optional reinsertion on the own side
          have hkeep : ∀ (book : PriceBook), LevelsOK book → LevelsDisj book →
              NotResting book oid → (∀ j ∈ rest, NotResting book j) →
              ∀ (b' : PriceBook),
                (b' = PriceBook.add σ₁ book oid ∨ b' = book) →
                LevelsOK b' ∧ LevelsDisj b' ∧
                  (∀ j ∈ rest, NotResting b' j) := by
            intro book hok hd hnro hnr b' hb'
            rcases hb' with rfl | rfl
            · exact ⟨add_levelsOK hok hnro, add_disj hd hnro,
                fun j hj => add_notResting (hrest j hj) (hnr j hj)⟩
            · exact ⟨hok, hd, hnr⟩
          -- unpack processOne on each side
          have hmain : (∀ j, (σ j).volume - (σ₁ j).volume = touchVol j trades₁) ∧
              (∀ j, σ₁ j = { σ j with volume := (σ₁ j).volume }) ∧
              LevelsOK ob₁.bids ∧ LevelsOK ob₁.asks ∧
              LevelsDisj ob₁.bids ∧ LevelsDisj ob₁.asks ∧
              (∀ j ∈ rest, NotResting ob₁.bids j ∧ NotResting ob₁.asks j) := by
            rw [OrderBook.processOne] at hpo
            dsimp only at hpo
            cases hsb : (σ oid).is_bid
            · rw [hsb] at hpo
              simp only [Bool.false_eq_true, if_false] at hpo
              cases hf : PriceBook.fill σ ob.bids oid with
              | none => rw [hf] at hpo; exact absurd hpo (by simp)
              | some rf =>
                rw [hf] at hpo
                obtain ⟨σf, bookF, tradesF⟩ := rf
                dsimp only at hpo
                by_cases hlive : (σf oid).volume ≠ 0 ∧ (σf oid).is_market = false
                · rw [if_pos hlive] at hpo
                  rw [Option.some.injEq, Prod.mk.injEq, Prod.mk.injEq] at hpo
                  obtain ⟨hσf, hob, htr2⟩ := hpo
                  subst hσf
                  subst htr2
                  obtain ⟨hc₁, hc₂, hokF, hdF, hnrF⟩ :=
                    hfill ob.bids hokb hdb hfr₀.1 hf
                  obtain ⟨ha₁, ha₂, ha₃⟩ := hkeep ob.asks hoka hda hfr₀.2
                    (fun j hj => (hfr j (List.mem_cons_of_mem _ hj)).2)
                    ob₁.asks (Or.inl (by rw [← hob]))
                  refine ⟨hc₁, hc₂, ?_, ha₁, ?_, ha₂, fun j hj =>
                    ⟨?_, ha₃ j hj⟩⟩
                  · rw [← hob]
                    exact hokF
                  · rw [← hob]
                    exact hdF
                  · rw [← hob]
                    exact hnrF j (hfr j (List.mem_cons_of_mem _ hj)).1
                · rw [if_neg hlive] at hpo
                  rw [Option.some.injEq, Prod.mk.injEq, Prod.mk.injEq] at hpo
                  obtain ⟨hσf, hob, htr2⟩ := hpo
                  subst hσf
                  subst htr2
                  obtain ⟨hc₁, hc₂, hokF, hdF, hnrF⟩ :=
                    hfill ob.bids hokb hdb hfr₀.1 hf
                  refine ⟨hc₁, hc₂, ?_, ?_, ?_, ?_, fun j hj => ⟨?_, ?_⟩⟩ <;>
                    rw [← hob]
                  · exact hokF
                  · exact hoka
                  · exact hdF
                  · exact hda
                  · exact hnrF j (hfr j (List.mem_cons_of_mem _ hj)).1
                  · exact (hfr j (List.mem_cons_of_mem _ hj)).2
            · rw [hsb] at hpo
              simp only [eq_self_iff_true, if_true] at hpo
              cases hf : PriceBook.fill σ ob.asks oid with
              | none => rw [hf] at hpo; exact absurd hpo (by simp)
              | some rf =>
                rw [hf] at hpo
                obtain ⟨σf, bookF, tradesF⟩ := rf
                dsimp only at hpo
                by_cases hlive : (σf oid).volume ≠ 0 ∧ (σf oid).is_market = false
                · rw [if_pos hlive] at hpo
                  rw [Option.some.injEq, Prod.mk.injEq, Prod.mk.injEq] at hpo
                  obtain ⟨hσf, hob, htr2⟩ := hpo
                  subst hσf
                  subst htr2
                  obtain ⟨hc₁, hc₂, hokF, hdF, hnrF⟩ :=
                    hfill ob.asks hoka hda hfr₀.2 hf
                  obtain ⟨hb₁, hb₂, hb₃⟩ := hkeep ob.bids hokb hdb hfr₀.1
                    (fun j hj => (hfr j (List.mem_cons_of_mem _ hj)).1)
                    ob₁.bids (Or.inl (by rw [← hob]))
                  refine ⟨hc₁, hc₂, hb₁, ?_, hb₂, ?_, fun j hj =>
                    ⟨hb₃ j hj, ?_⟩⟩
                  · rw [← hob]
                    exact hokF
                  · rw [← hob]
                    exact hdF
                  · rw [← hob]
                    exact hnrF j (hfr j (List.mem_cons_of_mem _ hj)).2
                · rw [if_neg hlive] at hpo
                  rw [Option.some.injEq, Prod.mk.injEq, Prod.mk.injEq] at hpo
                  obtain ⟨hσf, hob, htr2⟩ := hpo
                  subst hσf
                  subst htr2
                  obtain ⟨hc₁, hc₂, hokF, hdF, hnrF⟩ :=
                    hfill ob.asks hoka hda hfr₀.2 hf
                  refine ⟨hc₁, hc₂, ?_, ?_, ?_, ?_, fun j hj => ⟨?_, ?_⟩⟩ <;>
                    rw [← hob]
                  · exact hokb
                  · exact hokF
                  · exact hdb
                  · exact hdF
                  · exact (hfr j (List.mem_cons_of_mem _ hj)).1
                  · exact hnrF j (hfr j (List.mem_cons_of_mem _ hj)).2
          obtain ⟨hc₁, hc₂, hok₁, hok₂, hd₁, hd₂, hnr₁⟩ := hmain
          obtain ⟨i₁, i₂⟩ := ih σ₁ ob₁ σ₂' ob₂' trades₂ hpl
            (List.nodup_cons.mp hnd).2 hok₁ hok₂ hd₁ hd₂ hnr₁
          refine ⟨?_, ?_⟩
          · intro j
            rw [touchVol_append]
            have := hc₁ j
            have := i₁ j
            omega
          · intro j
            have h1 := i₂ j
            rw [hc₂ j] at h1
            exact h1

theorem alSet_snd_sum (l : List (Price × ℤ)) (k : Price) (v : ℤ) :
    ((alSet l k ((alGet l k).getD 0 + v)).map Prod.snd).sum =
      (l.map Prod.snd).sum + v := by
  induction l with
  | nil => simp [alSet, alGet]
  | cons kv rest ih =>
      obtain ⟨k₀, v₀⟩ := kv
      by_cases hk : k₀ = k
      · subst hk
        rw [show alGet ((k₀, v₀) :: rest) k₀ = some v₀ from by
            rw [alGet, if_pos rfl],
          show alSet ((k₀, v₀) :: rest) k₀ ((some v₀).getD 0 + v) =
              (k₀, (some v₀).getD 0 + v) :: rest from by
            rw [alSet, if_pos rfl]]
        dsimp only [Option.getD]
        rw [List.map_cons, List.sum_cons, List.map_cons, List.sum_cons]
        ring
      · rw [show alGet ((k₀, v₀) :: rest) k = alGet rest k from by
            rw [alGet, if_neg hk],
          show ∀ w, alSet ((k₀, v₀) :: rest) k w = (k₀, v₀) :: alSet rest k w
            from fun w => by rw [alSet, if_neg hk]]
        rw [List.map_cons, List.sum_cons, List.map_cons, List.sum_cons, ih]
        ring

theorem alSet_notional_sum (l : List (Price × ℤ)) (k : Price) (v : ℤ) :
    ((alSet l k ((alGet l k).getD 0 + v)).map
        (fun kv => kv.1.ratValue * (kv.2 : ℚ))).sum =
      (l.map (fun kv => kv.1.ratValue * (kv.2 : ℚ))).sum +
        k.ratValue * (v : ℚ) := by
  induction l with
  | nil =>
      simp [alSet, alGet]
  | cons kv rest ih =>
      obtain ⟨k₀, v₀⟩ := kv
      by_cases hk : k₀ = k
      · subst hk
        rw [show alGet ((k₀, v₀) :: rest) k₀ = some v₀ from by
            rw [alGet, if_pos rfl],
          show alSet ((k₀, v₀) :: rest) k₀ ((some v₀).getD 0 + v) =
              (k₀, (some v₀).getD 0 + v) :: rest from by
            rw [alSet, if_pos rfl]]
        dsimp only [Option.getD]
        rw [List.map_cons, List.sum_cons, List.map_cons, List.sum_cons]
        push_cast
        ring
      · rw [show alGet ((k₀, v₀) :: rest) k = alGet rest k from by
            rw [alGet, if_neg hk],
          show ∀ w, alSet ((k₀, v₀) :: rest) k w = (k₀, v₀) :: alSet rest k w
            from fun w => by rw [alSet, if_neg hk]]
        rw [List.map_cons, List.sum_cons, List.map_cons, List.sum_cons, ih]
        ring

theorem touchVol_untouched {j : OrderId} {ts : List Trade}
    (h : ∀ t ∈ ts, t.bid_id ≠ j ∧ t.ask_id ≠ j) : touchVol j ts = 0 := by
  induction ts with
  | nil => rfl
  | cons t ts ih =>
      rw [touchVol_cons, if_neg (h t (List.mem_cons_self _ _)).1,
        if_neg (h t (List.mem_cons_self _ _)).2,
        ih (fun u hu => h u (List.mem_cons_of_mem _ hu))]
      ring

theorem NotifOK_add {σ : Store} {oid : OrderId} {tv : ℤ}
    {n : TradesNotification} (h : NotifOK σ oid tv n) (t : Trade) :
    NotifOK σ oid (tv + t.volume) (n.add_trade t) := by
  obtain ⟨h₁, h₂, h₃, h₄, h₅, h₆, h₇⟩ := h
  refine ⟨h₁, h₂, ?_, ?_, ?_, h₆, h₇⟩
  · show n.total_filled_volume + t.volume = tv + t.volume
    rw [h₃]
  · show ((alSet n.price_volume t.price
      ((alGet n.price_volume t.price).getD 0 + t.volume)).map Prod.snd).sum =
      n.total_filled_volume + t.volume
    rw [alSet_snd_sum, h₄]
  · show ((alSet n.price_volume t.price
      ((alGet n.price_volume t.price).getD 0 + t.volume)).map
        (fun kv => kv.1.ratValue * (kv.2 : ℚ))).sum =
      n.total_notional + t.price.ratValue * (t.volume : ℚ)
    rw [alSet_notional_sum, h₅]

theorem NotifOK_init {σ : Store} {oid : OrderId}
    (h : (σ oid).trader_id ≠ none) :
    NotifOK σ oid 0 (TradesNotification.init oid (σ oid)) :=
  ⟨rfl, h, rfl, rfl, rfl, rfl, rfl⟩

theorem notifSide_none {σ : Store} {oid : OrderId} (t : Trade)
    (onotifs : List (OrderId × TradesNotification))
    (tnotifs : List (ℤ × List OrderId)) (h : (σ oid).trader_id = none) :
    notifSide σ oid t onotifs tnotifs = (onotifs, tnotifs) := by
  rw [notifSide, h]

theorem notifSide_some_get {σ : Store} {oid : OrderId} (t : Trade)
    (onotifs : List (OrderId × TradesNotification))
    (tnotifs : List (ℤ × List OrderId)) (h : (σ oid).trader_id ≠ none) :
    alGet (notifSide σ oid t onotifs tnotifs).1 oid =
      some (((alGet onotifs oid).getD
        (TradesNotification.init oid (σ oid))).add_trade t) := by
  rw [notifSide]
  cases htr : (σ oid).trader_id with
  | none => exact absurd htr h
  | some tr =>
      dsimp only
      cases hg : alGet onotifs oid with
      | some n =>
          dsimp only
          rw [hg]
          dsimp only
          rw [alGet_alSet_self]
          rfl
      | none =>
          dsimp only
          rw [alGet_alSet_self]
          dsimp only
          rw [alGet_alSet_self]
          rfl

theorem notifSide_other_get {σ : Store} {oid : OrderId} (t : Trade)
    (onotifs : List (OrderId × TradesNotification))
    (tnotifs : List (ℤ × List OrderId)) {j : OrderId} (hj : j ≠ oid) :
    alGet (notifSide σ oid t onotifs tnotifs).1 j = alGet onotifs j := by
  rw [notifSide]
  cases htr : (σ oid).trader_id with
  | none => rfl
  | some tr =>
      dsimp only
      cases hg : alGet onotifs oid with
      | some n =>
          dsimp only
          rw [hg]
          dsimp only
          rw [alGet_alSet_ne _ _ (Ne.symm hj)]
      | none =>
          dsimp only
          rw [alGet_alSet_self]
          dsimp only
          rw [alGet_alSet_ne _ _ (Ne.symm hj), alGet_alSet_ne _ _ (Ne.symm hj)]

/-- One trade's two `notifSide` calls preserve the aggregation invariant,
extending the processed-trades list by that trade. -/
theorem notifStep_inv (σ : Store) (t : Trade) (processed : List Trade)
    (onotifs : List (OrderId × TradesNotification))
    (tnotifs : List (ℤ × List OrderId))
    (h : NotifInv σ processed onotifs) :
    NotifInv σ (processed ++ [t])
      (notifSide σ t.ask_id t (notifSide σ t.bid_id t onotifs tnotifs).1
        (notifSide σ t.bid_id t onotifs tnotifs).2).1 := by
  intro oid
  have htv : touchVol oid (processed ++ [t]) = touchVol oid processed +
      ((if t.bid_id = oid then t.volume else 0) +
        (if t.ask_id = oid then t.volume else 0)) := by
    rw [touchVol_append, touchVol_cons, touchVol_nil]
    ring
  have hbase : ∀ n, alGet onotifs oid = some n →
      NotifOK σ oid (touchVol oid processed) n := (h oid).1
  have hnone := (h oid).2
  by_cases hbid : oid = t.bid_id
  · subst hbid
    by_cases htr : (σ t.bid_id).trader_id = none
    · rw [notifSide_none t onotifs tnotifs htr]
      by_cases hask : t.ask_id = t.bid_id
      · rw [notifSide_none t onotifs tnotifs (by rw [hask]; exact htr)]
        exact ⟨fun n hn => absurd htr (hbase n hn).2.1,
          fun _ => Or.inl htr⟩
      · refine ⟨fun n hn => ?_, fun _ => Or.inl htr⟩
        rw [notifSide_other_get t onotifs tnotifs
          (fun hc => hask hc.symm)] at hn
        exact absurd htr (hbase n hn).2.1
    · have hget₁ := notifSide_some_get t onotifs tnotifs htr
      have hmid : NotifOK σ t.bid_id (touchVol t.bid_id processed + t.volume)
          (((alGet onotifs t.bid_id).getD
            (TradesNotification.init t.bid_id (σ t.bid_id))).add_trade t) := by
        cases hg : alGet onotifs t.bid_id with
        | some n => exact NotifOK_add (hbase n hg) t
        | none =>
            have h0 : touchVol t.bid_id processed = 0 := by
              rcases hnone hg with hc | hc
              · exact absurd hc htr
              · exact touchVol_untouched hc
            rw [h0]
            have h1 := NotifOK_add (NotifOK_init htr) t
            rw [zero_add] at h1
            rw [zero_add]
            exact h1
      by_cases hask : t.ask_id = t.bid_id
      · rw [hask]
        have h₂ := notifSide_some_get t
          (notifSide σ t.bid_id t onotifs tnotifs).1
          (notifSide σ t.bid_id t onotifs tnotifs).2 htr
        rw [hget₁] at h₂
        refine ⟨fun n hn => ?_, fun hn => ?_⟩
        · rw [h₂] at hn
          obtain rfl := Option.some.inj hn
          rw [htv, if_pos rfl, if_pos hask]
          have harith : touchVol t.bid_id processed + (t.volume + t.volume) =
              touchVol t.bid_id processed + t.volume + t.volume := by ring
          rw [harith]
          exact NotifOK_add hmid t
        · rw [h₂] at hn
          exact Option.noConfusion hn
      · have h₂ : alGet (notifSide σ t.ask_id t
            (notifSide σ t.bid_id t onotifs tnotifs).1
            (notifSide σ t.bid_id t onotifs tnotifs).2).1 t.bid_id =
            some (((alGet onotifs t.bid_id).getD
              (TradesNotification.init t.bid_id (σ t.bid_id))).add_trade t) := by
          rw [notifSide_other_get t _ _ (fun hc => hask hc.symm), hget₁]
        refine ⟨fun n hn => ?_, fun hn => ?_⟩
        · rw [h₂] at hn
          obtain rfl := Option.some.inj hn
          rw [htv, if_pos rfl, if_neg hask]
          have harith : touchVol t.bid_id processed + (t.volume + 0) =
              touchVol t.bid_id processed + t.volume := by ring
          rw [harith]
          exact hmid
        · rw [h₂] at hn
          exact Option.noConfusion hn
  · have he₁ : alGet (notifSide σ t.bid_id t onotifs tnotifs).1 oid =
        alGet onotifs oid :=
      notifSide_other_get t onotifs tnotifs hbid
    by_cases hask : oid = t.ask_id
    · subst hask
      by_cases htr : (σ t.ask_id).trader_id = none
      · rw [notifSide_none t
          (notifSide σ t.bid_id t onotifs tnotifs).1
          (notifSide σ t.bid_id t onotifs tnotifs).2 htr]
        refine ⟨fun n hn => ?_, fun _ => Or.inl htr⟩
        rw [he₁] at hn
        exact absurd htr (hbase n hn).2.1
      · have h₂ := notifSide_some_get t
          (notifSide σ t.bid_id t onotifs tnotifs).1
          (notifSide σ t.bid_id t onotifs tnotifs).2 htr
        rw [he₁] at h₂
        have hmid : NotifOK σ t.ask_id (touchVol t.ask_id processed + t.volume)
            (((alGet onotifs t.ask_id).getD
              (TradesNotification.init t.ask_id (σ t.ask_id))).add_trade t) := by
          cases hg : alGet onotifs t.ask_id with
          | some n => exact NotifOK_add (hbase n hg) t
          | none =>
              have h0 : touchVol t.ask_id processed = 0 := by
                rcases hnone hg with hc | hc
                · exact absurd hc htr
                · exact touchVol_untouched hc
              rw [h0]
              have h1 := NotifOK_add (NotifOK_init htr) t
              rw [zero_add] at h1
              rw [zero_add]
              exact h1
        refine ⟨fun n hn => ?_, fun hn => ?_⟩
        · rw [h₂] at hn
          obtain rfl := Option.some.inj hn
          rw [htv, if_neg (fun hc => hbid hc.symm), if_pos rfl]
          have harith : touchVol t.ask_id processed + (0 + t.volume) =
              touchVol t.ask_id processed + t.volume := by ring
          rw [harith]
          exact hmid
        · rw [h₂] at hn
          exact Option.noConfusion hn
    · have h₂ : alGet (notifSide σ t.ask_id t
          (notifSide σ t.bid_id t onotifs tnotifs).1
          (notifSide σ t.bid_id t onotifs tnotifs).2).1 oid =
          alGet onotifs oid := by
        rw [notifSide_other_get t _ _ hask, he₁]
      have htv0 : touchVol oid (processed ++ [t]) =
          touchVol oid processed := by
        rw [htv, if_neg (fun hc => hbid hc.symm),
          if_neg (fun hc => hask hc.symm)]
        ring
      refine ⟨fun n hn => ?_, fun hn => ?_⟩
      · rw [h₂] at hn
        rw [htv0]
        exact hbase n hn
      · rw [h₂] at hn
        rcases hnone hn with hc | hc
        · exact Or.inl hc
        · refine Or.inr ?_
          intro u hu
          rcases List.mem_append.mp hu with hu' | hu'
          · exact hc u hu'
          · obtain rfl : u = t := by simpa using hu'
            exact ⟨fun hc' => hbid hc'.symm, fun hc' => hask hc'.symm⟩

/-- The aggregation fold of `_process_trades` establishes the invariant over
the whole batch. -/
theorem processTrades_foldInv (σ : Store) :
    ∀ (ts : List Trade) (processed : List Trade)
      (acc : List (OrderId × TradesNotification) × List (ℤ × List OrderId)),
      NotifInv σ processed acc.1 →
      NotifInv σ (processed ++ ts)
        ((ts.foldl (fun acc t =>
          let acc₁ := notifSide σ t.bid_id t acc.1 acc.2
          notifSide σ t.ask_id t acc₁.1 acc₁.2) acc).1) := by
  intro ts
  induction ts with
  | nil =>
      intro processed acc h
      simpa using h
  | cons t ts ih =>
      intro processed acc h
      rw [List.foldl_cons]
      have h' := notifStep_inv σ t processed acc.1 acc.2 h
      have := ih (processed ++ [t])
        (notifSide σ t.ask_id t (notifSide σ t.bid_id t acc.1 acc.2).1
          (notifSide σ t.bid_id t acc.1 acc.2).2) h'
      simpa [List.append_assoc] using this

theorem process_trades_inv (σ : Store) (ob : OrderBook) (trades : List Trade) :
    NotifInv σ trades (OrderBook.process_trades σ ob trades).2.1 := by
  have hstart : NotifInv σ [] ([] : List (OrderId × TradesNotification)) := by
    intro oid
    exact ⟨fun n hn => Option.noConfusion hn, fun _ => Or.inr (by simp)⟩
  have := processTrades_foldInv σ trades []
    (([], []) : List (OrderId × TradesNotification) × List (ℤ × List OrderId))
    hstart
  simpa using this

/-- **C5**.  Aggregator consistency of `process_orders`: every
`TradesNotification` it returns has `price_volume` values summing to
`total_filled_volume`, price-weighted values summing to `total_notional`,
`remaining_volume` equal to the order's pre-batch volume minus
`total_filled_volume` — which is the order's live volume at the end of the
batch — and `is_filled` exactly when that remaining volume is `0`. -/
theorem C5_notification_consistency
    (σ : Store) (ob : OrderBook) (oids : List OrderId)
    (σ' : Store) (ob' : OrderBook) (out : List (ℤ × List TradesNotification))
    (h : OrderBook.process_orders σ ob oids = some (σ', ob', out))
    (hnd : oids.Nodup)
    (hokb : LevelsOK ob.bids) (hoka : LevelsOK ob.asks)
    (hdb : LevelsDisj ob.bids) (hda : LevelsDisj ob.asks)
    (hfresh : ∀ oid ∈ oids, NotResting ob.bids oid ∧ NotResting ob.asks oid) :
    ∀ kv ∈ out, ∀ n ∈ (kv.2 : List TradesNotification),
      (n.price_volume.map Prod.snd).sum = n.total_filled_volume ∧
      (n.price_volume.map (fun p => p.1.ratValue * (p.2 : ℚ))).sum =
        n.total_notional ∧
      n.remaining_volume = (σ n.order_id).volume - n.total_filled_volume ∧
      n.remaining_volume = (σ' n.order_id).volume ∧
      (n.is_filled = true ↔ n.remaining_volume = 0) := by
  rw [OrderBook.process_orders] at h
  cases hpl : OrderBook.processLoop σ ob oids with
  | none => rw [hpl] at h; simp at h
  | some r =>
    rw [hpl] at h
    obtain ⟨σ₁, ob₁, trades⟩ := r
    dsimp only at h
    rw [Option.some.injEq, Prod.mk.injEq, Prod.mk.injEq] at h
    obtain ⟨hσ, _, hout⟩ := h
    subst hσ
    subst hout
    obtain ⟨hcons, _⟩ := processLoop_conserve oids σ ob σ₁ ob₁ trades hpl
      hnd hokb hoka hdb hda hfresh
    have hinv := process_trades_inv σ₁ ob₁ trades
    intro kv hkv n hn
    rw [OrderBook.notifOut] at hkv
    obtain ⟨kv₀, _, rfl⟩ := List.mem_map.mp hkv
    obtain ⟨a, _, hga⟩ := List.mem_filterMap.mp hn
    obtain ⟨h₁, _, h₃, h₄, h₅, h₆, h₇⟩ := (hinv a).1 n hga
    refine ⟨h₄, h₅, ?_, ?_, ?_⟩
    · rw [h₁]
      have e₁ := hcons a
      rw [← h₃] at e₁
      omega
    · rw [h₁]
      exact h₆
    · rw [h₇, h₆]
      simp

/-- **C5**, witness: the two-order batch produces the two concrete
notifications, each satisfying every aggregator-consistency conjunct. -/
theorem C5_witness :
    (OrderBook.process_orders c5Store c5OB [0, 1] =
        some (c5Store', c5OB', c5Out) ∧
      ([0, 1] : List OrderId).Nodup ∧
      LevelsOK c5OB.bids ∧ LevelsOK c5OB.asks ∧
      LevelsDisj c5OB.bids ∧ LevelsDisj c5OB.asks ∧
      (∀ oid ∈ ([0, 1] : List OrderId),
        NotResting c5OB.bids oid ∧ NotResting c5OB.asks oid) ∧
      (1, [c5n0]) ∈ c5Out ∧ c5n0 ∈ [c5n0]) ∧
    ((c5n0.price_volume.map Prod.snd).sum = c5n0.total_filled_volume ∧
      (c5n0.price_volume.map (fun p => p.1.ratValue * (p.2 : ℚ))).sum =
        c5n0.total_notional ∧
      c5n0.remaining_volume =
        (c5Store c5n0.order_id).volume - c5n0.total_filled_volume ∧
      c5n0.remaining_volume = (c5Store' c5n0.order_id).volume ∧
      (c5n0.is_filled = true ↔ c5n0.remaining_volume = 0)) :=
  ⟨⟨rfl, by decide, by decide, by decide, by decide, by decide, by decide,
    List.mem_cons_self _ _, List.mem_cons_self _ _⟩,
    C5_notification_consistency c5Store c5OB [0, 1] c5Store' c5OB' c5Out rfl
      (by decide) (by decide) (by decide) (by decide) (by decide) (by decide)
      (1, [c5n0]) (List.mem_cons_self _ _) c5n0 (List.mem_cons_self _ _)⟩

end LOB
